import Mathlib

/-!
# Inter-procedural dead store elimination

A shallow embedding of `IPDeadStoreElimination::runOnModule`
(`src/src/transforms/IPDeadStoreElimination.cpp`) and of the helpers defined next to it
(`hasFunctionPtrParam`, `findCalledFunction`, `markStoreToKeep`, `markStoreToRemove`,
`enqueue`, `QueueElem`).

* The LLVM IR is a finite structure: a module is a list of functions, a function a list of basic
  blocks, a block a list of instructions.  Pointers to instructions and functions are natural
  numbers (`InstId`, `FunId`); an instruction carries its use list.
* The memory-SSA helpers of `analysis/MemorySSA.h` and the sea-dsa stripping pass are not part of
  the embedded file.  They are collected in the structure `MemSSA` and every definition is
  parametric in it.
* `report_fatal_error` is the `Except.error` result, carrying the pass state at the abort.
* The `while (!queue.empty())` loop is iterated by `mainLoop` on a fuel argument; `runOnModule`
  supplies `loopFuel`, which is proved to be enough.
-/

namespace IPDSE

/-! ## The intermediate representation -/

/-- Address of an `llvm::Instruction`. -/
abbrev InstId := Nat

/-- Address of an `llvm::Function`. -/
abbrev FunId := Nat

/-- The part of `llvm::Type` that `hasFunctionPtrParam` looks at. -/
inductive Ty where
  | function : Ty
  | pointer (elem : Ty) : Ty
  | other : Ty
  deriving DecidableEq, Repr

/-- An `llvm::Value*` as the pass sees it through `dyn_cast<Instruction>`: an instruction or
something else. -/
inductive Value where
  | inst (i : InstId) : Value
  | nonInst : Value
  deriving DecidableEq, Repr

/-- The instruction classes the pass distinguishes with `dyn_cast`/`isa`: `PHINode`, `CallInst`
(with `getCalledFunction()`, `none` for an indirect call), `StoreInst`, anything else. -/
inductive Opcode where
  | phi : Opcode
  | call (callee : Option FunId) : Opcode
  | store : Opcode
  | other : Opcode
  deriving DecidableEq, Repr

/-- An instruction: its address, its class and its use list (`uses()`, users in list order). -/
structure Instruction where
  id : InstId
  opcode : Opcode
  uses : List Value
  deriving DecidableEq, Repr

/-- A function: address, name, parameter types of its function type, basic blocks in order and
the use list of the function itself. -/
structure Function where
  id : FunId
  name : String
  paramTypes : List Ty
  blocks : List (List Instruction)
  uses : List Value
  deriving DecidableEq, Repr

/-- A module: its functions in iteration order. -/
structure Module where
  functions : List Function
  deriving DecidableEq, Repr

/-- The instructions of a block from the one with address `i` to the end of the block
(`I->getIterator()` up to `I->getParent()->end()`); empty when `i` is not in the block. -/
def blockFrom (i : InstId) : List Instruction → List Instruction
  | [] => []
  | x :: xs => if x.id = i then x :: xs else blockFrom i xs

/-- First block of the list that contains address `i`, cut to start at `i`. -/
def locateInBlocks (i : InstId) : List (List Instruction) → Option (List Instruction)
  | [] => none
  | b :: bs =>
    match blockFrom i b with
    | [] => locateInBlocks i bs
    | x :: xs => some (x :: xs)

/-- Dereferences an instruction address: the parent function and the rest of the parent block
starting at the instruction. -/
def locateInFunctions (i : InstId) : List Function → Option (Function × List Instruction)
  | [] => none
  | F :: Fs =>
    match locateInBlocks i F.blocks with
    | some l => some (F, l)
    | none => locateInFunctions i Fs

/-- Dereferences an instruction address in a module. -/
def Module.locate (M : Module) (i : InstId) : Option (Function × List Instruction) :=
  locateInFunctions i M.functions

/-- The instruction at an address. -/
def Module.instruction? (M : Module) (i : InstId) : Option Instruction :=
  match M.locate i with
  | some (_, x :: _) => some x
  | _ => none

/-- Class of the instruction at an address. -/
def Module.opcodeOf (M : Module) (i : InstId) : Option Opcode :=
  (M.instruction? i).map (fun x => x.opcode)

/-- Use list of the instruction at an address: `I->uses()`. -/
def Module.usesOf (M : Module) (i : InstId) : List Value :=
  match M.instruction? i with
  | some x => x.uses
  | none => []

/-- Use list of the function that contains the instruction:
`I->getParent()->getParent()->uses()`. -/
def Module.parentUses (M : Module) (i : InstId) : List Value :=
  match M.locate i with
  | some (F, _) => F.uses
  | none => []

/-- Dereferences a function address. -/
def Module.function? (M : Module) (g : FunId) : Option Function :=
  M.functions.find? (fun F => decide (F.id = g))

/-- Addresses of all instructions of a function, in `instructions(&F)` order. -/
def Function.instIds (F : Function) : List InstId :=
  F.blocks.flatMap (fun b => b.map (fun x => x.id))

/-- Addresses of all instructions of the module. -/
def Module.instIds (M : Module) : List InstId :=
  M.functions.flatMap Function.instIds

/-- Addresses are unique: no two instructions of the module share one. -/
def Module.WF (M : Module) : Prop := M.instIds.Nodup

instance (M : Module) : Decidable M.WF := by
  unfold Module.WF; infer_instance

/-- Removes the instruction at address `SI` from its block: `SI->eraseFromParent()`. -/
def Module.eraseFromParent (M : Module) (SI : InstId) : Module :=
  { functions := M.functions.map (fun F =>
      { F with blocks := F.blocks.map (fun b => b.filter (fun x => decide (x.id ≠ SI))) }) }

/-! ## Helpers of the source file -/

/-- The test `PointerType` whose element type is a `FunctionType`. -/
def isFunctionPtr : Ty → Bool
  | .pointer .function => true
  | _ => false

/-- Source `hasFunctionPtrParam`: some parameter type is a pointer to a function. -/
def hasFunctionPtrParam (F : Function) : Bool :=
  F.paramTypes.any isFunctionPtr

/-- The call `hasFunctionPtrParam(CS.getCalledFunction())` on a function address. -/
def Module.hasFunctionPtrParam (M : Module) (g : FunId) : Bool :=
  match M.function? g with
  | some G => IPDSE.hasFunctionPtrParam G
  | none => false

/-- The test `getName().startswith("shadow.mem")`. -/
def startsWithShadowMem (name : String) : Bool :=
  "shadow.mem".data.isPrefixOf name.data

/-- Name test on a function address. -/
def Module.isShadowMemFunction (M : Module) (g : FunId) : Bool :=
  match M.function? g with
  | some G => startsWithShadowMem G.name
  | none => false

/-- Source `findCalledFunction`, on the instructions from the shadow call to the end of its
block: the first call that is not a call to a `shadow.mem` function gives the callee; an indirect
call met on the way gives `nullptr`. -/
def findCalledFunctionFrom (M : Module) : List Instruction → Option FunId
  | [] => none
  | x :: rest =>
    match x.opcode with
    | .call none => none
    | .call (some g) =>
      if M.isShadowMemFunction g then findCalledFunctionFrom M rest else some g
    | _ => findCalledFunctionFrom M rest

/-- Source `findCalledFunction` on the address of the shadow call. -/
def Module.findCalledFunction (M : Module) (i : InstId) : Option FunId :=
  match M.locate i with
  | some (_, l) => findCalledFunctionFrom M l
  | none => none

/-! ## External collaborators -/

/-- Kinds of shadow-memory pseudo-operations. -/
inductive ShadowKind where
  | Store | Load | ArgRef | ArgMod | ArgRefMod | FunIn | FunOut
  deriving DecidableEq, Repr

/-- Per-function effect table (`MemorySSAFunction`): `getNumInFormals` and `getInFormal`, the
latter `none` for `nullptr`. -/
structure MemorySSAFunction where
  numInFormals : Nat
  getInFormal : Int → Option Value

/-- Per-call-site effect table (`MemorySSACallSite`). -/
structure MemorySSACallSite where
  numParams : Nat
  isRefMod : Int → Bool
  isMod : Int → Bool
  isNew : Int → Bool
  getPrimed : Int → Value

/-- The object `MemorySSACallsManager MMan(M, *this, OnlySingleton)`: `getFunction` and
`getCallSite`, `none` for `nullptr`. -/
structure MemorySSACallsManager where
  getFunction : FunId → Option MemorySSAFunction
  getCallSite : InstId → Option MemorySSACallSite

/-- Modelled from the spec: the declarations of `analysis/MemorySSA.h` and of
`sea_dsa::StripShadowMemPass` are missing from the sources at hand.  `classify` is the shadow-kind
query `classify(instruction, singletonOnly)` of the spec (one kind or none per instruction),
`hasMemSSALoadUser` the transitive Load-kind-user test, `getMemSSAParamIdx` the parameter index
read from the shadow call (negative when there is none), `callsManager` the construction of the
effect tables and `stripShadowMem` the Shadow Stripper. -/
structure MemSSA where
  classify : InstId → Bool → Option ShadowKind
  hasMemSSALoadUser : InstId → Bool → Bool
  getMemSSAParamIdx : InstId → Int
  callsManager : Module → Bool → MemorySSACallsManager
  stripShadowMem : Module → Module

/-- The query `isMemSSAStore(I, OnlySingleton)`. -/
def isMemSSAStore (ssa : MemSSA) (i : InstId) (only_singleton : Bool) : Bool :=
  decide (ssa.classify i only_singleton = some .Store)

/-- The query `isMemSSAArgRef(CS, OnlySingleton)`. -/
def isMemSSAArgRef (ssa : MemSSA) (i : InstId) (only_singleton : Bool) : Bool :=
  decide (ssa.classify i only_singleton = some .ArgRef)

/-- The query `isMemSSAArgMod(CS, OnlySingleton)`. -/
def isMemSSAArgMod (ssa : MemSSA) (i : InstId) (only_singleton : Bool) : Bool :=
  decide (ssa.classify i only_singleton = some .ArgMod)

/-- The query `isMemSSAArgRefMod(CS, OnlySingleton)`. -/
def isMemSSAArgRefMod (ssa : MemSSA) (i : InstId) (only_singleton : Bool) : Bool :=
  decide (ssa.classify i only_singleton = some .ArgRefMod)

/-- The query `isMemSSAFunIn(CS, OnlySingleton)`. -/
def isMemSSAFunIn (ssa : MemSSA) (i : InstId) (only_singleton : Bool) : Bool :=
  decide (ssa.classify i only_singleton = some .FunIn)

/-- The query `isMemSSAFunOut(CS, OnlySingleton)`. -/
def isMemSSAFunOut (ssa : MemSSA) (i : InstId) (only_singleton : Bool) : Bool :=
  decide (ssa.classify i only_singleton = some .FunOut)

/-! ## Configuration and pass state -/

/-- Number of values of the C++ type `unsigned`. -/
def UINT_RANGE : Nat := 4294967296

/-- The command-line options `ip-dse-only-singleton` and `ip-dse-max-def-use` (an `unsigned`,
default `UINT_MAX`), and whether `assert` is compiled in (`NDEBUG` undefined). -/
structure Config where
  OnlySingleton : Bool
  MaxLenDefUse : Nat
  assertions : Bool
  deriving DecidableEq, Repr

/-- The default options: singleton regions only, `UINT_MAX` hops. -/
def Config.default (assertions : Bool) : Config :=
  { OnlySingleton := true, MaxLenDefUse := 4294967295, assertions := assertions }

/-- Source `QueueElem`. -/
structure QueueElem where
  shadow_mem_inst : InstId
  store_inst : InstId
  length : Nat
  deriving DecidableEq, Repr

/-- The key of `QueueElem::operator==` and `QueueElem::hash`: the hop count is not part of it. -/
def QueueElem.key (w : QueueElem) : InstId × InstId :=
  (w.shadow_mem_inst, w.store_inst)

/-- The messages of `report_fatal_error` and the failure of `assert(CS.getCalledFunction())`. -/
inductive Fatal where
  | expectStoreInst : Fatal
  | cannotFindIndex : Fatal
  | cannotFindCallee : Fatal
  | cannotFindMemorySSAFunction : Fatal
  | getInFormalNull : Fatal
  | expectedEnqueueFromCallee : Fatal
  | cannotFindMemorySSACallSite : Fatal
  | nullCalledFunction : Fatal
  | assertionFailed : Fatal
  | expectedEnqueueFromCaller : Fatal
  deriving DecidableEq, Repr

/-- The mutable state of a run: the vector `queue` (its back is the head of the list), the set
`visited` (most recent insertion first), the map `m_store_map` (`true` is keep), the counter
`skipped_chains` and the number of `Warning: unexpected case` lines written.  The counters are
`unsigned` in the source and count distinct queue elements; they are kept as natural numbers. -/
structure PassState where
  queue : List QueueElem
  visited : List (InstId × InstId)
  m_store_map : List (InstId × Bool)
  skipped_chains : Nat
  warnings : Nat
  deriving DecidableEq, Repr

/-- The state before seeding, for a freshly constructed pass. -/
def PassState.init : PassState :=
  { queue := [], visited := [], m_store_map := [], skipped_chains := 0, warnings := 0 }

/-- The assignment `m[k] = v` on a `DenseMap`. -/
def storeMapSet (k : InstId) (v : Bool) : List (InstId × Bool) → List (InstId × Bool)
  | [] => [(k, v)]
  | (k', v') :: rest =>
    if k' = k then (k, v) :: rest else (k', v') :: storeMapSet k v rest

/-- Lookup in the map. -/
def storeMapGet (k : InstId) : List (InstId × Bool) → Option Bool
  | [] => none
  | (k', v') :: rest => if k' = k then some v' else storeMapGet k rest

/-- The decision recorded for a store, if any. -/
def PassState.decision (st : PassState) (SI : InstId) : Option Bool :=
  storeMapGet SI st.m_store_map

/-- Source `enqueue`: `queue.push_back(e)`. -/
def PassState.enqueue (st : PassState) (e : QueueElem) : PassState :=
  { st with queue := e :: st.queue }

/-- Source `markStoreToKeep`. -/
def PassState.markStoreToKeep (st : PassState) (SI : InstId) : PassState :=
  { st with m_store_map := storeMapSet SI true st.m_store_map }

/-- Source `markStoreToRemove`. -/
def PassState.markStoreToRemove (st : PassState) (SI : InstId) : PassState :=
  { st with m_store_map := storeMapSet SI false st.m_store_map }

/-- A step either yields the next state or aborts with the state reached. -/
abbrev Res := Except (Fatal × PassState) PassState

/-! ## Seeding -/

/-- The body of the seeding loop on one basic block.  The instruction after a shadow store marker
is read with `++it`; a well-formed block ends in a terminator, so a marker is never last, and a
missing successor is treated like a successor that is not a `StoreInst`. -/
def seedBlock (cfg : Config) (ssa : MemSSA) : List Instruction → PassState → Res
  | [], st => .ok st
  | x :: rest, st =>
    if isMemSSAStore ssa x.id cfg.OnlySingleton then
      match rest with
      | SI :: _ =>
        if SI.opcode = .store then
          seedBlock cfg ssa rest
            ((st.enqueue { shadow_mem_inst := x.id, store_inst := SI.id, length := 0 }).markStoreToRemove
              SI.id)
        else .error (.expectStoreInst, st)
      | [] => .error (.expectStoreInst, st)
    else seedBlock cfg ssa rest st

/-- Seeding over the blocks of a function: `for (auto &I: instructions(&F))`. -/
def seedBlocks (cfg : Config) (ssa : MemSSA) : List (List Instruction) → PassState → Res
  | [], st => .ok st
  | b :: bs, st =>
    match seedBlock cfg ssa b st with
    | .error e => .error e
    | .ok st' => seedBlocks cfg ssa bs st'

/-- Seeding over the functions of the module: `for (auto& F: M)`. -/
def seedFunctions (cfg : Config) (ssa : MemSSA) : List Function → PassState → Res
  | [], st => .ok st
  | F :: Fs, st =>
    match seedBlocks cfg ssa F.blocks st with
    | .error e => .error e
    | .ok st' => seedFunctions cfg ssa Fs st'

/-- The seeding phase of `runOnModule`. -/
def seedModule (cfg : Config) (ssa : MemSSA) (M : Module) : Res :=
  seedFunctions cfg ssa M.functions PassState.init

/-! ## The traversal -/

/-- The hop count `w.length+1` of an enqueued element, in `unsigned` arithmetic. -/
def nextLength (w : QueueElem) : Nat := (w.length + 1) % UINT_RANGE

/-- The loop `for (auto &U: F->uses())` of the `FunOut` case.  Returning `.ok` from the middle of
the list is the `break` of the source. -/
def callersLoop (cfg : Config) (MMan : MemorySSACallsManager) (M : Module) (w : QueueElem)
    (idx : Int) : List Value → PassState → Res
  | [], st => .ok st
  | .nonInst :: rest, st => callersLoop cfg MMan M w idx rest st
  | .inst CI :: rest, st =>
    match M.opcodeOf CI with
    | some (.call callee) =>
      match MMan.getCallSite CI with
      | none => .error (.cannotFindMemorySSACallSite, st)
      | some MemSsaCS =>
        match callee with
        | none => .error (.nullCalledFunction, st)
        | some g =>
          if M.hasFunctionPtrParam g then
            callersLoop cfg MMan M w idx rest (st.markStoreToKeep w.store_inst)
          else if idx ≥ (MemSsaCS.numParams : Int) then
            .ok (st.markStoreToKeep w.store_inst)
          else if cfg.OnlySingleton && (!MemSsaCS.isRefMod idx) && (!MemSsaCS.isMod idx)
              && (!MemSsaCS.isNew idx) then
            .ok (st.markStoreToKeep w.store_inst)
          else if cfg.assertions && !(cfg.OnlySingleton || MemSsaCS.isRefMod idx
              || MemSsaCS.isMod idx || MemSsaCS.isNew idx) then
            .error (.assertionFailed, st)
          else
            match MemSsaCS.getPrimed idx with
            | .inst caller_primed =>
              callersLoop cfg MMan M w idx rest
                (st.enqueue
                  { shadow_mem_inst := caller_primed, store_inst := w.store_inst,
                    length := nextLength w })
            | .nonInst => .error (.expectedEnqueueFromCaller, st)
    | _ => callersLoop cfg MMan M w idx rest st

/-- The body of the loop `for (auto &U: w.shadow_mem_inst->uses())` for one use. -/
def processUser (cfg : Config) (ssa : MemSSA) (MMan : MemorySSACallsManager) (M : Module)
    (w : QueueElem) (U : Value) (st : PassState) : Res :=
  match U with
  | .nonInst => .ok st
  | .inst I =>
    match M.opcodeOf I with
    | some .phi =>
      .ok (st.enqueue
        { shadow_mem_inst := I, store_inst := w.store_inst, length := nextLength w })
    | some (.call none) => .ok st
    | some (.call (some _)) =>
      if isMemSSAStore ssa I cfg.OnlySingleton then .ok st
      else if isMemSSAArgRef ssa I cfg.OnlySingleton then .ok (st.markStoreToKeep w.store_inst)
      else if isMemSSAArgMod ssa I cfg.OnlySingleton then .ok st
      else if isMemSSAArgRefMod ssa I cfg.OnlySingleton then
        let idx := ssa.getMemSSAParamIdx I
        if idx < 0 then .error (.cannotFindIndex, st)
        else
          match M.findCalledFunction I with
          | none => .error (.cannotFindCallee, st)
          | some calleeF =>
            match MMan.getFunction calleeF with
            | none => .error (.cannotFindMemorySSAFunction, st)
            | some MemSsaFun =>
              if MemSsaFun.numInFormals = 0 then .ok (st.markStoreToKeep w.store_inst)
              else
                match MemSsaFun.getInFormal idx with
                | none => .error (.getInFormalNull, st)
                | some (.inst calleeInitArg) =>
                  .ok (st.enqueue
                    { shadow_mem_inst := calleeInitArg, store_inst := w.store_inst,
                      length := nextLength w })
                | some .nonInst => .error (.expectedEnqueueFromCallee, st)
      else if isMemSSAFunIn ssa I cfg.OnlySingleton then .ok st
      else if isMemSSAFunOut ssa I cfg.OnlySingleton then
        let idx := ssa.getMemSSAParamIdx I
        if idx < 0 then .error (.cannotFindIndex, st)
        else callersLoop cfg MMan M w idx (M.parentUses I) st
      else .ok { st with warnings := st.warnings + 1 }
    | _ => .ok st

/-- The loop `for (auto &U: w.shadow_mem_inst->uses())`. -/
def usersLoop (cfg : Config) (ssa : MemSSA) (MMan : MemorySSACallsManager) (M : Module)
    (w : QueueElem) : List Value → PassState → Res
  | [], st => .ok st
  | U :: rest, st =>
    match processUser cfg ssa MMan M w U st with
    | .error e => .error e
    | .ok st' => usersLoop cfg ssa MMan M w rest st'

/-- One iteration of `while (!queue.empty())` on the element `w` taken from the back of the
queue, in the state left by `pop_back`. -/
def processElem (cfg : Config) (ssa : MemSSA) (MMan : MemorySSACallsManager) (M : Module)
    (w : QueueElem) (st : PassState) : Res :=
  if w.key ∈ st.visited then .ok (st.markStoreToKeep w.store_inst)
  else
    let st1 := { st with visited := w.key :: st.visited }
    if w.length = cfg.MaxLenDefUse then
      .ok ({ st1 with skipped_chains := st1.skipped_chains + 1 }.markStoreToKeep w.store_inst)
    else if ssa.hasMemSSALoadUser w.shadow_mem_inst cfg.OnlySingleton then
      .ok (st1.markStoreToKeep w.store_inst)
    else usersLoop cfg ssa MMan M w (M.usesOf w.shadow_mem_inst) st1

/-- One iteration of the main loop: `queue.back()`, `queue.pop_back()` and the loop body.  On an
empty queue nothing happens. -/
def step (cfg : Config) (ssa : MemSSA) (MMan : MemorySSACallsManager) (M : Module)
    (st : PassState) : Res :=
  match st.queue with
  | [] => .ok st
  | w :: q => processElem cfg ssa MMan M w { st with queue := q }

/-- The loop `while (!queue.empty())`, iterated at most `fuel` times; `none` when the queue is
not empty after `fuel` iterations. -/
def mainLoop (cfg : Config) (ssa : MemSSA) (MMan : MemorySSACallsManager) (M : Module) :
    Nat → PassState → Option Res
  | 0, st =>
    match st.queue with
    | [] => some (.ok st)
    | _ :: _ => none
  | fuel + 1, st =>
    match st.queue with
    | [] => some (.ok st)
    | _ :: _ =>
      match step cfg ssa MMan M st with
      | .error e => some (.error e)
      | .ok st' => mainLoop cfg ssa MMan M fuel st'

/-! ## A bound on the number of iterations -/

/-- Number of elements one use can enqueue: one for the use itself plus one per use of the
function that contains the user. -/
def useWeight (M : Module) : Value → Nat
  | .nonInst => 0
  | .inst I => 1 + (M.parentUses I).length

/-- Bound on the number of elements enqueued while the uses of node `n` are processed. -/
def outDegree (M : Module) (n : InstId) : Nat :=
  ((M.usesOf n).map (useWeight M)).sum

/-- The pairs (instruction of the module, store) not yet in the visited set. -/
def unvisited (M : Module) (stores : List InstId) (visited : List (InstId × InstId)) :
    List (InstId × InstId) :=
  (M.instIds.product stores).filter (fun p => decide (p ∉ visited))

/-- The measure that decreases with every iteration of the main loop: the queue length plus, for
every unvisited pair, one more than the number of elements its first visit can enqueue. -/
def potential (M : Module) (stores : List InstId) (st : PassState) : Nat :=
  st.queue.length + ((unvisited M stores st.visited).map (fun p => 1 + outDegree M p.1)).sum

/-- Number of iterations granted to the main loop started in `st`. -/
def loopFuel (M : Module) (st : PassState) : Nat :=
  potential M (st.queue.map (fun w => w.store_inst)) st

/-! ## Store Eliminator and the pass -/

/-- The loop `for (auto &kv: m_store_map)`: erases every store whose entry is `false` and counts
the erasures. -/
def eliminate : List (InstId × Bool) → Module × Nat → Module × Nat
  | [], acc => acc
  | (SI, keep) :: rest, (M, num_deleted) =>
    if !keep then eliminate rest (M.eraseFromParent SI, num_deleted + 1)
    else eliminate rest (M, num_deleted)

/-- What a completed run leaves behind: the state when the worklist has drained, the module after
the Store Eliminator, the reported count `num_deleted`, whether the Shadow Stripper was invoked,
and the module when `runOnModule` returns. -/
structure Report where
  st : PassState
  eliminated : Module
  num_deleted : Nat
  stripped : Bool
  M : Module

/-- Result of the pass: normal return, abort by a fatal error (with the pass state and the module
at that moment), or main loop not finished within its fuel. -/
inductive Outcome where
  | finished (r : Report) : Outcome
  | aborted (e : Fatal) (st : PassState) (M : Module) : Outcome
  | outOfFuel : Outcome

/-- Source `IPDeadStoreElimination::runOnModule`. -/
def runOnModule (cfg : Config) (ssa : MemSSA) (M : Module) : Outcome :=
  match M.functions with
  | [] =>
    .finished { st := PassState.init, eliminated := M, num_deleted := 0, stripped := false, M := M }
  | _ :: _ =>
    match seedModule cfg ssa M with
    | .error (e, st) => .aborted e st M
    | .ok st0 =>
      match st0.queue with
      | [] =>
        .finished
          { st := st0, eliminated := M, num_deleted := 0, stripped := true,
            M := ssa.stripShadowMem M }
      | _ :: _ =>
        match mainLoop cfg ssa (ssa.callsManager M cfg.OnlySingleton) M (loopFuel M st0) st0 with
        | none => .outOfFuel
        | some (.error (e, st)) => .aborted e st M
        | some (.ok st') =>
          let res := eliminate st'.m_store_map (M, 0)
          .finished
            { st := st', eliminated := res.1, num_deleted := res.2, stripped := true,
              M := ssa.stripShadowMem res.1 }

end IPDSE


namespace IPDSE

/-! ## Notions used in the statements and proofs -/

/-- The state carried by a result, normal or aborted. -/
def resState : Res → PassState
  | .ok st => st
  | .error (_, st) => st

/-- Applies a state transformation to the state of a result, normal or aborted. -/
def liftRes (f : PassState → PassState) : Res → Res
  | .ok st => .ok (f st)
  | .error (e, st) => .error (e, f st)

/-- Composition of a state `st` with the local effect `b` of processing an element whose store is
`s`: the elements enqueued in `b` are pushed, the store is marked keep when `b` marked it, the
warnings add up. -/
def PassState.plus (s : InstId) (st b : PassState) : PassState :=
  { queue := b.queue ++ st.queue
    visited := st.visited
    m_store_map :=
      if b.decision s = some true then storeMapSet s true st.m_store_map else st.m_store_map
    skipped_chains := st.skipped_chains
    warnings := st.warnings + b.warnings }

/-- The local effect of the loop over the uses of `w.shadow_mem_inst`: the loop run from the
empty state. -/
def delta (cfg : Config) (ssa : MemSSA) (MMan : MemorySSACallsManager) (M : Module)
    (w : QueueElem) : Res :=
  usersLoop cfg ssa MMan M w (M.usesOf w.shadow_mem_inst) PassState.init

/-- What the loops over uses and callers may do to a state while element `w` is processed: push
at most `k` elements, all for the store of `w` and one hop further, and mark that store keep. -/
structure Local (w : QueueElem) (k : Nat) (b0 b : PassState) : Prop where
  queue : ∃ ps : List QueueElem, b.queue = ps ++ b0.queue ∧ ps.length ≤ k ∧
    ∀ p ∈ ps, p.store_inst = w.store_inst ∧ p.length = nextLength w
  visited : b.visited = b0.visited
  skipped : b.skipped_chains = b0.skipped_chains
  map : b.m_store_map = b0.m_store_map ∨
    b.m_store_map = storeMapSet w.store_inst true b0.m_store_map

/-- The edges the traversal follows from a shadow node `n`: to a phi user, from an `ArgRefMod`
user to the in-formal of the callee, from a `FunOut` user to the primed value of a call site of
the enclosing function. -/
inductive Edge (cfg : Config) (ssa : MemSSA) (MMan : MemorySSACallsManager) (M : Module) :
    InstId → InstId → Prop where
  | phi {n u : InstId} :
      Value.inst u ∈ M.usesOf n → M.opcodeOf u = some .phi → Edge cfg ssa MMan M n u
  | argRefMod {n u n' : InstId} {f callee : FunId} {fn : MemorySSAFunction} :
      Value.inst u ∈ M.usesOf n → M.opcodeOf u = some (.call (some f)) →
      ssa.classify u cfg.OnlySingleton = some .ArgRefMod →
      M.findCalledFunction u = some callee → MMan.getFunction callee = some fn →
      fn.getInFormal (ssa.getMemSSAParamIdx u) = some (.inst n') → Edge cfg ssa MMan M n n'
  | funOut {n u CI n' : InstId} {f : FunId} {callee : Option FunId} {cs : MemorySSACallSite} :
      Value.inst u ∈ M.usesOf n → M.opcodeOf u = some (.call (some f)) →
      ssa.classify u cfg.OnlySingleton = some .FunOut →
      Value.inst CI ∈ M.parentUses u → M.opcodeOf CI = some (.call callee) →
      MMan.getCallSite CI = some cs →
      cs.getPrimed (ssa.getMemSSAParamIdx u) = .inst n' → Edge cfg ssa MMan M n n'

/-- The shadow Store markers of a block in program order, each with the instruction that
immediately follows it in the block (none when the marker is last). -/
def blockMarkers (cfg : Config) (ssa : MemSSA) :
    List Instruction → List (Instruction × Option Instruction)
  | [] => []
  | x :: rest =>
    if isMemSSAStore ssa x.id cfg.OnlySingleton then (x, rest.head?) :: blockMarkers cfg ssa rest
    else blockMarkers cfg ssa rest

/-- The shadow Store markers of the module in program order, each with its following
instruction. -/
def markers (cfg : Config) (ssa : MemSSA) (M : Module) :
    List (Instruction × Option Instruction) :=
  M.functions.flatMap (fun F => F.blocks.flatMap (blockMarkers cfg ssa))

/-- The worklist item of a marker: `(marker, store, 0)` when the following instruction is a
concrete store, nothing otherwise. -/
def seedOf : Instruction × Option Instruction → Option QueueElem
  | (x, some SI) =>
    if SI.opcode = .store then
      some { shadow_mem_inst := x.id, store_inst := SI.id, length := 0 }
    else none
  | (_, none) => none

/-- Seeding as the claim words it, marker by marker: a marker followed by a concrete store
creates its item and sets the decision of the store to tentatively-dead, any other marker
aborts. -/
def seedAll : List (Instruction × Option Instruction) → PassState → Res
  | [], st => .ok st
  | m :: ms, st =>
    match seedOf m with
    | some e => seedAll ms ((st.enqueue e).markStoreToRemove e.store_inst)
    | none => .error (.expectStoreInst, st)

/-- The seeds of the module in program order: the items of all markers that are followed by a
concrete store. -/
def seedList (cfg : Config) (ssa : MemSSA) (M : Module) : List QueueElem :=
  (markers cfg ssa M).filterMap seedOf

/-- What the loop over the call sites does for one use of the enclosing function: nothing, abort,
mark keep and go on, mark keep and leave the loop, or enqueue a primed value. -/
inductive CallerAct where
  | skip : CallerAct
  | abort (e : Fatal) : CallerAct
  | keepNext : CallerAct
  | keepStop : CallerAct
  | push (p : InstId) : CallerAct
  deriving DecidableEq, Repr

/-- The action of the loop over the call sites on one use. -/
def callerAct (cfg : Config) (MMan : MemorySSACallsManager) (M : Module) (idx : Int) :
    Value → CallerAct
  | .nonInst => .skip
  | .inst CI =>
    match M.opcodeOf CI with
    | some (.call callee) =>
      match MMan.getCallSite CI with
      | none => .abort .cannotFindMemorySSACallSite
      | some MemSsaCS =>
        match callee with
        | none => .abort .nullCalledFunction
        | some g =>
          if M.hasFunctionPtrParam g then .keepNext
          else if idx ≥ (MemSsaCS.numParams : Int) then .keepStop
          else if cfg.OnlySingleton && (!MemSsaCS.isRefMod idx) && (!MemSsaCS.isMod idx)
              && (!MemSsaCS.isNew idx) then .keepStop
          else if cfg.assertions && !(cfg.OnlySingleton || MemSsaCS.isRefMod idx
              || MemSsaCS.isMod idx || MemSsaCS.isNew idx) then .abort .assertionFailed
          else
            match MemSsaCS.getPrimed idx with
            | .inst caller_primed => .push caller_primed
            | .nonInst => .abort .expectedEnqueueFromCaller
    | _ => .skip

/-- What the loop over the uses does for one use: nothing, abort, mark keep, enqueue a node, write
a warning, or run the loop over the call sites of the enclosing function. -/
inductive UserAct where
  | skip : UserAct
  | abort (e : Fatal) : UserAct
  | keep : UserAct
  | push (p : InstId) : UserAct
  | warn : UserAct
  | ascend (idx : Int) (callers : List Value) : UserAct
  deriving DecidableEq, Repr

/-- The action of the loop over the uses on one use. -/
def userAct (cfg : Config) (ssa : MemSSA) (MMan : MemorySSACallsManager) (M : Module) :
    Value → UserAct
  | .nonInst => .skip
  | .inst I =>
    match M.opcodeOf I with
    | some .phi => .push I
    | some (.call none) => .skip
    | some (.call (some _)) =>
      if isMemSSAStore ssa I cfg.OnlySingleton then .skip
      else if isMemSSAArgRef ssa I cfg.OnlySingleton then .keep
      else if isMemSSAArgMod ssa I cfg.OnlySingleton then .skip
      else if isMemSSAArgRefMod ssa I cfg.OnlySingleton then
        if ssa.getMemSSAParamIdx I < 0 then .abort .cannotFindIndex
        else
          match M.findCalledFunction I with
          | none => .abort .cannotFindCallee
          | some calleeF =>
            match MMan.getFunction calleeF with
            | none => .abort .cannotFindMemorySSAFunction
            | some MemSsaFun =>
              if MemSsaFun.numInFormals = 0 then .keep
              else
                match MemSsaFun.getInFormal (ssa.getMemSSAParamIdx I) with
                | none => .abort .getInFormalNull
                | some (.inst calleeInitArg) => .push calleeInitArg
                | some .nonInst => .abort .expectedEnqueueFromCallee
      else if isMemSSAFunIn ssa I cfg.OnlySingleton then .skip
      else if isMemSSAFunOut ssa I cfg.OnlySingleton then
        if ssa.getMemSSAParamIdx I < 0 then .abort .cannotFindIndex
        else .ascend (ssa.getMemSSAParamIdx I) (M.parentUses I)
      else .warn
    | _ => .skip

/-- The node a call-site action enqueues when it neither marks keep nor aborts. -/
def CallerAct.pushes : CallerAct → Option (List InstId)
  | .skip => some []
  | .push p => some [p]
  | _ => none

/-- The nodes enqueued for one use when its processing neither marks keep nor aborts; `none`
when it does mark keep or abort. -/
def userPushes (cfg : Config) (ssa : MemSSA) (MMan : MemorySSACallsManager) (M : Module)
    (U : Value) : Option (List InstId) :=
  match userAct cfg ssa MMan M U with
  | .skip => some []
  | .warn => some []
  | .push p => some [p]
  | .ascend idx callers =>
    if callers.all (fun C => ((callerAct cfg MMan M idx C).pushes).isSome) then
      some (callers.flatMap (fun C => ((callerAct cfg MMan M idx C).pushes).getD []))
    else none
  | _ => none

/-- The element enqueued for node `p` while `w` is processed. -/
def childElem (w : QueueElem) (p : InstId) : QueueElem :=
  { shadow_mem_inst := p, store_inst := w.store_inst, length := nextLength w }

/-- The nodes enqueued by the loop over the uses of node `n`, in the order of the pushes, when no
use marks keep or aborts. -/
def quietPushes (cfg : Config) (ssa : MemSSA) (MMan : MemorySSACallsManager) (M : Module)
    (n : InstId) : List InstId :=
  (M.usesOf n).flatMap (fun U => (userPushes cfg ssa MMan M U).getD [])

/-- No use of node `n` marks keep or aborts. -/
def Quiet (cfg : Config) (ssa : MemSSA) (MMan : MemorySSACallsManager) (M : Module)
    (n : InstId) : Prop :=
  ∀ U ∈ M.usesOf n, userPushes cfg ssa MMan M U ≠ none

/-- Some element of the queue carries node `n` for store `s`. -/
def InQueue (st : PassState) (n s : InstId) : Prop :=
  ∃ p ∈ st.queue, p.shadow_mem_inst = n ∧ p.store_inst = s

/-- The time of insertion of a pair into the visited set (which lists the most recent insertion
first): its position counted from the end of the list, `0` when it is not in the set. -/
def visitRank (p : InstId × InstId) : List (InstId × InstId) → Nat
  | [] => 0
  | x :: xs => if x = p then xs.length + 1 else visitRank p xs

/-- The invariant of the traversal for a store `s` seeded at the markers `roots`, as long as `s`
is not marked keep: every root is queued or visited; every visited node has no Load user, and each
of its followed edges leads to a queued node or to a node visited later. -/
def Traced (cfg : Config) (ssa : MemSSA) (MMan : MemorySSACallsManager) (M : Module)
    (s : InstId) (roots : List InstId) (st : PassState) : Prop :=
  st.decision s ≠ some true →
    (∀ m ∈ roots, InQueue st m s ∨ (m, s) ∈ st.visited) ∧
    (∀ n, (n, s) ∈ st.visited →
      ssa.hasMemSSALoadUser n cfg.OnlySingleton = false ∧
      ∀ n', Edge cfg ssa MMan M n n' →
        InQueue st n' s ∨
          ((n', s) ∈ st.visited ∧ visitRank (n, s) st.visited < visitRank (n', s) st.visited))

/-- A node `n` is reachable from `m` along followed edges. -/
def Reach (cfg : Config) (ssa : MemSSA) (MMan : MemorySSACallsManager) (M : Module)
    (m n : InstId) : Prop :=
  Relation.ReflTransGen (Edge cfg ssa MMan M) m n

/-- A node lies on a cycle of followed edges. -/
def OnCycle (cfg : Config) (ssa : MemSSA) (MMan : MemorySSACallsManager) (M : Module)
    (c : InstId) : Prop :=
  Relation.TransGen (Edge cfg ssa MMan M) c c

/-- The invariant of the store map during the traversal: the keys are unique, keep being the keys
set by the seeding, and contain the store of every queued element. -/
def MapOk (keys : List InstId) (st : PassState) : Prop :=
  st.m_store_map.map Prod.fst = keys ∧ keys.Nodup ∧ ∀ w ∈ st.queue, w.store_inst ∈ keys

/-- The invariant of the traversal for a store `s` seeded once, at marker `m`, whose marker only
has uses that are skipped: the store is tentatively-dead, and its only queue element ever is the
seed. -/
def Untouched (m s : InstId) (st : PassState) : Prop :=
  st.decision s = some false ∧
    ((st.queue.filter (fun p => decide (p.store_inst = s))
        = [{ shadow_mem_inst := m, store_inst := s, length := 0 }] ∧
      ∀ n, (n, s) ∉ st.visited) ∨
     st.queue.filter (fun p => decide (p.store_inst = s)) = [])

/-- The elements enqueued by a quiet first visit of `w`. -/
def children (cfg : Config) (ssa : MemSSA) (MMan : MemorySSACallsManager) (M : Module)
    (w : QueueElem) : List QueueElem :=
  (quietPushes cfg ssa MMan M w.shadow_mem_inst).map (childElem w)

/-- A first visit of `w` leaves the decision of its store alone: the hop bound is not reached,
the node has no Load user, and no use marks keep or aborts. -/
def Admissible (cfg : Config) (ssa : MemSSA) (MMan : MemorySSACallsManager) (M : Module)
    (w : QueueElem) : Prop :=
  w.length ≠ cfg.MaxLenDefUse ∧ ssa.hasMemSSALoadUser w.shadow_mem_inst cfg.OnlySingleton = false ∧
    Quiet cfg ssa MMan M w.shadow_mem_inst

/-- The elements of a queue that belong to store `s`, without their order. -/
def ofStore (s : InstId) (q : List QueueElem) : Multiset QueueElem :=
  ↑(q.filter (fun p => decide (p.store_inst = s)))

/-- The visited pairs of store `s`, without their order. -/
def visitedOf (s : InstId) (v : List (InstId × InstId)) : Multiset (InstId × InstId) :=
  ↑(v.filter (fun p => decide (p.2 = s)))

/-- The bookkeeping of the traversal of store `s` while it is not marked keep: `V` are the
elements visited so far, all admissible, and the elements still queued together with `V` are the
seeds together with the children of `V`, each counted as often as it was enqueued. -/
structure Explored (cfg : Config) (ssa : MemSSA) (MMan : MemorySSACallsManager) (M : Module)
    (s : InstId) (seeds : Multiset QueueElem) (st : PassState) (V : Multiset QueueElem) :
    Prop where
  vis : V.map QueueElem.key = visitedOf s st.visited
  adm : ∀ w ∈ V, Admissible cfg ssa MMan M w ∧ w.store_inst = s
  eq : ofStore s st.queue + V
    = seeds + V.bind (fun w => (↑(children cfg ssa MMan M w) : Multiset QueueElem))

/-- A certificate that the traversal of store `s` from `seeds` never marks it keep: a collection
`L` of admissible elements with pairwise different keys that consists of the seeds and of the
children of its members, each exactly once. -/
structure DeadCert (cfg : Config) (ssa : MemSSA) (MMan : MemorySSACallsManager) (M : Module)
    (s : InstId) (seeds : Multiset QueueElem) (L : Multiset QueueElem) : Prop where
  nodup : (L.map QueueElem.key).Nodup
  adm : ∀ w ∈ L, Admissible cfg ssa MMan M w ∧ w.store_inst = s
  closed : L = seeds + L.bind (fun w => (↑(children cfg ssa MMan M w) : Multiset QueueElem))

/-- Two instructions that differ at most in the order of their use lists. -/
def InstReordered (x x' : Instruction) : Prop :=
  x.id = x'.id ∧ x.opcode = x'.opcode ∧ x.uses.Perm x'.uses

instance (x x' : Instruction) : Decidable (InstReordered x x') := by
  unfold InstReordered; infer_instance

/-- Two functions that differ at most in the order of their use list (the enumeration order of
their call sites) and of the use lists of their instructions. -/
def FunReordered (F F' : Function) : Prop :=
  F.id = F'.id ∧ F.name = F'.name ∧ F.paramTypes = F'.paramTypes ∧ F.uses.Perm F'.uses ∧
    List.Forall₂ (List.Forall₂ InstReordered) F.blocks F'.blocks

instance (F F' : Function) : Decidable (FunReordered F F') := by
  unfold FunReordered; infer_instance

/-- The same program with other enumeration orders of the def-use successors of its nodes and of
the call sites of its functions. -/
def Reordered (M M' : Module) : Prop :=
  List.Forall₂ FunReordered M.functions M'.functions

instance (M M' : Module) : Decidable (Reordered M M') := by
  unfold Reordered; infer_instance

/-- What the traversal can observe of two modules that differ in enumeration orders only: the
same instruction classes, callees and function types, and use lists that are permutations of one
another. -/
structure UseOrderVariant (M M' : Module) : Prop where
  opcodeOf : ∀ i, M'.opcodeOf i = M.opcodeOf i
  usesOf : ∀ i, (M'.usesOf i).Perm (M.usesOf i)
  parentUses : ∀ i, (M'.parentUses i).Perm (M.parentUses i)
  findCalledFunction : ∀ i, M'.findCalledFunction i = M.findCalledFunction i
  hasFunctionPtrParam : ∀ g, M'.hasFunctionPtrParam g = M.hasFunctionPtrParam g

/-- The action on a use with the list of call sites replaced. -/
def UserAct.withCallers (cs : List Value) : UserAct → UserAct
  | .ascend idx _ => .ascend idx cs
  | a => a

/-- The options used in the examples: the defaults, assertions compiled in. -/
def exCfg : Config := Config.default true

/-- The report of a finished run (an empty report for the other outcomes). -/
def Outcome.report : Outcome → Report
  | .finished r => r
  | _ =>
    { st := PassState.init, eliminated := { functions := [] }, num_deleted := 0, stripped := false,
      M := { functions := [] } }

/-- The module with only the instructions whose address satisfies `keep` left in the blocks. -/
def Module.keepOnly (M : Module) (keep : InstId → Bool) : Module :=
  { functions := M.functions.map (fun F =>
      { F with blocks := F.blocks.map (fun b => b.filter (fun x => keep x.id)) }) }

/-! ## Example programs -/

/-- Effect tables of the examples: no function and no call site is known. -/
def exNoTables : MemorySSACallsManager :=
  { getFunction := fun _ => none, getCallSite := fun _ => none }

/-- Declarations of the shadow functions called by the examples. -/
def exShadowDecls : List Function :=
  [ { id := 100, name := "shadow.mem.store", paramTypes := [], blocks := [], uses := [] },
    { id := 101, name := "shadow.mem.arg.mod", paramTypes := [], blocks := [], uses := [] },
    { id := 102, name := "shadow.mem.arg.ref_mod", paramTypes := [], blocks := [], uses := [] } ]

/-- Function `g` stores to `X` (marker 10, store 11); the shadow value of the store flows into
the phi node 20. -/
def exPhiModule : Module :=
  { functions :=
      { id := 1, name := "g", paramTypes := [], uses := [],
        blocks := [[ { id := 10, opcode := .call (some 100), uses := [.inst 20] },
                     { id := 11, opcode := .store, uses := [] },
                     { id := 20, opcode := .phi, uses := [] },
                     { id := 12, opcode := .other, uses := [] } ]] } :: exShadowDecls }

/-- Instrumentation of `exPhiModule` in which the phi node 20 has a Load user. -/
def exLoadSsa : MemSSA :=
  { classify := fun i _ => if i = 10 then some .Store else none
    hasMemSSALoadUser := fun i _ => decide (i = 20)
    getMemSSAParamIdx := fun _ => 0
    callsManager := fun _ _ => exNoTables
    stripShadowMem := fun M => M }

/-- The store of `g` feeds a loop of two phi nodes, 20 and 21; nothing is ever loaded. -/
def exCycleModule : Module :=
  { functions :=
      { id := 1, name := "g", paramTypes := [], uses := [],
        blocks := [[ { id := 10, opcode := .call (some 100), uses := [.inst 20] },
                     { id := 11, opcode := .store, uses := [] },
                     { id := 12, opcode := .other, uses := [] }],
                   [ { id := 20, opcode := .phi, uses := [.inst 21] },
                     { id := 21, opcode := .phi, uses := [.inst 20] },
                     { id := 22, opcode := .other, uses := [] } ]] } :: exShadowDecls }

/-- Instrumentation without any Load user: only the marker 10 is classified. -/
def exPlainSsa : MemSSA :=
  { classify := fun i _ =>
      if i = 10 then some .Store else if i = 13 then some .ArgMod
      else if i = 14 then some .ArgRefMod else none
    hasMemSSALoadUser := fun _ _ => false
    getMemSSAParamIdx := fun i => if i = 14 then -1 else 0
    callsManager := fun _ _ => exNoTables
    stripShadowMem := fun M => M }

/-- Scenario C: `g` stores to `X` and then calls `k(&X)`, which only overwrites `X` (the `ArgMod`
user 13 of the marker). -/
def exArgModModule : Module :=
  { functions :=
      { id := 1, name := "g", paramTypes := [], uses := [],
        blocks := [[ { id := 10, opcode := .call (some 100), uses := [.inst 13] },
                     { id := 11, opcode := .store, uses := [] },
                     { id := 13, opcode := .call (some 101), uses := [] },
                     { id := 12, opcode := .other, uses := [] } ]] } :: exShadowDecls }

/-- A marker (10) that is not followed by a store instruction. -/
def exBadSeedModule : Module :=
  { functions :=
      { id := 1, name := "g", paramTypes := [], uses := [],
        blocks := [[ { id := 10, opcode := .call (some 100), uses := [] },
                     { id := 12, opcode := .other, uses := [] } ]] } :: exShadowDecls }

/-- The store of `g` is used by an `ArgRefMod` shadow call (14) without a parameter index. -/
def exBadIndexModule : Module :=
  { functions :=
      { id := 1, name := "g", paramTypes := [], uses := [],
        blocks := [[ { id := 10, opcode := .call (some 100), uses := [.inst 14] },
                     { id := 11, opcode := .store, uses := [] },
                     { id := 14, opcode := .call (some 102), uses := [] },
                     { id := 12, opcode := .other, uses := [] } ]] } :: exShadowDecls }

/-- Two stores in `g`: marker 10 with store 11 is used by the `ArgMod` call 13 and by the phi
node 20; marker 30 with store 31 is used by the phi node 21. -/
def exOrderModule : Module :=
  { functions :=
      { id := 1, name := "g", paramTypes := [], uses := [],
        blocks := [[ { id := 10, opcode := .call (some 100), uses := [.inst 13, .inst 20] },
                     { id := 11, opcode := .store, uses := [] },
                     { id := 13, opcode := .call (some 101), uses := [] },
                     { id := 20, opcode := .phi, uses := [] },
                     { id := 30, opcode := .call (some 100), uses := [.inst 21] },
                     { id := 31, opcode := .store, uses := [] },
                     { id := 21, opcode := .phi, uses := [] },
                     { id := 12, opcode := .other, uses := [] } ]] } :: exShadowDecls }

/-- The module `exOrderModule` with the uses of marker 10 enumerated in the other order. -/
def exOrderModuleSwapped : Module :=
  { functions :=
      { id := 1, name := "g", paramTypes := [], uses := [],
        blocks := [[ { id := 10, opcode := .call (some 100), uses := [.inst 20, .inst 13] },
                     { id := 11, opcode := .store, uses := [] },
                     { id := 13, opcode := .call (some 101), uses := [] },
                     { id := 20, opcode := .phi, uses := [] },
                     { id := 30, opcode := .call (some 100), uses := [.inst 21] },
                     { id := 31, opcode := .store, uses := [] },
                     { id := 21, opcode := .phi, uses := [] },
                     { id := 12, opcode := .other, uses := [] } ]] } :: exShadowDecls }

/-- Instrumentation of `exOrderModule`: markers 10 and 30, the `ArgMod` call 13, and a Load user
of the phi node 21. -/
def exOrderSsa : MemSSA :=
  { classify := fun i _ =>
      if i = 10 then some .Store else if i = 30 then some .Store
      else if i = 13 then some .ArgMod else none
    hasMemSSALoadUser := fun i _ => decide (i = 21)
    getMemSSAParamIdx := fun _ => 0
    callsManager := fun _ _ => exNoTables
    stripShadowMem := fun M => M }

end IPDSE


namespace IPDSE

/-! ## Notions used in the statements on the single kinds of users -/

/-- The fatal error of an aborted run, `none` for a run that is not aborted. -/
def Outcome.fatal? : Outcome → Option Fatal
  | .aborted e _ _ => some e
  | _ => none

/-- The state in which the loop over the uses starts: the element is popped already (the queue of
`st` is the rest) and its key is inserted into the visited set. -/
def PassState.entered (st : PassState) (w : QueueElem) (q : List QueueElem) : PassState :=
  { st with queue := q, visited := w.key :: st.visited }

/-- A classification that is none of the six kinds the loop over the uses treats. -/
def Unrecognised (k : Option ShadowKind) : Prop :=
  k ≠ some .Store ∧ k ≠ some .ArgRef ∧ k ≠ some .ArgMod ∧ k ≠ some .ArgRefMod ∧
    k ≠ some .FunIn ∧ k ≠ some .FunOut

instance (k : Option ShadowKind) : Decidable (Unrecognised k) := by
  unfold Unrecognised; infer_instance

/-- The invariant behind a skipped-chain counter that stays 0, for a set `U` of shadow nodes: the
counter is 0, and every queued element carries a node of `U` and was reached along `length` many
pairwise different nodes of `U` that are all visited for its store (the hop count being stored in
an `unsigned`). -/
def Chained (U : Finset InstId) (st : PassState) : Prop :=
  st.skipped_chains = 0 ∧
  ∀ w ∈ st.queue, w.shadow_mem_inst ∈ U ∧
    ∃ P : List InstId, P.Nodup ∧ (∀ p ∈ P, p ∈ U ∧ (p, w.store_inst) ∈ st.visited) ∧
      w.length = P.length % UINT_RANGE

/-! ## Example programs with effect tables -/

/-- The defaults with a hop bound of 0. -/
def exZeroHopCfg : Config :=
  { OnlySingleton := true, MaxLenDefUse := 0, assertions := true }

/-- The option `ip-dse-only-singleton` switched off, assertions compiled in. -/
def exAllRegionsCfg : Config :=
  { OnlySingleton := false, MaxLenDefUse := 4294967295, assertions := true }

/-- The option `ip-dse-only-singleton` switched off, assertions compiled out (`NDEBUG`). -/
def exReleaseCfg : Config :=
  { OnlySingleton := false, MaxLenDefUse := 4294967295, assertions := false }

/-- Declaration of the shadow function of `FunOut` markers. -/
def exShadowOutDecl : Function :=
  { id := 103, name := "shadow.mem.out", paramTypes := [], blocks := [], uses := [] }

/-- An instrumentation without Load users in which every shadow call has parameter index 0. -/
def exTableSsa (kinds : InstId → Option ShadowKind) (tables : MemorySSACallsManager) : MemSSA :=
  { classify := fun i _ => kinds i
    hasMemSSALoadUser := fun _ _ => false
    getMemSSAParamIdx := fun _ => 0
    callsManager := fun _ _ => tables
    stripShadowMem := fun M => M }

/-- Instrumentation of `exArgModModule` in which the call 13 only reads `X`: kind `ArgRef`. -/
def exArgRefSsa : MemSSA :=
  exTableSsa (fun i => if i = 10 then some .Store else if i = 13 then some .ArgRef else none)
    exNoTables

/-- The state after the seeding of a module with the single marker 10 and store 11. -/
def exSeeded : PassState :=
  { queue := [{ shadow_mem_inst := 10, store_inst := 11, length := 0 }], visited := [],
    m_store_map := [(11, false)], skipped_chains := 0, warnings := 0 }

/-- The state after the seeding of `exOrderModule`: the markers 10 and 30 with the stores 11 and
31. -/
def exSeededTwo : PassState :=
  { queue := [{ shadow_mem_inst := 30, store_inst := 31, length := 0 },
              { shadow_mem_inst := 10, store_inst := 11, length := 0 }],
    visited := [], m_store_map := [(11, false), (31, false)], skipped_chains := 0,
    warnings := 0 }

/-- Function `g` stores to `X` (marker 10, store 11) and calls `k(&X)` (call 15) with the
`ArgRefMod` shadow call 14 in front. -/
def exCalleeModule : Module :=
  { functions :=
      { id := 1, name := "g", paramTypes := [], uses := [],
        blocks := [[ { id := 10, opcode := .call (some 100), uses := [.inst 14] },
                     { id := 11, opcode := .store, uses := [] },
                     { id := 14, opcode := .call (some 102), uses := [] },
                     { id := 15, opcode := .call (some 2), uses := [] },
                     { id := 12, opcode := .other, uses := [] } ]] } ::
      { id := 2, name := "k", paramTypes := [], uses := [.inst 15],
        blocks := [[ { id := 60, opcode := .call (some 101), uses := [] },
                     { id := 61, opcode := .other, uses := [] } ]] } :: exShadowDecls }

/-- Effect tables of `exCalleeModule` in which the callee `k` has no in-formal at all. -/
def exNoInFormalTables : MemorySSACallsManager :=
  { getFunction := fun f =>
      if f = 2 then some { numInFormals := 0, getInFormal := fun _ => none } else none
    getCallSite := fun _ => none }

/-- An effect table with one in-formal: the instruction 60, for parameter 0. -/
def exInFormalOfK : MemorySSAFunction :=
  { numInFormals := 1, getInFormal := fun i => if i = 0 then some (.inst 60) else none }

/-- Effect tables of `exCalleeModule` in which the in-formal of `k` for parameter 0 is the
instruction 60. -/
def exInFormalTables : MemorySSACallsManager :=
  { getFunction := fun f => if f = 2 then some exInFormalOfK else none
    getCallSite := fun _ => none }

/-- Kinds of the shadow calls of `exCalleeModule`. -/
def exCalleeKinds (i : InstId) : Option ShadowKind :=
  if i = 10 then some .Store else if i = 14 then some .ArgRefMod
  else if i = 60 then some .ArgMod else none

/-- Kinds of the shadow calls of the examples with a `FunOut` marker (16). -/
def exFunOutKinds (i : InstId) : Option ShadowKind :=
  if i = 10 then some .Store else if i = 16 then some .FunOut
  else if i = 50 then some .ArgMod else none

/-- Function `g` has a parameter of function-pointer type and is called nowhere; its store to `X`
(marker 10, store 11) reaches the `FunOut` marker 16 of `g`. -/
def exFnPtrModule : Module :=
  { functions :=
      { id := 1, name := "g", paramTypes := [.pointer .function], uses := [],
        blocks := [[ { id := 10, opcode := .call (some 100), uses := [.inst 16] },
                     { id := 11, opcode := .store, uses := [] },
                     { id := 16, opcode := .call (some 103), uses := [] },
                     { id := 12, opcode := .other, uses := [] } ]] } ::
      exShadowOutDecl :: exShadowDecls }

/-- The module `exFnPtrModule` with a caller `h` of `g` (call 40). -/
def exFnPtrCalledModule : Module :=
  { functions :=
      { id := 1, name := "g", paramTypes := [.pointer .function], uses := [.inst 40],
        blocks := [[ { id := 10, opcode := .call (some 100), uses := [.inst 16] },
                     { id := 11, opcode := .store, uses := [] },
                     { id := 16, opcode := .call (some 103), uses := [] },
                     { id := 12, opcode := .other, uses := [] } ]] } ::
      { id := 3, name := "h", paramTypes := [], uses := [],
        blocks := [[ { id := 40, opcode := .call (some 1), uses := [] },
                     { id := 50, opcode := .call (some 101), uses := [] },
                     { id := 42, opcode := .other, uses := [] } ]] } ::
      exShadowOutDecl :: exShadowDecls }

/-- Function `k` stores to `X` (marker 10, store 11) and the store reaches the `FunOut` marker 16
of `k`; `k` is called twice in `h` (calls 40 and 41, in this order in the use list of `k`), and 50
is the shadow value of `X` after the calls. -/
def exTwoCallersModule : Module :=
  { functions :=
      { id := 2, name := "k", paramTypes := [], uses := [.inst 40, .inst 41],
        blocks := [[ { id := 10, opcode := .call (some 100), uses := [.inst 16] },
                     { id := 11, opcode := .store, uses := [] },
                     { id := 16, opcode := .call (some 103), uses := [] },
                     { id := 12, opcode := .other, uses := [] } ]] } ::
      { id := 3, name := "h", paramTypes := [], uses := [],
        blocks := [[ { id := 40, opcode := .call (some 2), uses := [] },
                     { id := 41, opcode := .call (some 2), uses := [] },
                     { id := 50, opcode := .call (some 101), uses := [] },
                     { id := 42, opcode := .other, uses := [] } ]] } ::
      exShadowOutDecl :: exShadowDecls }

/-- A call-site table with `n` actual shadow parameters, the same answer `c` of `isRefMod`,
`isMod` and `isNew` for every parameter, and the primed value 50. -/
def exCallSite (n : Nat) (c : Bool) : MemorySSACallSite :=
  { numParams := n, isRefMod := fun _ => c, isMod := fun _ => c, isNew := fun _ => c,
    getPrimed := fun _ => .inst 50 }

/-- Effect tables of `exTwoCallersModule`: call site 40 has no actual shadow parameter, call site
41 has one, which is modified. -/
def exShortCallTables : MemorySSACallsManager :=
  { getFunction := fun _ => none
    getCallSite := fun i =>
      if i = 40 then some (exCallSite 0 true) else if i = 41 then some (exCallSite 1 true)
      else none }

/-- Effect tables of `exTwoCallersModule` and `exFnPtrCalledModule`: the call sites 40 and 41
have one actual shadow parameter, for which none of `isRefMod`, `isMod`, `isNew` holds. -/
def exAmbiguousTables : MemorySSACallsManager :=
  { getFunction := fun _ => none
    getCallSite := fun i =>
      if i = 40 then some (exCallSite 1 false) else if i = 41 then some (exCallSite 1 false)
      else none }

end IPDSE


namespace IPDSE

/-! ## The elements enqueued during the traversal -/

/-- The elements enqueued by one iteration of the main loop, most recent first: what the queue
holds after the iteration in front of the rest of the old queue. -/
def pushedBy (cfg : Config) (ssa : MemSSA) (MMan : MemorySSACallsManager) (M : Module)
    (st : PassState) : List QueueElem :=
  match st.queue with
  | [] => []
  | _ :: q =>
    (resState (step cfg ssa MMan M st)).queue.take
      ((resState (step cfg ssa MMan M st)).queue.length - q.length)

/-- All elements enqueued by the main loop started in `st` and iterated at most `fuel` times,
iteration by iteration (the elements queued in `st` itself are not among them). -/
def enqueued (cfg : Config) (ssa : MemSSA) (MMan : MemorySSACallsManager) (M : Module) :
    Nat → PassState → List QueueElem
  | 0, _ => []
  | fuel + 1, st =>
    match st.queue with
    | [] => []
    | _ :: _ =>
      pushedBy cfg ssa MMan M st ++
        match step cfg ssa MMan M st with
        | .error _ => []
        | .ok st' => enqueued cfg ssa MMan M fuel st'

/-- The pairs `(node, store)` of store `s` that were ever in the queue of a run: those of the
seeds and those enqueued by the main loop. -/
def enqueuedPairs (cfg : Config) (ssa : MemSSA) (M : Module) (st0 : PassState) (s : InstId) :
    List (InstId × InstId) :=
  ((st0.queue ++
      enqueued cfg ssa (ssa.callsManager M cfg.OnlySingleton) M (loopFuel M st0) st0).filter
    (fun e => decide (e.store_inst = s))).map QueueElem.key

/-- The invariant of a traversal with hop bound 0, for the seeded stores `S`: only hop-0 elements
are queued, every seeded store is marked keep or still has an element in the queue, and no warning
was written. -/
def SeedsOnly (S : List InstId) (st : PassState) : Prop :=
  (∀ w ∈ st.queue, w.length = 0) ∧
  (∀ s ∈ S, st.decision s = some true ∨ s ∈ st.queue.map (fun w => w.store_inst)) ∧
  st.warnings = 0

/-- The bookkeeping of the skipped chains in a traversal with hop bound 0 that started with `N`
elements: the queued elements have pairwise different keys, none of them visited, and together
with the chains skipped so far they are `N`. -/
def Counted (N : Nat) (st : PassState) : Prop :=
  (st.queue.map QueueElem.key).Nodup ∧ (∀ w ∈ st.queue, w.key ∉ st.visited) ∧
  st.skipped_chains + st.queue.length = N

/-! ## Example programs with reconverging shadow values -/

/-- A phi diamond without any cycle: the marker 10 of store 11 is used by the phi nodes 20 and
21, and both are used by the phi node 22. -/
def exDiamondModule : Module :=
  { functions :=
      { id := 1, name := "g", paramTypes := [], uses := [],
        blocks := [[ { id := 10, opcode := .call (some 100), uses := [.inst 20, .inst 21] },
                     { id := 11, opcode := .store, uses := [] },
                     { id := 12, opcode := .other, uses := [] }],
                   [ { id := 20, opcode := .phi, uses := [.inst 22] },
                     { id := 21, opcode := .phi, uses := [.inst 22] },
                     { id := 22, opcode := .phi, uses := [] },
                     { id := 23, opcode := .other, uses := [] } ]] } :: exShadowDecls }

/-- One merge node using the same shadow value twice: the phi node 20 has the marker 10 of
store 11 in two of its operands. -/
def exDoubleUseModule : Module :=
  { functions :=
      { id := 1, name := "g", paramTypes := [], uses := [],
        blocks := [[ { id := 10, opcode := .call (some 100), uses := [.inst 20, .inst 20] },
                     { id := 11, opcode := .store, uses := [] },
                     { id := 12, opcode := .other, uses := [] }],
                   [ { id := 20, opcode := .phi, uses := [] },
                     { id := 23, opcode := .other, uses := [] } ]] } :: exShadowDecls }

end IPDSE


namespace IPDSE

/-! ## Chains of followed edges and the chains abandoned at the hop bound -/

/-- The defaults with a hop bound of 1. -/
def exOneHopCfg : Config :=
  { OnlySingleton := true, MaxLenDefUse := 1, assertions := true }

end IPDSE


namespace IPDSE

/-! ## The store map -/

theorem storeMapGet_set_self (k : InstId) (v : Bool) (m : List (InstId × Bool)) :
    storeMapGet k (storeMapSet k v m) = some v := by
  induction m with
  | nil => simp [storeMapSet, storeMapGet]
  | cons kv rest ih =>
    obtain ⟨k', v'⟩ := kv
    by_cases h : k' = k
    · simp [storeMapSet, storeMapGet, h]
    · simp [storeMapSet, storeMapGet, h, ih]

theorem storeMapGet_set_ne (k k' : InstId) (v : Bool) (m : List (InstId × Bool)) (hne : k' ≠ k) :
    storeMapGet k' (storeMapSet k v m) = storeMapGet k' m := by
  induction m with
  | nil => simp [storeMapSet, storeMapGet, Ne.symm hne]
  | cons kv rest ih =>
    obtain ⟨k1, v1⟩ := kv
    by_cases h : k1 = k
    · subst h
      simp [storeMapSet, storeMapGet, Ne.symm hne]
    · by_cases h2 : k1 = k'
      · subst h2
        simp [storeMapSet, storeMapGet, h]
      · simp [storeMapSet, storeMapGet, h, h2, ih]

theorem storeMapSet_idem (k : InstId) (v : Bool) (m : List (InstId × Bool)) :
    storeMapSet k v (storeMapSet k v m) = storeMapSet k v m := by
  induction m with
  | nil => simp [storeMapSet]
  | cons kv rest ih =>
    obtain ⟨k1, v1⟩ := kv
    by_cases h : k1 = k
    · simp [storeMapSet, h]
    · simp [storeMapSet, h, ih]

theorem storeMapGet_eq_none (k : InstId) (m : List (InstId × Bool)) :
    storeMapGet k m = none ↔ k ∉ m.map Prod.fst := by
  induction m with
  | nil => simp [storeMapGet]
  | cons kv rest ih =>
    obtain ⟨k1, v1⟩ := kv
    by_cases h : k1 = k
    · simp [storeMapGet, h]
    · simp only [storeMapGet, h, if_false, ih, List.map_cons, List.mem_cons, not_or]
      constructor
      · intro h2; exact ⟨fun h3 => h h3.symm, h2⟩
      · intro h2; exact h2.2

theorem storeMapSet_keys_of_mem (k : InstId) (v : Bool) (m : List (InstId × Bool))
    (hk : k ∈ m.map Prod.fst) : (storeMapSet k v m).map Prod.fst = m.map Prod.fst := by
  induction m with
  | nil => simp at hk
  | cons kv rest ih =>
    obtain ⟨k1, v1⟩ := kv
    by_cases h : k1 = k
    · simp [storeMapSet, h]
    · have hk' : k ∈ rest.map Prod.fst := by
        simp only [List.map_cons, List.mem_cons] at hk
        rcases hk with hk | hk
        · exact absurd hk.symm h
        · exact hk
      simp [storeMapSet, h, ih hk']

theorem storeMapSet_keys_of_not_mem (k : InstId) (v : Bool) (m : List (InstId × Bool))
    (hk : k ∉ m.map Prod.fst) : (storeMapSet k v m).map Prod.fst = m.map Prod.fst ++ [k] := by
  induction m with
  | nil => simp [storeMapSet]
  | cons kv rest ih =>
    obtain ⟨k1, v1⟩ := kv
    simp only [List.map_cons, List.mem_cons, not_or] at hk
    have h : ¬ k1 = k := fun h => hk.1 h.symm
    simp [storeMapSet, h, ih hk.2]

theorem storeMapSet_mem_keys (k k' : InstId) (v : Bool) (m : List (InstId × Bool)) :
    k' ∈ (storeMapSet k v m).map Prod.fst ↔ k' = k ∨ k' ∈ m.map Prod.fst := by
  by_cases hk : k ∈ m.map Prod.fst
  · rw [storeMapSet_keys_of_mem k v m hk]
    constructor
    · intro h; exact Or.inr h
    · rintro (h | h)
      · rw [h]; exact hk
      · exact h
  · rw [storeMapSet_keys_of_not_mem k v m hk]
    simp only [List.mem_append, List.mem_singleton]
    tauto

theorem storeMapSet_keys_nodup (k : InstId) (v : Bool) (m : List (InstId × Bool))
    (hm : (m.map Prod.fst).Nodup) : ((storeMapSet k v m).map Prod.fst).Nodup := by
  by_cases hk : k ∈ m.map Prod.fst
  · rw [storeMapSet_keys_of_mem k v m hk]; exact hm
  · rw [storeMapSet_keys_of_not_mem k v m hk]
    rw [List.nodup_append]
    refine ⟨hm, List.nodup_singleton k, ?_⟩
    intro a ha hb
    simp only [List.mem_singleton] at hb
    subst hb
    exact hk ha

theorem storeMapGet_of_mem_nodup (k : InstId) (v : Bool) (m : List (InstId × Bool))
    (hm : (m.map Prod.fst).Nodup) (hmem : (k, v) ∈ m) : storeMapGet k m = some v := by
  induction m with
  | nil => simp at hmem
  | cons kv rest ih =>
    obtain ⟨k1, v1⟩ := kv
    simp only [List.map_cons, List.nodup_cons] at hm
    simp only [List.mem_cons, Prod.mk.injEq] at hmem
    rcases hmem with ⟨h1, h2⟩ | hmem
    · simp [storeMapGet, h1, h2]
    · have hne : ¬ k1 = k := by
        intro h
        apply hm.1
        rw [h]
        exact List.mem_map_of_mem Prod.fst hmem
      simp [storeMapGet, hne, ih hm.2 hmem]

theorem storeMapGet_mem (k : InstId) (v : Bool) (m : List (InstId × Bool))
    (h : storeMapGet k m = some v) : (k, v) ∈ m := by
  induction m with
  | nil => simp [storeMapGet] at h
  | cons kv rest ih =>
    obtain ⟨k1, v1⟩ := kv
    by_cases h1 : k1 = k
    · simp only [storeMapGet, h1, if_true, Option.some.injEq] at h
      simp [h1, h]
    · simp only [storeMapGet, h1, if_false] at h
      exact List.mem_cons_of_mem _ (ih h)

/-! ## Locality of the loops over uses and callers -/

theorem plus_init (s : InstId) (st : PassState) : st.plus s PassState.init = st := by
  cases st
  simp [PassState.plus, PassState.init, PassState.decision, storeMapGet]

theorem plus_enqueue (s : InstId) (st b : PassState) (e : QueueElem) :
    st.plus s (b.enqueue e) = (st.plus s b).enqueue e := by
  simp [PassState.plus, PassState.enqueue, PassState.decision]

theorem plus_markStoreToKeep (s : InstId) (st b : PassState) :
    st.plus s (b.markStoreToKeep s) = (st.plus s b).markStoreToKeep s := by
  simp only [PassState.plus, PassState.markStoreToKeep, PassState.decision, storeMapGet_set_self]
  by_cases h : storeMapGet s b.m_store_map = some true
  · simp [h, storeMapSet_idem]
  · simp [h]

theorem plus_warn (s : InstId) (st b : PassState) :
    st.plus s { b with warnings := b.warnings + 1 }
      = { st.plus s b with warnings := (st.plus s b).warnings + 1 } := by
  simp [PassState.plus, PassState.decision, Nat.add_assoc]

theorem callersLoop_plus (cfg : Config) (MMan : MemorySSACallsManager) (M : Module)
    (w : QueueElem) (idx : Int) (st : PassState) (cs : List Value) :
    ∀ b : PassState, callersLoop cfg MMan M w idx cs (st.plus w.store_inst b)
      = liftRes (st.plus w.store_inst) (callersLoop cfg MMan M w idx cs b) := by
  induction cs with
  | nil => intro b; simp [callersLoop, liftRes]
  | cons U rest ih =>
    intro b
    cases U with
    | nonInst => simp only [callersLoop]; exact ih b
    | inst CI =>
      simp only [callersLoop]
      split
      · split
        · simp [liftRes]
        · split
          · simp [liftRes]
          · split
            · rw [← plus_markStoreToKeep]; exact ih _
            · split
              · simp [liftRes, plus_markStoreToKeep]
              · split
                · simp [liftRes, plus_markStoreToKeep]
                · split
                  · simp [liftRes]
                  · split
                    · rw [← plus_enqueue]; exact ih _
                    · simp [liftRes]
      · exact ih b

theorem processUser_plus (cfg : Config) (ssa : MemSSA) (MMan : MemorySSACallsManager)
    (M : Module) (w : QueueElem) (U : Value) (st b : PassState) :
    processUser cfg ssa MMan M w U (st.plus w.store_inst b)
      = liftRes (st.plus w.store_inst) (processUser cfg ssa MMan M w U b) := by
  unfold processUser
  cases U with
  | nonInst => simp [liftRes]
  | inst I =>
    simp only
    split
    · simp [liftRes, plus_enqueue]
    · simp [liftRes]
    · split
      · simp [liftRes]
      · split
        · simp [liftRes, plus_markStoreToKeep]
        · split
          · simp [liftRes]
          · split
            · split
              · simp [liftRes]
              · split
                · simp [liftRes]
                · split
                  · simp [liftRes]
                  · split
                    · simp [liftRes, plus_markStoreToKeep]
                    · split
                      · simp [liftRes]
                      · simp [liftRes, plus_enqueue]
                      · simp [liftRes]
            · split
              · simp [liftRes]
              · split
                · split
                  · simp [liftRes]
                  · exact callersLoop_plus cfg MMan M w _ st _ b
                · simp [liftRes, plus_warn]
    · simp [liftRes]

theorem usersLoop_plus (cfg : Config) (ssa : MemSSA) (MMan : MemorySSACallsManager)
    (M : Module) (w : QueueElem) (st : PassState) (us : List Value) :
    ∀ b : PassState, usersLoop cfg ssa MMan M w us (st.plus w.store_inst b)
      = liftRes (st.plus w.store_inst) (usersLoop cfg ssa MMan M w us b) := by
  induction us with
  | nil => intro b; simp [usersLoop, liftRes]
  | cons U rest ih =>
    intro b
    simp only [usersLoop, processUser_plus]
    cases h : processUser cfg ssa MMan M w U b with
    | error e => obtain ⟨e1, s1⟩ := e; simp [liftRes]
    | ok b' => simp only [liftRes]; exact ih b'

/-- The loop over the uses, run in any state, is its local effect added to that state. -/
theorem usersLoop_eq_delta (cfg : Config) (ssa : MemSSA) (MMan : MemorySSACallsManager)
    (M : Module) (w : QueueElem) (st : PassState) :
    usersLoop cfg ssa MMan M w (M.usesOf w.shadow_mem_inst) st
      = liftRes (st.plus w.store_inst) (delta cfg ssa MMan M w) := by
  have h := usersLoop_plus cfg ssa MMan M w st (M.usesOf w.shadow_mem_inst) PassState.init
  rw [plus_init] at h
  exact h

/-! ## What the loops may change -/

theorem Local.refl (w : QueueElem) (b : PassState) : Local w 0 b b :=
  { queue := ⟨[], by simp⟩, visited := rfl, skipped := rfl, map := Or.inl rfl }

theorem Local.mono {w : QueueElem} {k k' : Nat} {b0 b : PassState} (h : Local w k b0 b)
    (hk : k ≤ k') : Local w k' b0 b := by
  obtain ⟨ps, h1, h2, h3⟩ := h.queue
  exact { queue := ⟨ps, h1, le_trans h2 hk, h3⟩, visited := h.visited, skipped := h.skipped,
          map := h.map }

theorem Local.trans {w : QueueElem} {k1 k2 : Nat} {a b c : PassState} (h1 : Local w k1 a b)
    (h2 : Local w k2 b c) : Local w (k1 + k2) a c := by
  obtain ⟨ps1, e1, l1, p1⟩ := h1.queue
  obtain ⟨ps2, e2, l2, p2⟩ := h2.queue
  refine { queue := ⟨ps2 ++ ps1, ?_, ?_, ?_⟩, visited := ?_, skipped := ?_, map := ?_ }
  · rw [e2, e1, List.append_assoc]
  · rw [List.length_append]; omega
  · intro p hp
    rcases List.mem_append.1 hp with hp | hp
    · exact p2 p hp
    · exact p1 p hp
  · rw [h2.visited, h1.visited]
  · rw [h2.skipped, h1.skipped]
  · rcases h1.map with m1 | m1 <;> rcases h2.map with m2 | m2
    · left; rw [m2, m1]
    · right; rw [m2, m1]
    · right; rw [m2, m1]
    · right; rw [m2, m1, storeMapSet_idem]

theorem Local.enqueue (w : QueueElem) (b : PassState) (n : InstId) :
    Local w 1 b (b.enqueue
      { shadow_mem_inst := n, store_inst := w.store_inst, length := nextLength w }) :=
  { queue := ⟨[_], rfl, by simp, by simp⟩, visited := rfl, skipped := rfl, map := Or.inl rfl }

theorem Local.keep (w : QueueElem) (b : PassState) :
    Local w 0 b (b.markStoreToKeep w.store_inst) :=
  { queue := ⟨[], by simp [PassState.markStoreToKeep]⟩, visited := rfl, skipped := rfl,
    map := Or.inr rfl }

theorem Local.warn (w : QueueElem) (b : PassState) :
    Local w 0 b { b with warnings := b.warnings + 1 } :=
  { queue := ⟨[], by simp⟩, visited := rfl, skipped := rfl, map := Or.inl rfl }

theorem callersLoop_local (cfg : Config) (MMan : MemorySSACallsManager) (M : Module)
    (w : QueueElem) (idx : Int) (cs : List Value) :
    ∀ b : PassState, Local w cs.length b (resState (callersLoop cfg MMan M w idx cs b)) := by
  induction cs with
  | nil => intro b; simpa [callersLoop, resState] using Local.refl w b
  | cons U rest ih =>
    intro b
    have hstep : ∀ b1, Local w 1 b b1 →
        Local w (U :: rest).length b (resState (callersLoop cfg MMan M w idx rest b1)) := by
      intro b1 h1
      have := Local.trans h1 (ih b1)
      simpa [Nat.add_comm] using this
    have hsame : Local w (U :: rest).length b
        (resState (callersLoop cfg MMan M w idx rest b)) :=
      hstep b ((Local.refl w b).mono (Nat.zero_le _))
    have hstop : ∀ b1 k, k ≤ 1 → Local w k b b1 → Local w (U :: rest).length b b1 := by
      intro b1 k hk h1
      exact h1.mono (by simp; omega)
    cases U with
    | nonInst => simpa only [callersLoop] using hsame
    | inst CI =>
      simp only [callersLoop]
      split
      · split
        · exact hstop _ 0 (by omega) (Local.refl w b)
        · split
          · exact hstop _ 0 (by omega) (Local.refl w b)
          · split
            · exact hstep _ ((Local.keep w b).mono (by omega))
            · split
              · exact hstop _ 0 (by omega) (Local.keep w b)
              · split
                · exact hstop _ 0 (by omega) (Local.keep w b)
                · split
                  · exact hstop _ 0 (by omega) (Local.refl w b)
                  · split
                    · exact hstep _ (Local.enqueue w b _)
                    · exact hstop _ 0 (by omega) (Local.refl w b)
      · exact hsame

theorem processUser_local (cfg : Config) (ssa : MemSSA) (MMan : MemorySSACallsManager)
    (M : Module) (w : QueueElem) (U : Value) (b : PassState) :
    Local w (useWeight M U) b (resState (processUser cfg ssa MMan M w U b)) := by
  unfold processUser
  cases U with
  | nonInst => simpa [resState, useWeight] using Local.refl w b
  | inst I =>
    have h0 : ∀ b1, Local w 0 b b1 → Local w (useWeight M (.inst I)) b b1 :=
      fun b1 h => h.mono (Nat.zero_le _)
    have h1 : ∀ b1, Local w 1 b b1 → Local w (useWeight M (.inst I)) b b1 :=
      fun b1 h => h.mono (by simp [useWeight])
    simp only
    split
    · exact h1 _ (Local.enqueue w b _)
    · exact h0 _ (Local.refl w b)
    · split
      · exact h0 _ (Local.refl w b)
      · split
        · exact h0 _ (Local.keep w b)
        · split
          · exact h0 _ (Local.refl w b)
          · split
            · split
              · exact h0 _ (Local.refl w b)
              · split
                · exact h0 _ (Local.refl w b)
                · split
                  · exact h0 _ (Local.refl w b)
                  · split
                    · exact h0 _ (Local.keep w b)
                    · split
                      · exact h0 _ (Local.refl w b)
                      · exact h1 _ (Local.enqueue w b _)
                      · exact h0 _ (Local.refl w b)
            · split
              · exact h0 _ (Local.refl w b)
              · split
                · split
                  · exact h0 _ (Local.refl w b)
                  · exact (callersLoop_local cfg MMan M w _ _ b).mono (by simp [useWeight])
                · exact h0 _ (Local.warn w b)
    · exact h0 _ (Local.refl w b)

theorem usersLoop_local (cfg : Config) (ssa : MemSSA) (MMan : MemorySSACallsManager)
    (M : Module) (w : QueueElem) (us : List Value) :
    ∀ b : PassState,
      Local w ((us.map (useWeight M)).sum) b (resState (usersLoop cfg ssa MMan M w us b)) := by
  induction us with
  | nil => intro b; simpa [usersLoop, resState] using Local.refl w b
  | cons U rest ih =>
    intro b
    have hU := processUser_local cfg ssa MMan M w U b
    simp only [usersLoop]
    cases h : processUser cfg ssa MMan M w U b with
    | error e =>
      obtain ⟨e1, s1⟩ := e
      rw [h] at hU
      exact hU.mono (by simp)
    | ok b' =>
      rw [h] at hU
      have := Local.trans hU (ih b')
      simpa using this

theorem delta_local (cfg : Config) (ssa : MemSSA) (MMan : MemorySSACallsManager)
    (M : Module) (w : QueueElem) :
    Local w (outDegree M w.shadow_mem_inst) PassState.init (resState (delta cfg ssa MMan M w)) :=
  usersLoop_local cfg ssa MMan M w _ PassState.init

end IPDSE


namespace IPDSE

/-! ## Dereferencing addresses -/

theorem blockFrom_spec (i : InstId) (b : List Instruction) (x : Instruction)
    (xs : List Instruction) (h : blockFrom i b = x :: xs) :
    x.id = i ∧ ∃ pre, b = pre ++ x :: xs := by
  induction b with
  | nil => simp [blockFrom] at h
  | cons y ys ih =>
    by_cases hy : y.id = i
    · simp only [blockFrom, hy, if_true, List.cons.injEq] at h
      obtain ⟨h1, h2⟩ := h
      subst h1; subst h2
      exact ⟨hy, [], rfl⟩
    · simp only [blockFrom, hy, if_false] at h
      obtain ⟨h1, pre, h2⟩ := ih h
      exact ⟨h1, y :: pre, by rw [h2]; rfl⟩

theorem locateInBlocks_spec (i : InstId) (bs : List (List Instruction))
    (l : List Instruction) (h : locateInBlocks i bs = some l) :
    ∃ b ∈ bs, ∃ x xs, l = x :: xs ∧ x.id = i ∧ ∃ pre, b = pre ++ l := by
  induction bs with
  | nil => simp [locateInBlocks] at h
  | cons b rest ih =>
    simp only [locateInBlocks] at h
    split at h
    · obtain ⟨b', hb', hrest⟩ := ih h
      exact ⟨b', List.mem_cons_of_mem _ hb', hrest⟩
    · rename_i x xs hx
      simp only [Option.some.injEq] at h
      subst h
      obtain ⟨h1, pre, h2⟩ := blockFrom_spec i b x xs hx
      exact ⟨b, List.mem_cons_self _ _, x, xs, rfl, h1, pre, h2⟩

theorem locateInFunctions_spec (i : InstId) (Fs : List Function) (F : Function)
    (l : List Instruction) (h : locateInFunctions i Fs = some (F, l)) :
    F ∈ Fs ∧ locateInBlocks i F.blocks = some l := by
  induction Fs with
  | nil => simp [locateInFunctions] at h
  | cons G rest ih =>
    simp only [locateInFunctions] at h
    split at h
    · rename_i l' hl'
      simp only [Option.some.injEq, Prod.mk.injEq] at h
      obtain ⟨h1, h2⟩ := h
      subst h1; subst h2
      exact ⟨List.mem_cons_self _ _, hl'⟩
    · obtain ⟨h1, h2⟩ := ih h
      exact ⟨List.mem_cons_of_mem _ h1, h2⟩

theorem mem_instIds_of_locate (M : Module) (i : InstId) (F : Function) (l : List Instruction)
    (h : M.locate i = some (F, l)) : i ∈ M.instIds := by
  obtain ⟨hF, hl⟩ := locateInFunctions_spec i M.functions F l h
  obtain ⟨b, hb, x, xs, hl1, hx, pre, hpre⟩ := locateInBlocks_spec i F.blocks l hl
  simp only [Module.instIds, Function.instIds, List.mem_flatMap, List.mem_map]
  refine ⟨F, hF, b, hb, x, ?_, hx⟩
  rw [hpre, hl1]
  simp

theorem instruction?_some_mem (M : Module) (i : InstId) (x : Instruction)
    (h : M.instruction? i = some x) : i ∈ M.instIds := by
  unfold Module.instruction? at h
  split at h
  · rename_i F y ys hloc
    exact mem_instIds_of_locate M i F _ hloc
  · simp at h

theorem usesOf_eq_nil_of_not_mem (M : Module) (i : InstId) (h : i ∉ M.instIds) :
    M.usesOf i = [] := by
  unfold Module.usesOf
  cases hx : M.instruction? i with
  | none => rfl
  | some x => exact absurd (instruction?_some_mem M i x hx) h

theorem outDegree_eq_zero_of_not_mem (M : Module) (i : InstId) (h : i ∉ M.instIds) :
    outDegree M i = 0 := by
  simp [outDegree, usesOf_eq_nil_of_not_mem M i h]

/-! ## One iteration of the main loop -/

/-- The four ways an iteration can go: revisit, hop bound, Load user, or the loop over the
uses. -/
theorem step_shape (cfg : Config) (ssa : MemSSA) (MMan : MemorySSACallsManager) (M : Module)
    (st : PassState) (w : QueueElem) (q : List QueueElem) (hq : st.queue = w :: q) :
    (w.key ∈ st.visited ∧
      step cfg ssa MMan M st = .ok ({ st with queue := q }.markStoreToKeep w.store_inst)) ∨
    (w.key ∉ st.visited ∧ w.length = cfg.MaxLenDefUse ∧
      step cfg ssa MMan M st = .ok
        { queue := q, visited := w.key :: st.visited,
          m_store_map := storeMapSet w.store_inst true st.m_store_map,
          skipped_chains := st.skipped_chains + 1, warnings := st.warnings }) ∨
    (w.key ∉ st.visited ∧ w.length ≠ cfg.MaxLenDefUse ∧
      ssa.hasMemSSALoadUser w.shadow_mem_inst cfg.OnlySingleton = true ∧
      step cfg ssa MMan M st = .ok
        { queue := q, visited := w.key :: st.visited,
          m_store_map := storeMapSet w.store_inst true st.m_store_map,
          skipped_chains := st.skipped_chains, warnings := st.warnings }) ∨
    (w.key ∉ st.visited ∧ w.length ≠ cfg.MaxLenDefUse ∧
      ssa.hasMemSSALoadUser w.shadow_mem_inst cfg.OnlySingleton = false ∧
      step cfg ssa MMan M st = liftRes
        (PassState.plus w.store_inst { st with queue := q, visited := w.key :: st.visited })
        (delta cfg ssa MMan M w)) := by
  unfold step
  rw [hq]
  simp only [processElem]
  by_cases hv : w.key ∈ st.visited
  · left
    exact ⟨hv, by simp [hv]⟩
  · right
    by_cases hl : w.length = cfg.MaxLenDefUse
    · left
      refine ⟨hv, hl, ?_⟩
      simp [hv, hl, PassState.markStoreToKeep]
    · right
      by_cases hu : ssa.hasMemSSALoadUser w.shadow_mem_inst cfg.OnlySingleton = true
      · left
        refine ⟨hv, hl, hu, ?_⟩
        simp [hv, hl, hu, PassState.markStoreToKeep]
      · right
        have hu' : ssa.hasMemSSALoadUser w.shadow_mem_inst cfg.OnlySingleton = false := by
          simpa using hu
        refine ⟨hv, hl, hu', ?_⟩
        simp only [hv, hl, hu', if_false]
        rw [usersLoop_eq_delta]
        simp

/-- The state left by the local effect of an element: nothing but pushed elements and possibly
the keep mark. -/
theorem delta_state (cfg : Config) (ssa : MemSSA) (MMan : MemorySSACallsManager) (M : Module)
    (w : QueueElem) :
    (resState (delta cfg ssa MMan M w)).queue.length ≤ outDegree M w.shadow_mem_inst ∧
    (∀ p ∈ (resState (delta cfg ssa MMan M w)).queue,
      p.store_inst = w.store_inst ∧ p.length = nextLength w) ∧
    ((resState (delta cfg ssa MMan M w)).decision w.store_inst = none ∨
      (resState (delta cfg ssa MMan M w)).decision w.store_inst = some true) := by
  have h := delta_local cfg ssa MMan M w
  obtain ⟨ps, h1, h2, h3⟩ := h.queue
  simp only [PassState.init, List.append_nil] at h1
  refine ⟨by rw [h1]; exact h2, by rw [h1]; exact h3, ?_⟩
  rcases h.map with hm | hm
  · left
    simp [PassState.decision, hm, PassState.init, storeMapGet]
  · right
    simp [PassState.decision, hm, storeMapGet_set_self]

theorem resState_liftRes (f : PassState → PassState) (r : Res) :
    resState (liftRes f r) = f (resState r) := by
  cases r with
  | ok st => rfl
  | error e => obtain ⟨e1, s1⟩ := e; rfl

/-- Frame of one iteration, on the state it yields or aborts with: the popped element leaves the
queue, elements for the same store one hop further may be pushed, its key is the only possible new
member of the visited set, and only the decision of its store may change, to keep. -/
theorem step_frame (cfg : Config) (ssa : MemSSA) (MMan : MemorySSACallsManager) (M : Module)
    (st : PassState) (w : QueueElem) (q : List QueueElem) (hq : st.queue = w :: q) :
    (∃ ps : List QueueElem,
      (resState (step cfg ssa MMan M st)).queue = ps ++ q ∧
      ps.length ≤ outDegree M w.shadow_mem_inst ∧
      (w.key ∈ st.visited → ps = []) ∧
      ∀ p ∈ ps, p.store_inst = w.store_inst ∧ p.length = nextLength w) ∧
    ((resState (step cfg ssa MMan M st)).visited = st.visited ∨
      (w.key ∉ st.visited ∧ (resState (step cfg ssa MMan M st)).visited = w.key :: st.visited)) ∧
    ((resState (step cfg ssa MMan M st)).m_store_map = st.m_store_map ∨
      (resState (step cfg ssa MMan M st)).m_store_map
        = storeMapSet w.store_inst true st.m_store_map) := by
  rcases step_shape cfg ssa MMan M st w q hq with ⟨hv, h⟩ | ⟨hv, _, h⟩ | ⟨hv, _, _, h⟩ |
    ⟨hv, _, _, h⟩
  · rw [h]
    exact ⟨⟨[], by simp [resState, PassState.markStoreToKeep]⟩, Or.inl rfl, Or.inr rfl⟩
  · rw [h]
    exact ⟨⟨[], by simp [resState]⟩, Or.inr ⟨hv, rfl⟩, Or.inr rfl⟩
  · rw [h]
    exact ⟨⟨[], by simp [resState]⟩, Or.inr ⟨hv, rfl⟩, Or.inr rfl⟩
  · rw [h, resState_liftRes]
    obtain ⟨d1, d2, d3⟩ := delta_state cfg ssa MMan M w
    refine ⟨⟨(resState (delta cfg ssa MMan M w)).queue, rfl, d1, fun h' => absurd h' hv, d2⟩,
      Or.inr ⟨hv, rfl⟩, ?_⟩
    rcases d3 with d3 | d3
    · left; simp [PassState.plus, d3]
    · right; simp [PassState.plus, d3]

theorem decision_storeMapSet_true (st : PassState) (k s : InstId) (m : List (InstId × Bool))
    (hm : m = st.m_store_map ∨ m = storeMapSet k true st.m_store_map) :
    (s ≠ k → storeMapGet s m = st.decision s) ∧
    (st.decision s = some true → storeMapGet s m = some true) ∧
    (storeMapGet s m = some false → st.decision s = some false) := by
  rcases hm with hm | hm
  · subst hm
    exact ⟨fun _ => rfl, fun h => h, fun h => h⟩
  · subst hm
    by_cases hs : s = k
    · subst hs
      refine ⟨fun h => (h rfl).elim, fun _ => storeMapGet_set_self _ _ _, ?_⟩
      intro h
      rw [storeMapGet_set_self] at h
      simp at h
    · simp only [PassState.decision, storeMapGet_set_ne k s true _ hs]
      exact ⟨fun _ => trivial, fun h => h, fun h => h⟩

/-! ## Induction over the main loop -/

theorem mainLoop_ok_induction (cfg : Config) (ssa : MemSSA) (MMan : MemorySSACallsManager)
    (M : Module) (P : PassState → Prop)
    (hstep : ∀ st st', P st → st.queue ≠ [] → step cfg ssa MMan M st = .ok st' → P st') :
    ∀ (fuel : Nat) (st st' : PassState), P st →
      mainLoop cfg ssa MMan M fuel st = some (.ok st') → P st' ∧ st'.queue = [] := by
  intro fuel
  induction fuel with
  | zero =>
    intro st st' hP h
    simp only [mainLoop] at h
    split at h
    · rename_i hq
      simp only [Option.some.injEq, Except.ok.injEq] at h
      subst h
      exact ⟨hP, hq⟩
    · simp at h
  | succ fuel ih =>
    intro st st' hP h
    simp only [mainLoop] at h
    split at h
    · rename_i hq
      simp only [Option.some.injEq, Except.ok.injEq] at h
      subst h
      exact ⟨hP, hq⟩
    · rename_i w q hq
      split at h
      · simp at h
      · rename_i st1 hst1
        exact ih st1 st' (hstep st st1 hP (by rw [hq]; simp) hst1) h

theorem mainLoop_error_induction (cfg : Config) (ssa : MemSSA) (MMan : MemorySSACallsManager)
    (M : Module) (P : PassState → Prop)
    (hstep : ∀ st st', P st → st.queue ≠ [] → step cfg ssa MMan M st = .ok st' → P st') :
    ∀ (fuel : Nat) (st st' : PassState) (e : Fatal), P st →
      mainLoop cfg ssa MMan M fuel st = some (.error (e, st')) →
      ∃ st1, P st1 ∧ st1.queue ≠ [] ∧ step cfg ssa MMan M st1 = .error (e, st') := by
  intro fuel
  induction fuel with
  | zero =>
    intro st st' e hP h
    simp only [mainLoop] at h
    split at h <;> simp at h
  | succ fuel ih =>
    intro st st' e hP h
    simp only [mainLoop] at h
    split at h
    · simp at h
    · rename_i w q hq
      split at h
      · rename_i e1 he1
        simp only [Option.some.injEq, Except.error.injEq] at h
        subst h
        exact ⟨st, hP, by rw [hq]; simp, he1⟩
      · rename_i st1 hst1
        exact ih st1 st' e (hstep st st1 hP (by rw [hq]; simp) hst1) h

end IPDSE


namespace IPDSE

/-! ## The main loop terminates -/

theorem sum_filter_le {α : Type} (L : List α) (f : α → Nat) (P Q : α → Bool)
    (h : ∀ a ∈ L, Q a = true → P a = true) :
    ((L.filter Q).map f).sum ≤ ((L.filter P).map f).sum := by
  induction L with
  | nil => simp
  | cons x xs ih =>
    have ih' := ih (fun a ha => h a (List.mem_cons_of_mem _ ha))
    by_cases hQ : Q x = true
    · have hP := h x (List.mem_cons_self _ _) hQ
      simp only [List.filter_cons, hQ, hP, if_true, List.map_cons, List.sum_cons]
      omega
    · by_cases hP : P x = true
      · simp only [List.filter_cons, hQ, hP, if_true, if_false, List.map_cons, List.sum_cons,
          Bool.false_eq_true]
        omega
      · simp only [List.filter_cons, hQ, hP, if_false]
        exact ih'

theorem sum_filter_remove {α : Type} (L : List α) (f : α → Nat) (P Q : α → Bool) (a : α)
    (ha : a ∈ L) (hP : P a = true) (hQ : Q a = false)
    (h : ∀ x ∈ L, Q x = true → P x = true) :
    ((L.filter Q).map f).sum + f a ≤ ((L.filter P).map f).sum := by
  induction L with
  | nil => simp at ha
  | cons x xs ih =>
    have hxs : ∀ y ∈ xs, Q y = true → P y = true := fun y hy => h y (List.mem_cons_of_mem _ hy)
    rcases List.mem_cons.1 ha with hax | hax
    · subst hax
      have := sum_filter_le xs f P Q hxs
      simp only [List.filter_cons, hQ, hP, if_true, List.map_cons, List.sum_cons]
      simp only [Bool.false_eq_true, if_false]
      omega
    · have ih' := ih hax hxs
      by_cases hQx : Q x = true
      · have hPx := h x (List.mem_cons_self _ _) hQx
        simp only [List.filter_cons, hQx, hPx, if_true, List.map_cons, List.sum_cons]
        omega
      · by_cases hPx : P x = true
        · simp only [List.filter_cons, hQx, hPx, if_true, if_false, List.map_cons,
            List.sum_cons, Bool.false_eq_true]
          omega
        · simp only [List.filter_cons, hQx, hPx, if_false]
          exact ih'

theorem unvisited_cons_le (M : Module) (S : List InstId) (visited : List (InstId × InstId))
    (key : InstId × InstId) :
    ((unvisited M S (key :: visited)).map (fun p => 1 + outDegree M p.1)).sum
      ≤ ((unvisited M S visited).map (fun p => 1 + outDegree M p.1)).sum := by
  unfold unvisited
  apply sum_filter_le
  intro a _ ha
  simp only [List.mem_cons, not_or, decide_eq_true_eq] at ha ⊢
  exact ha.2

theorem unvisited_cons_remove (M : Module) (S : List InstId)
    (visited : List (InstId × InstId)) (n s : InstId) (hn : n ∈ M.instIds) (hs : s ∈ S)
    (hv : (n, s) ∉ visited) :
    ((unvisited M S ((n, s) :: visited)).map (fun p => 1 + outDegree M p.1)).sum
      + (1 + outDegree M n)
      ≤ ((unvisited M S visited).map (fun p => 1 + outDegree M p.1)).sum := by
  unfold unvisited
  apply sum_filter_remove (M.instIds.product S) (fun p => 1 + outDegree M p.1) _ _ (n, s)
  · exact List.mem_product.2 ⟨hn, hs⟩
  · simpa using hv
  · simp
  · intro a _ ha
    simp only [List.mem_cons, not_or, decide_eq_true_eq] at ha ⊢
    exact ha.2

/-- Every iteration on a non-empty queue lowers the potential, and keeps the stores of the queue
among the stores it started with. -/
theorem step_potential (cfg : Config) (ssa : MemSSA) (MMan : MemorySSACallsManager)
    (M : Module) (S : List InstId) (st : PassState) (hne : st.queue ≠ [])
    (hS : ∀ w ∈ st.queue, w.store_inst ∈ S) :
    potential M S (resState (step cfg ssa MMan M st)) < potential M S st ∧
    ∀ w ∈ (resState (step cfg ssa MMan M st)).queue, w.store_inst ∈ S := by
  obtain ⟨w, q, hq⟩ := List.exists_cons_of_ne_nil hne
  obtain ⟨⟨ps, hps, hlen, hnil, hstore⟩, hvis, _⟩ := step_frame cfg ssa MMan M st w q hq
  have hwS : w.store_inst ∈ S := hS w (by rw [hq]; exact List.mem_cons_self _ _)
  constructor
  · unfold potential
    rw [hps, hq, List.length_append, List.length_cons]
    rcases hvis with hvis | ⟨hv, hvis⟩
    · by_cases hv : w.key ∈ st.visited
      · rw [hvis, hnil hv]
        simp
      · -- the visited set is unchanged only on a revisit
        rcases step_shape cfg ssa MMan M st w q hq with ⟨hv', _⟩ | ⟨_, _, h⟩ | ⟨_, _, _, h⟩ |
          ⟨_, _, _, h⟩
        · exact absurd hv' hv
        · rw [h] at hvis
          simp only [resState] at hvis
          exact absurd (hvis ▸ List.mem_cons_self _ _) hv
        · rw [h] at hvis
          simp only [resState] at hvis
          exact absurd (hvis ▸ List.mem_cons_self _ _) hv
        · rw [h, resState_liftRes] at hvis
          simp only [PassState.plus] at hvis
          exact absurd (hvis ▸ List.mem_cons_self _ _) hv
    · rw [hvis]
      by_cases hn : w.shadow_mem_inst ∈ M.instIds
      · have := unvisited_cons_remove M S st.visited w.shadow_mem_inst w.store_inst hn hwS hv
        simp only [QueueElem.key] at *
        omega
      · have h0 := outDegree_eq_zero_of_not_mem M _ hn
        have := unvisited_cons_le M S st.visited w.key
        omega
  · intro p hp
    rw [hps] at hp
    rcases List.mem_append.1 hp with hp | hp
    · rw [(hstore p hp).1]; exact hwS
    · exact hS p (by rw [hq]; exact List.mem_cons_of_mem _ hp)

/-- The main loop started with at least `potential` iterations of fuel does not run out of
fuel. -/
theorem mainLoop_isSome (cfg : Config) (ssa : MemSSA) (MMan : MemorySSACallsManager)
    (M : Module) (S : List InstId) :
    ∀ (fuel : Nat) (st : PassState), (∀ w ∈ st.queue, w.store_inst ∈ S) →
      potential M S st ≤ fuel → mainLoop cfg ssa MMan M fuel st ≠ none := by
  intro fuel
  induction fuel with
  | zero =>
    intro st _ hpot
    have hq : st.queue = [] := by
      unfold potential at hpot
      have : st.queue.length = 0 := by omega
      exact List.length_eq_zero.1 this
    simp [mainLoop, hq]
  | succ fuel ih =>
    intro st hS hpot
    simp only [mainLoop]
    split
    · simp
    · rename_i w q hq
      have hne : st.queue ≠ [] := by rw [hq]; simp
      obtain ⟨h1, h2⟩ := step_potential cfg ssa MMan M S st hne hS
      split
      · simp
      · rename_i st1 hst1
        rw [hst1] at h1 h2
        simp only [resState] at h1 h2
        exact ih st1 h2 (by omega)

theorem mainLoop_loopFuel (cfg : Config) (ssa : MemSSA) (MMan : MemorySSACallsManager)
    (M : Module) (st : PassState) :
    mainLoop cfg ssa MMan M (loopFuel M st) st ≠ none := by
  apply mainLoop_isSome cfg ssa MMan M (st.queue.map (fun w => w.store_inst))
  · intro w hw
    exact List.mem_map_of_mem _ hw
  · exact le_refl _

/-- More fuel does not change a result already reached. -/
theorem mainLoop_mono (cfg : Config) (ssa : MemSSA) (MMan : MemorySSACallsManager)
    (M : Module) :
    ∀ (fuel : Nat) (st : PassState) (r : Res), mainLoop cfg ssa MMan M fuel st = some r →
      ∀ fuel', fuel ≤ fuel' → mainLoop cfg ssa MMan M fuel' st = some r := by
  intro fuel
  induction fuel with
  | zero =>
    intro st r h fuel' _
    simp only [mainLoop] at h
    split at h
    · rename_i hq
      cases fuel' <;> simp [mainLoop, hq, h]
    · simp at h
  | succ fuel ih =>
    intro st r h fuel' hle
    obtain ⟨f, hf⟩ : ∃ f, fuel' = f + 1 := ⟨fuel' - 1, by omega⟩
    subst hf
    simp only [mainLoop] at h ⊢
    split
    · rename_i hq
      simp only [hq] at h
      exact h
    · rename_i w q hq
      simp only [hq] at h
      split
      · rename_i e he
        simp only [he] at h
        exact h
      · rename_i st1 hst1
        simp only [hst1] at h
        exact ih st1 r h f (by omega)

end IPDSE


namespace IPDSE

/-! ## Seeding -/

theorem seedBlock_eq_seedAll (cfg : Config) (ssa : MemSSA) (b : List Instruction) :
    ∀ st : PassState, seedBlock cfg ssa b st = seedAll (blockMarkers cfg ssa b) st := by
  induction b with
  | nil => intro st; simp [seedBlock, blockMarkers, seedAll]
  | cons x rest ih =>
    intro st
    by_cases hm : isMemSSAStore ssa x.id cfg.OnlySingleton = true
    · cases rest with
      | nil => simp [seedBlock, blockMarkers, seedAll, seedOf, hm]
      | cons SI r =>
        by_cases hs : SI.opcode = .store
        · simp only [seedBlock, blockMarkers, hm, if_true, List.head?_cons, seedAll, seedOf, hs]
          exact ih _
        · simp [seedBlock, blockMarkers, seedAll, seedOf, hm, hs]
    · simp only [seedBlock, blockMarkers, hm, if_false, Bool.false_eq_true]
      exact ih st

theorem seedAll_append (l1 l2 : List (Instruction × Option Instruction)) :
    ∀ st : PassState, seedAll (l1 ++ l2) st =
      match seedAll l1 st with
      | .error e => .error e
      | .ok st1 => seedAll l2 st1 := by
  induction l1 with
  | nil => intro st; simp [seedAll]
  | cons m ms ih =>
    intro st
    simp only [List.cons_append, seedAll]
    cases seedOf m with
    | none => rfl
    | some e => exact ih _

theorem seedBlocks_eq_seedAll (cfg : Config) (ssa : MemSSA) (bs : List (List Instruction)) :
    ∀ st : PassState,
      seedBlocks cfg ssa bs st = seedAll (bs.flatMap (blockMarkers cfg ssa)) st := by
  induction bs with
  | nil => intro st; simp [seedBlocks, seedAll]
  | cons b rest ih =>
    intro st
    simp only [seedBlocks, List.flatMap_cons, seedAll_append, seedBlock_eq_seedAll]
    cases seedAll (blockMarkers cfg ssa b) st with
    | error e => rfl
    | ok st1 => exact ih st1

theorem seedFunctions_eq_seedAll (cfg : Config) (ssa : MemSSA) (Fs : List Function) :
    ∀ st : PassState, seedFunctions cfg ssa Fs st =
      seedAll (Fs.flatMap (fun F => F.blocks.flatMap (blockMarkers cfg ssa))) st := by
  induction Fs with
  | nil => intro st; simp [seedFunctions, seedAll]
  | cons F rest ih =>
    intro st
    simp only [seedFunctions, List.flatMap_cons, seedAll_append, seedBlocks_eq_seedAll]
    cases seedAll (F.blocks.flatMap (blockMarkers cfg ssa)) st with
    | error e => rfl
    | ok st1 => exact ih st1

/-- Seeding of the module is the marker-by-marker seeding of its markers in program order. -/
theorem seedModule_eq_seedAll (cfg : Config) (ssa : MemSSA) (M : Module) :
    seedModule cfg ssa M = seedAll (markers cfg ssa M) PassState.init :=
  seedFunctions_eq_seedAll cfg ssa M.functions PassState.init

theorem seedAll_error (ms : List (Instruction × Option Instruction)) :
    ∀ (st st' : PassState) (e : Fatal), seedAll ms st = .error (e, st') →
      e = .expectStoreInst ∧ ∃ m ∈ ms, seedOf m = none := by
  induction ms with
  | nil => intro st st' e h; simp [seedAll] at h
  | cons m rest ih =>
    intro st st' e h
    simp only [seedAll] at h
    cases hm : seedOf m with
    | none =>
      rw [hm] at h
      simp only [Except.error.injEq, Prod.mk.injEq] at h
      exact ⟨h.1.symm, m, List.mem_cons_self _ _, hm⟩
    | some x =>
      rw [hm] at h
      obtain ⟨h1, m', hm', h2⟩ := ih _ _ _ h
      exact ⟨h1, m', List.mem_cons_of_mem _ hm', h2⟩

theorem seedAll_ok (ms : List (Instruction × Option Instruction)) :
    ∀ (st st' : PassState), seedAll ms st = .ok st' →
      st'.queue = (ms.filterMap seedOf).reverse ++ st.queue ∧
      st'.visited = st.visited ∧ st'.skipped_chains = st.skipped_chains ∧
      st'.warnings = st.warnings ∧
      (∀ m ∈ ms, seedOf m ≠ none) ∧
      (∀ s, s ∈ (ms.filterMap seedOf).map (fun e => e.store_inst) →
        st'.decision s = some false) ∧
      (∀ s, s ∉ (ms.filterMap seedOf).map (fun e => e.store_inst) →
        st'.decision s = st.decision s) ∧
      ((st.m_store_map.map Prod.fst).Nodup → (st'.m_store_map.map Prod.fst).Nodup) := by
  induction ms with
  | nil =>
    intro st st' h
    simp only [seedAll, Except.ok.injEq] at h
    subst h
    simp
  | cons m rest ih =>
    intro st st' h
    simp only [seedAll] at h
    cases hm : seedOf m with
    | none => rw [hm] at h; simp at h
    | some e =>
      rw [hm] at h
      obtain ⟨h1, h2, h3, h4, h5, h6, h7, h8⟩ := ih _ _ h
      refine ⟨?_, ?_, ?_, ?_, ?_, ?_, ?_, ?_⟩
      · rw [h1]
        simp [List.filterMap_cons, hm, PassState.enqueue, PassState.markStoreToRemove]
      · rw [h2]; rfl
      · rw [h3]; rfl
      · rw [h4]; rfl
      · intro m' hm'
        rcases List.mem_cons.1 hm' with h' | h'
        · rw [h', hm]; simp
        · exact h5 m' h'
      · intro s hs
        by_cases hin : s ∈ (rest.filterMap seedOf).map (fun e => e.store_inst)
        · exact h6 s hin
        · rw [h7 s hin]
          simp only [List.filterMap_cons, hm, List.map_cons, List.mem_cons] at hs
          rcases hs with hs | hs
          · subst hs
            simp [PassState.decision, PassState.markStoreToRemove, PassState.enqueue,
              storeMapGet_set_self]
          · exact absurd hs hin
      · intro s hs
        simp only [List.filterMap_cons, hm, List.map_cons, List.mem_cons, not_or] at hs
        rw [h7 s hs.2]
        simp only [PassState.decision, PassState.markStoreToRemove, PassState.enqueue]
        exact storeMapGet_set_ne _ _ _ _ hs.1
      · intro hnd
        apply h8
        exact storeMapSet_keys_nodup _ _ _ hnd

theorem seedAll_isOk (ms : List (Instruction × Option Instruction))
    (h : ∀ m ∈ ms, seedOf m ≠ none) : ∀ st : PassState, ∃ st', seedAll ms st = .ok st' := by
  induction ms with
  | nil => intro st; exact ⟨st, rfl⟩
  | cons m rest ih =>
    intro st
    simp only [seedAll]
    cases hm : seedOf m with
    | none => exact absurd hm (h m (List.mem_cons_self _ _))
    | some e => exact ih (fun m' hm' => h m' (List.mem_cons_of_mem _ hm')) _

/-- The state after a successful seeding. -/
theorem seedModule_ok (cfg : Config) (ssa : MemSSA) (M : Module) (st0 : PassState)
    (h : seedModule cfg ssa M = .ok st0) :
    st0.queue = (seedList cfg ssa M).reverse ∧ st0.visited = [] ∧ st0.skipped_chains = 0 ∧
    st0.warnings = 0 ∧
    (∀ s, s ∈ (seedList cfg ssa M).map (fun e => e.store_inst) → st0.decision s = some false) ∧
    (∀ s, s ∉ (seedList cfg ssa M).map (fun e => e.store_inst) → st0.decision s = none) ∧
    (st0.m_store_map.map Prod.fst).Nodup := by
  rw [seedModule_eq_seedAll] at h
  obtain ⟨h1, h2, h3, h4, _, h6, h7, h8⟩ := seedAll_ok _ _ _ h
  refine ⟨by simpa [seedList, PassState.init] using h1, h2, h3, h4, h6, ?_,
    h8 (by simp [PassState.init])⟩
  intro s hs
  rw [h7 s hs]
  simp [PassState.init, PassState.decision, storeMapGet]

/-! ## Unique addresses give unique seeds -/

theorem blockSeeds_sublist (cfg : Config) (ssa : MemSSA) (b : List Instruction) :
    (((blockMarkers cfg ssa b).filterMap seedOf).map (fun e => e.store_inst)).Sublist
      (b.tail.map (fun x => x.id)) := by
  induction b with
  | nil => simp [blockMarkers]
  | cons x rest ih =>
    have hskip : (((blockMarkers cfg ssa rest).filterMap seedOf).map
        (fun e => e.store_inst)).Sublist (rest.map (fun x => x.id)) :=
      ih.trans ((List.tail_sublist rest).map _)
    by_cases hm : isMemSSAStore ssa x.id cfg.OnlySingleton = true
    · cases rest with
      | nil => simp [blockMarkers, hm, seedOf]
      | cons SI r =>
        by_cases hs : SI.opcode = .store
        · simp only [blockMarkers, hm, if_true, List.head?_cons, List.filterMap_cons, seedOf, hs,
            List.map_cons, List.tail_cons]
          simp only [List.tail_cons] at ih
          exact ih.cons₂ _
        · simp only [blockMarkers, hm, if_true, List.head?_cons, List.filterMap_cons, seedOf, hs,
            if_false, List.tail_cons]
          exact hskip
    · simp only [blockMarkers, hm, if_false, Bool.false_eq_true, List.tail_cons]
      exact hskip

theorem seedList_stores_sublist (cfg : Config) (ssa : MemSSA) (M : Module) :
    ((seedList cfg ssa M).map (fun e => e.store_inst)).Sublist M.instIds := by
  unfold seedList markers Module.instIds
  induction M.functions with
  | nil => simp
  | cons F Fs ih =>
    simp only [List.flatMap_cons, List.filterMap_append, List.map_append]
    refine List.Sublist.append ?_ ih
    unfold Function.instIds
    induction F.blocks with
    | nil => simp
    | cons b bs ihb =>
      simp only [List.flatMap_cons, List.filterMap_append, List.map_append]
      refine List.Sublist.append ?_ ihb
      exact (blockSeeds_sublist cfg ssa b).trans ((List.tail_sublist b).map _)

theorem seedList_stores_nodup (cfg : Config) (ssa : MemSSA) (M : Module) (hM : M.WF) :
    ((seedList cfg ssa M).map (fun e => e.store_inst)).Nodup :=
  List.Nodup.sublist (seedList_stores_sublist cfg ssa M) hM

theorem filter_eq_singleton_of_nodup_map {α β : Type} [DecidableEq β] (f : α → β)
    (l : List α) (a : α) (hnd : (l.map f).Nodup) (ha : a ∈ l) :
    l.filter (fun x => decide (f x = f a)) = [a] := by
  induction l with
  | nil => simp at ha
  | cons x xs ih =>
    simp only [List.map_cons, List.nodup_cons] at hnd
    rcases List.mem_cons.1 ha with hax | hax
    · subst hax
      simp only [List.filter_cons, decide_True, if_true, List.cons.injEq, true_and]
      rw [List.filter_eq_nil_iff]
      intro y hy hfy
      simp only [decide_eq_true_eq] at hfy
      exact hnd.1 (hfy ▸ List.mem_map_of_mem f hy)
    · have hne : f x ≠ f a := by
        intro h
        exact hnd.1 (h ▸ List.mem_map_of_mem f hax)
      simp only [List.filter_cons, hne, decide_False, if_false, Bool.false_eq_true]
      exact ih hnd.2 hax

/-! ## The Store Eliminator -/

theorem instIds_eraseFromParent (M : Module) (SI : InstId) :
    (M.eraseFromParent SI).instIds = M.instIds.filter (fun i => decide (i ≠ SI)) := by
  unfold Module.eraseFromParent Module.instIds
  simp only
  induction M.functions with
  | nil => simp
  | cons F Fs ih =>
    simp only [List.map_cons, List.flatMap_cons, List.filter_append, ih]
    congr 1
    unfold Function.instIds
    simp only
    induction F.blocks with
    | nil => simp
    | cons b bs ihb =>
      simp only [List.map_cons, List.flatMap_cons, List.filter_append, ihb]
      congr 1
      rw [List.filter_map]
      rfl

/-- The Store Eliminator removes exactly the instructions whose map entry is `false` and counts
one deletion per such entry. -/
theorem eliminate_spec (m : List (InstId × Bool)) :
    ∀ (M : Module) (n : Nat),
      (eliminate m (M, n)).1.instIds = M.instIds.filter (fun i => decide ((i, false) ∉ m)) ∧
      (eliminate m (M, n)).2 = n + (m.filter (fun kv => !kv.2)).length := by
  induction m with
  | nil => intro M n; simp [eliminate]
  | cons kv rest ih =>
    intro M n
    obtain ⟨k, v⟩ := kv
    cases v with
    | false =>
      simp only [eliminate, Bool.not_false, if_true]
      obtain ⟨h1, h2⟩ := ih (M.eraseFromParent k) (n + 1)
      refine ⟨?_, ?_⟩
      · rw [h1, instIds_eraseFromParent, List.filter_filter]
        apply List.filter_congr
        intro i _
        simp only [List.mem_cons, Prod.mk.injEq, and_true, not_or, Bool.decide_and]
        by_cases hik : i = k <;> simp [hik]
      · rw [h2]
        simp only [List.filter_cons, Bool.not_false, if_true, List.length_cons]
        omega
    | true =>
      simp only [eliminate, Bool.not_true, Bool.false_eq_true, if_false]
      obtain ⟨h1, h2⟩ := ih M n
      refine ⟨?_, ?_⟩
      · rw [h1]
        apply List.filter_congr
        intro i _
        simp
      · rw [h2]
        simp [List.filter_cons]

end IPDSE


namespace IPDSE

/-! ## The loops in terms of actions -/

theorem callersLoop_cons (cfg : Config) (MMan : MemorySSACallsManager) (M : Module)
    (w : QueueElem) (idx : Int) (U : Value) (rest : List Value) (b : PassState) :
    callersLoop cfg MMan M w idx (U :: rest) b =
      match callerAct cfg MMan M idx U with
      | .skip => callersLoop cfg MMan M w idx rest b
      | .abort e => .error (e, b)
      | .keepNext => callersLoop cfg MMan M w idx rest (b.markStoreToKeep w.store_inst)
      | .keepStop => .ok (b.markStoreToKeep w.store_inst)
      | .push p => callersLoop cfg MMan M w idx rest (b.enqueue (childElem w p)) := by
  cases U with
  | nonInst => simp [callersLoop, callerAct]
  | inst CI =>
    cases hop : M.opcodeOf CI with
    | none => simp [callersLoop, callerAct, hop]
    | some op =>
      cases op with
      | phi => simp [callersLoop, callerAct, hop]
      | store => simp [callersLoop, callerAct, hop]
      | other => simp [callersLoop, callerAct, hop]
      | call callee =>
        cases hcs : MMan.getCallSite CI with
        | none => simp [callersLoop, callerAct, hop, hcs]
        | some cs =>
          cases callee with
          | none => simp [callersLoop, callerAct, hop, hcs]
          | some g =>
            simp only [callersLoop, callerAct, hop, hcs]
            split_ifs
            · rfl
            · rfl
            · rfl
            · rfl
            · cases hp : cs.getPrimed idx <;> simp [childElem]

theorem processUser_eq (cfg : Config) (ssa : MemSSA) (MMan : MemorySSACallsManager)
    (M : Module) (w : QueueElem) (U : Value) (b : PassState) :
    processUser cfg ssa MMan M w U b =
      match userAct cfg ssa MMan M U with
      | .skip => .ok b
      | .abort e => .error (e, b)
      | .keep => .ok (b.markStoreToKeep w.store_inst)
      | .push p => .ok (b.enqueue (childElem w p))
      | .warn => .ok { b with warnings := b.warnings + 1 }
      | .ascend idx callers => callersLoop cfg MMan M w idx callers b := by
  cases U with
  | nonInst => simp [processUser, userAct]
  | inst I =>
    cases hop : M.opcodeOf I with
    | none => simp [processUser, userAct, hop]
    | some op =>
      cases op with
      | phi => simp [processUser, userAct, hop, childElem]
      | store => simp [processUser, userAct, hop]
      | other => simp [processUser, userAct, hop]
      | call callee =>
        cases callee with
        | none => simp [processUser, userAct, hop]
        | some g =>
          simp only [processUser, userAct, hop]
          split_ifs
          · rfl
          · rfl
          · rfl
          · rfl
          · cases hf : M.findCalledFunction I with
            | none => rfl
            | some calleeF =>
              cases hg : MMan.getFunction calleeF with
              | none => simp [hg]
              | some fn =>
                simp only [hg]
                split_ifs
                · rfl
                · cases hi : fn.getInFormal (ssa.getMemSSAParamIdx I) with
                  | none => rfl
                  | some v => cases v <;> simp [childElem]
          · rfl
          · rfl
          · rfl
          · rfl

/-! ## Quiet processing: no keep mark, no abort -/

theorem decision_markStoreToKeep (b : PassState) (s : InstId) :
    (b.markStoreToKeep s).decision s = some true := by
  simp [PassState.decision, PassState.markStoreToKeep, storeMapGet_set_self]

theorem Local.decision_keep {w : QueueElem} {k : Nat} {b0 b : PassState} (h : Local w k b0 b)
    (h0 : b0.decision w.store_inst = some true) : b.decision w.store_inst = some true := by
  rcases h.map with hm | hm
  · simpa [PassState.decision, hm] using h0
  · simp [PassState.decision, hm, storeMapGet_set_self]

theorem callersLoop_keep_mono (cfg : Config) (MMan : MemorySSACallsManager) (M : Module)
    (w : QueueElem) (idx : Int) (cs : List Value) (b b' : PassState)
    (h : callersLoop cfg MMan M w idx cs b = .ok b')
    (h0 : b.decision w.store_inst = some true) : b'.decision w.store_inst = some true := by
  have := callersLoop_local cfg MMan M w idx cs b
  rw [h] at this
  exact this.decision_keep h0

theorem usersLoop_keep_mono (cfg : Config) (ssa : MemSSA) (MMan : MemorySSACallsManager)
    (M : Module) (w : QueueElem) (us : List Value) (b b' : PassState)
    (h : usersLoop cfg ssa MMan M w us b = .ok b')
    (h0 : b.decision w.store_inst = some true) : b'.decision w.store_inst = some true := by
  have := usersLoop_local cfg ssa MMan M w us b
  rw [h] at this
  exact this.decision_keep h0

theorem callersLoop_of_quiet (cfg : Config) (MMan : MemorySSACallsManager) (M : Module)
    (w : QueueElem) (idx : Int) (cs : List Value) :
    ∀ b : PassState, (∀ C ∈ cs, (callerAct cfg MMan M idx C).pushes ≠ none) →
      callersLoop cfg MMan M w idx cs b = .ok
        { b with queue :=
            ((cs.flatMap (fun C => ((callerAct cfg MMan M idx C).pushes).getD [])).map
              (childElem w)).reverse ++ b.queue } := by
  induction cs with
  | nil => intro b _; simp [callersLoop]
  | cons U rest ih =>
    intro b hq
    have hU := hq U (List.mem_cons_self _ _)
    have hrest := fun C hC => hq C (List.mem_cons_of_mem _ hC)
    rw [callersLoop_cons]
    cases hact : callerAct cfg MMan M idx U with
    | skip =>
      have e : ((callerAct cfg MMan M idx U).pushes).getD [] = [] := by rw [hact]; rfl
      simp only [List.flatMap_cons, e, List.nil_append]
      exact ih b hrest
    | push p =>
      have e : ((callerAct cfg MMan M idx U).pushes).getD [] = [p] := by rw [hact]; rfl
      simp only [List.flatMap_cons, e]
      rw [ih _ hrest]
      simp [PassState.enqueue]
    | abort e => simp [hact, CallerAct.pushes] at hU
    | keepNext => simp [hact, CallerAct.pushes] at hU
    | keepStop => simp [hact, CallerAct.pushes] at hU

theorem callersLoop_quiet (cfg : Config) (MMan : MemorySSACallsManager) (M : Module)
    (w : QueueElem) (idx : Int) (cs : List Value) :
    ∀ b b' : PassState, callersLoop cfg MMan M w idx cs b = .ok b' →
      b'.decision w.store_inst ≠ some true →
      ∀ C ∈ cs, (callerAct cfg MMan M idx C).pushes ≠ none := by
  induction cs with
  | nil => intro b b' _ _ C hC; simp at hC
  | cons U rest ih =>
    intro b b' h hk C hC
    rw [callersLoop_cons] at h
    cases hact : callerAct cfg MMan M idx U with
    | skip =>
      rw [hact] at h
      rcases List.mem_cons.1 hC with hC | hC
      · rw [hC, hact]; simp [CallerAct.pushes]
      · exact ih b b' h hk C hC
    | push p =>
      rw [hact] at h
      rcases List.mem_cons.1 hC with hC | hC
      · rw [hC, hact]; simp [CallerAct.pushes]
      · exact ih _ b' h hk C hC
    | abort e => rw [hact] at h; simp at h
    | keepNext =>
      rw [hact] at h
      exact absurd (callersLoop_keep_mono cfg MMan M w idx rest _ b' h
        (decision_markStoreToKeep b _)) hk
    | keepStop =>
      rw [hact] at h
      simp only [Except.ok.injEq] at h
      subst h
      exact absurd (decision_markStoreToKeep b _) hk

theorem processUser_of_quiet (cfg : Config) (ssa : MemSSA) (MMan : MemorySSACallsManager)
    (M : Module) (w : QueueElem) (U : Value) (b : PassState)
    (hq : userPushes cfg ssa MMan M U ≠ none) :
    ∃ k, processUser cfg ssa MMan M w U b = .ok
      { b with
        queue := (((userPushes cfg ssa MMan M U).getD []).map (childElem w)).reverse ++ b.queue
        warnings := b.warnings + k } := by
  rw [processUser_eq]
  unfold userPushes at hq ⊢
  cases hact : userAct cfg ssa MMan M U with
  | skip => exact ⟨0, by simp⟩
  | warn => exact ⟨1, by simp⟩
  | push p => exact ⟨0, by simp [PassState.enqueue]⟩
  | abort e => simp [hact] at hq
  | keep => simp [hact] at hq
  | ascend idx callers =>
    simp only [hact] at hq ⊢
    by_cases hall : callers.all (fun C => ((callerAct cfg MMan M idx C).pushes).isSome) = true
    · simp only [hall, if_true, Option.getD_some]
      refine ⟨0, ?_⟩
      rw [callersLoop_of_quiet]
      · rfl
      · intro C hC
        have := List.all_eq_true.1 hall C hC
        intro hn
        simp [hn] at this
    · simp [hall] at hq

theorem processUser_quiet (cfg : Config) (ssa : MemSSA) (MMan : MemorySSACallsManager)
    (M : Module) (w : QueueElem) (U : Value) (b b' : PassState)
    (h : processUser cfg ssa MMan M w U b = .ok b')
    (hk : b'.decision w.store_inst ≠ some true) : userPushes cfg ssa MMan M U ≠ none := by
  rw [processUser_eq] at h
  unfold userPushes
  cases hact : userAct cfg ssa MMan M U with
  | skip => simp
  | warn => simp
  | push p => simp
  | abort e => rw [hact] at h; simp at h
  | keep =>
    rw [hact] at h
    simp only [Except.ok.injEq] at h
    subst h
    exact absurd (decision_markStoreToKeep b _) hk
  | ascend idx callers =>
    rw [hact] at h
    simp only
    have hall := callersLoop_quiet cfg MMan M w idx callers b b' h hk
    have : callers.all (fun C => ((callerAct cfg MMan M idx C).pushes).isSome) = true := by
      rw [List.all_eq_true]
      intro C hC
      have := hall C hC
      cases hp : (callerAct cfg MMan M idx C).pushes with
      | none => exact absurd hp this
      | some l => rfl
    simp [this]

theorem usersLoop_of_quiet (cfg : Config) (ssa : MemSSA) (MMan : MemorySSACallsManager)
    (M : Module) (w : QueueElem) (us : List Value) :
    ∀ b : PassState, (∀ U ∈ us, userPushes cfg ssa MMan M U ≠ none) →
      ∃ k, usersLoop cfg ssa MMan M w us b = .ok
        { b with
          queue := ((us.flatMap (fun U => (userPushes cfg ssa MMan M U).getD [])).map
            (childElem w)).reverse ++ b.queue
          warnings := b.warnings + k } := by
  induction us with
  | nil => intro b _; exact ⟨0, by simp [usersLoop]⟩
  | cons U rest ih =>
    intro b hq
    obtain ⟨k1, h1⟩ := processUser_of_quiet cfg ssa MMan M w U b (hq U (List.mem_cons_self _ _))
    obtain ⟨k2, h2⟩ := ih
      { b with
        queue := (((userPushes cfg ssa MMan M U).getD []).map (childElem w)).reverse ++ b.queue
        warnings := b.warnings + k1 }
      (fun V hV => hq V (List.mem_cons_of_mem _ hV))
    refine ⟨k1 + k2, ?_⟩
    simp only [usersLoop, h1, h2]
    simp [Nat.add_assoc]

theorem usersLoop_quiet (cfg : Config) (ssa : MemSSA) (MMan : MemorySSACallsManager)
    (M : Module) (w : QueueElem) (us : List Value) :
    ∀ b b' : PassState, usersLoop cfg ssa MMan M w us b = .ok b' →
      b'.decision w.store_inst ≠ some true →
      ∀ U ∈ us, userPushes cfg ssa MMan M U ≠ none := by
  induction us with
  | nil => intro b b' _ _ U hU; simp at hU
  | cons V rest ih =>
    intro b b' h hk U hU
    simp only [usersLoop] at h
    cases h1 : processUser cfg ssa MMan M w V b with
    | error e => rw [h1] at h; simp at h
    | ok b1 =>
      rw [h1] at h
      simp only at h
      rcases List.mem_cons.1 hU with hU | hU
      · rw [hU]
        apply processUser_quiet cfg ssa MMan M w V b b1 h1
        intro hb1
        exact hk (usersLoop_keep_mono cfg ssa MMan M w rest b1 b' h hb1)
      · exact ih b1 b' h hk U hU

/-- A quiet node: the loop over its uses only enqueues, and it enqueues `quietPushes`. -/
theorem delta_of_quiet (cfg : Config) (ssa : MemSSA) (MMan : MemorySSACallsManager)
    (M : Module) (w : QueueElem) (hq : Quiet cfg ssa MMan M w.shadow_mem_inst) :
    ∃ k, delta cfg ssa MMan M w = .ok
      { queue := ((quietPushes cfg ssa MMan M w.shadow_mem_inst).map (childElem w)).reverse
        visited := [], m_store_map := [], skipped_chains := 0, warnings := k } := by
  obtain ⟨k, h⟩ := usersLoop_of_quiet cfg ssa MMan M w (M.usesOf w.shadow_mem_inst)
    PassState.init hq
  refine ⟨k, ?_⟩
  unfold delta
  rw [h]
  simp [PassState.init, quietPushes]

/-- A loop over the uses that ends without the keep mark was quiet. -/
theorem quiet_of_delta (cfg : Config) (ssa : MemSSA) (MMan : MemorySSACallsManager)
    (M : Module) (w : QueueElem) (b : PassState) (h : delta cfg ssa MMan M w = .ok b)
    (hk : b.decision w.store_inst ≠ some true) : Quiet cfg ssa MMan M w.shadow_mem_inst :=
  usersLoop_quiet cfg ssa MMan M w _ PassState.init b h hk

theorem userAct_phi (cfg : Config) (ssa : MemSSA) (MMan : MemorySSACallsManager)
    (M : Module) (u : InstId) (hop : M.opcodeOf u = some .phi) :
    userAct cfg ssa MMan M (.inst u) = .push u := by
  simp [userAct, hop]

theorem userAct_argRefMod (cfg : Config) (ssa : MemSSA) (MMan : MemorySSACallsManager)
    (M : Module) (u : InstId) (f callee : FunId) (fn : MemorySSAFunction)
    (hop : M.opcodeOf u = some (.call (some f)))
    (hcl : ssa.classify u cfg.OnlySingleton = some .ArgRefMod)
    (hfc : M.findCalledFunction u = some callee) (hgf : MMan.getFunction callee = some fn) :
    userAct cfg ssa MMan M (.inst u) =
      if ssa.getMemSSAParamIdx u < 0 then .abort .cannotFindIndex
      else if fn.numInFormals = 0 then .keep
      else
        match fn.getInFormal (ssa.getMemSSAParamIdx u) with
        | none => .abort .getInFormalNull
        | some (.inst calleeInitArg) => .push calleeInitArg
        | some .nonInst => .abort .expectedEnqueueFromCallee := by
  simp [userAct, hop, isMemSSAStore, isMemSSAArgRef, isMemSSAArgMod, isMemSSAArgRefMod,
    hcl, hfc, hgf]

theorem userAct_funOut (cfg : Config) (ssa : MemSSA) (MMan : MemorySSACallsManager)
    (M : Module) (u : InstId) (f : FunId)
    (hop : M.opcodeOf u = some (.call (some f)))
    (hcl : ssa.classify u cfg.OnlySingleton = some .FunOut) :
    userAct cfg ssa MMan M (.inst u) =
      if ssa.getMemSSAParamIdx u < 0 then .abort .cannotFindIndex
      else .ascend (ssa.getMemSSAParamIdx u) (M.parentUses u) := by
  simp [userAct, hop, isMemSSAStore, isMemSSAArgRef, isMemSSAArgMod, isMemSSAArgRefMod,
    isMemSSAFunIn, isMemSSAFunOut, hcl]

/-- Every followed edge out of a quiet node is enqueued. -/
theorem edge_mem_quietPushes (cfg : Config) (ssa : MemSSA) (MMan : MemorySSACallsManager)
    (M : Module) (n n' : InstId) (he : Edge cfg ssa MMan M n n')
    (hq : Quiet cfg ssa MMan M n) : n' ∈ quietPushes cfg ssa MMan M n := by
  unfold quietPushes
  rw [List.mem_flatMap]
  cases he
  case phi hu hop =>
    refine ⟨_, hu, ?_⟩
    simp [userPushes, userAct_phi cfg ssa MMan M _ hop]
  case argRefMod u f callee fn hu hop hcl hfc hgf hin =>
    refine ⟨_, hu, ?_⟩
    have hq' := hq _ hu
    simp only [userPushes, userAct_argRefMod cfg ssa MMan M u f callee fn hop hcl hfc hgf, hin]
      at hq' ⊢
    split_ifs at hq' ⊢
    · simp at hq'
    · simp at hq'
    · simp
  case funOut u CI f callee cs hu hop hcl hCI hopCI hcs hpr =>
    refine ⟨_, hu, ?_⟩
    have hq' := hq _ hu
    simp only [userPushes, userAct_funOut cfg ssa MMan M u f hop hcl] at hq' ⊢
    by_cases hidx : ssa.getMemSSAParamIdx u < 0
    · simp [hidx] at hq'
    · simp only [hidx, if_false] at hq' ⊢
      by_cases hall : (M.parentUses u).all
          (fun C => ((callerAct cfg MMan M (ssa.getMemSSAParamIdx u) C).pushes).isSome) = true
      · simp only [hall, if_true, Option.getD_some, List.mem_flatMap]
        refine ⟨_, hCI, ?_⟩
        have hC := List.all_eq_true.1 hall _ hCI
        simp only [callerAct, hopCI, hcs] at hC ⊢
        cases callee with
        | none => simp [CallerAct.pushes] at hC
        | some g =>
          simp only at hC ⊢
          split_ifs at hC ⊢
          · simp [CallerAct.pushes] at hC
          · simp [CallerAct.pushes] at hC
          · simp [CallerAct.pushes] at hC
          · simp [CallerAct.pushes] at hC
          · simp [hpr, CallerAct.pushes]
      · simp [hall] at hq'

end IPDSE


namespace IPDSE

/-! ## The traversal invariant -/

theorem visitRank_le_length (p : InstId × InstId) (l : List (InstId × InstId)) :
    visitRank p l ≤ l.length := by
  induction l with
  | nil => simp [visitRank]
  | cons x xs ih =>
    by_cases hx : x = p
    · simp [visitRank, hx]
    · simp only [visitRank, hx, if_false, List.length_cons]
      omega

theorem visitRank_cons_lt (key a b : InstId × InstId) (l : List (InstId × InstId))
    (ha : key ≠ a) (hb : key ≠ b) (h : visitRank a l < visitRank b l) :
    visitRank a (key :: l) < visitRank b (key :: l) := by
  simpa [visitRank, ha, hb] using h

theorem visitRank_new_lt (key b : InstId × InstId) (l : List (InstId × InstId))
    (hb : key ≠ b) : visitRank b (key :: l) < visitRank key (key :: l) := by
  have := visitRank_le_length b l
  simp only [visitRank, hb, if_false, if_true]
  omega

theorem step_ok_decision (cfg : Config) (ssa : MemSSA) (MMan : MemorySSACallsManager)
    (M : Module) (st st' : PassState) (w : QueueElem) (q : List QueueElem)
    (hq : st.queue = w :: q) (h : step cfg ssa MMan M st = .ok st') (s : InstId) :
    (s ≠ w.store_inst → st'.decision s = st.decision s) ∧
    (st.decision s = some true → st'.decision s = some true) ∧
    (st'.decision s = some false → st.decision s = some false) := by
  obtain ⟨_, _, hmap⟩ := step_frame cfg ssa MMan M st w q hq
  rw [h] at hmap
  exact decision_storeMapSet_true st w.store_inst s _ hmap

/-- One iteration keeps the traversal invariant. -/
theorem step_traced (cfg : Config) (ssa : MemSSA) (MMan : MemorySSACallsManager)
    (M : Module) (s : InstId) (roots : List InstId) (st st' : PassState)
    (hT : Traced cfg ssa MMan M s roots st) (hne : st.queue ≠ [])
    (h : step cfg ssa MMan M st = .ok st') : Traced cfg ssa MMan M s roots st' := by
  obtain ⟨w, q, hq⟩ := List.exists_cons_of_ne_nil hne
  intro hk'
  obtain ⟨hd1, hd2, _⟩ := step_ok_decision cfg ssa MMan M st st' w q hq h s
  have hk : st.decision s ≠ some true := fun hc => hk' (hd2 hc)
  obtain ⟨hroots, hclosed⟩ := hT hk
  by_cases hws : w.store_inst = s
  · -- the popped element belongs to the store under consideration
    rcases step_shape cfg ssa MMan M st w q hq with ⟨_, h1⟩ | ⟨_, _, h1⟩ | ⟨_, _, _, h1⟩ |
      ⟨hv, _, hload, h1⟩
    · rw [h1] at h
      simp only [Except.ok.injEq] at h
      subst h
      exact absurd (hws ▸ decision_markStoreToKeep _ _) hk'
    · rw [h1] at h
      simp only [Except.ok.injEq] at h
      subst h
      exact absurd (by simp [PassState.decision, hws, storeMapGet_set_self]) hk'
    · rw [h1] at h
      simp only [Except.ok.injEq] at h
      subst h
      exact absurd (by simp [PassState.decision, hws, storeMapGet_set_self]) hk'
    · rw [h1] at h
      cases hd : delta cfg ssa MMan M w with
      | error e => obtain ⟨e1, s1⟩ := e; rw [hd] at h; simp [liftRes] at h
      | ok b =>
        rw [hd] at h
        simp only [liftRes, Except.ok.injEq] at h
        have hbk : b.decision w.store_inst ≠ some true := by
          intro hb
          apply hk'
          rw [← h, ← hws]
          have hb' : storeMapGet w.store_inst b.m_store_map = some true := hb
          simp [PassState.plus, PassState.decision, hb', storeMapGet_set_self]
        have hquiet := quiet_of_delta cfg ssa MMan M w b hd hbk
        obtain ⟨k, hdq⟩ := delta_of_quiet cfg ssa MMan M w hquiet
        rw [hd] at hdq
        simp only [Except.ok.injEq] at hdq
        have hqueue : st'.queue
            = ((quietPushes cfg ssa MMan M w.shadow_mem_inst).map (childElem w)).reverse ++ q := by
          rw [← h, hdq]; simp [PassState.plus]
        have hvis : st'.visited = w.key :: st.visited := by
          rw [← h]; simp [PassState.plus]
        have hkey : w.key = (w.shadow_mem_inst, s) := by simp [QueueElem.key, hws]
        have hold : ∀ x, InQueue st x s → InQueue st' x s ∨ x = w.shadow_mem_inst := by
          rintro x ⟨p, hp, hp1, hp2⟩
          rw [hq] at hp
          rcases List.mem_cons.1 hp with hp | hp
          · right; rw [← hp1, hp]
          · left
            exact ⟨p, by rw [hqueue]; exact List.mem_append_right _ hp, hp1, hp2⟩
        refine ⟨?_, ?_⟩
        · intro m hm
          rcases hroots m hm with hin | hin
          · rcases hold m hin with h' | h'
            · exact Or.inl h'
            · right; rw [hvis, hkey, h']; exact List.mem_cons_self _ _
          · right; rw [hvis]; exact List.mem_cons_of_mem _ hin
        · intro n hn
          rw [hvis] at hn ⊢
          rcases List.mem_cons.1 hn with hn | hn
          · -- the node visited in this iteration
            have hnw : n = w.shadow_mem_inst := by
              rw [hkey] at hn
              exact (Prod.mk.inj hn).1
            subst hnw
            refine ⟨hload, ?_⟩
            intro n' he
            left
            have hmem := edge_mem_quietPushes cfg ssa MMan M _ n' he hquiet
            refine ⟨childElem w n', ?_, rfl, hws⟩
            rw [hqueue]
            apply List.mem_append_left
            rw [List.mem_reverse]
            exact List.mem_map_of_mem _ hmem
          · -- a node visited before
            obtain ⟨hl, hedges⟩ := hclosed n hn
            refine ⟨hl, ?_⟩
            intro n' he
            have hne1 : w.key ≠ (n, s) := fun hc => hv (hc ▸ hn)
            rcases hedges n' he with hin | ⟨hin, hlt⟩
            · rcases hold n' hin with h' | h'
              · exact Or.inl h'
              · right
                rw [h', ← hkey]
                exact ⟨List.mem_cons_self _ _, visitRank_new_lt _ _ _ hne1⟩
            · right
              have hne2 : w.key ≠ (n', s) := fun hc => hv (hc ▸ hin)
              exact ⟨List.mem_cons_of_mem _ hin, visitRank_cons_lt _ _ _ _ hne1 hne2 hlt⟩
  · -- the popped element belongs to another store
    obtain ⟨⟨ps, hps, _, _, hstore⟩, hvis, _⟩ := step_frame cfg ssa MMan M st w q hq
    rw [h] at hps hvis
    simp only [resState] at hps hvis
    have hold : ∀ x, InQueue st x s → InQueue st' x s := by
      rintro x ⟨p, hp, hp1, hp2⟩
      rw [hq] at hp
      rcases List.mem_cons.1 hp with hp | hp
      · exact absurd (hp ▸ hp2) hws
      · exact ⟨p, by rw [hps]; exact List.mem_append_right _ hp, hp1, hp2⟩
    have hkeyne : ∀ x, w.key ≠ (x, s) := by
      intro x hc
      apply hws
      simpa [QueueElem.key] using (Prod.mk.inj hc).2
    rcases hvis with hvis | ⟨_, hvis⟩
    · rw [hvis]
      refine ⟨fun m hm => (hroots m hm).imp (hold m) id, ?_⟩
      intro n hn
      obtain ⟨hl, hedges⟩ := hclosed n hn
      exact ⟨hl, fun n' he => (hedges n' he).imp (hold n') id⟩
    · rw [hvis]
      refine ⟨fun m hm => (hroots m hm).imp (hold m) (List.mem_cons_of_mem _), ?_⟩
      intro n hn
      have hn' : (n, s) ∈ st.visited := by
        rcases List.mem_cons.1 hn with hn | hn
        · exact absurd hn.symm (hkeyne n)
        · exact hn
      obtain ⟨hl, hedges⟩ := hclosed n hn'
      refine ⟨hl, fun n' he => ?_⟩
      rcases hedges n' he with hin | ⟨hin, hlt⟩
      · exact Or.inl (hold n' hin)
      · exact Or.inr ⟨List.mem_cons_of_mem _ hin,
          visitRank_cons_lt _ _ _ _ (hkeyne n) (hkeyne n') hlt⟩

/-- When the worklist has drained and the store is not marked keep, everything reachable from
its markers was visited, has no Load user, and lies on no cycle. -/
theorem traced_final (cfg : Config) (ssa : MemSSA) (MMan : MemorySSACallsManager)
    (M : Module) (s : InstId) (roots : List InstId) (st : PassState)
    (hT : Traced cfg ssa MMan M s roots st) (hq : st.queue = [])
    (hk : st.decision s ≠ some true) (m : InstId) (hm : m ∈ roots) (n : InstId)
    (hr : Reach cfg ssa MMan M m n) :
    (n, s) ∈ st.visited ∧ ssa.hasMemSSALoadUser n cfg.OnlySingleton = false ∧
      ¬ OnCycle cfg ssa MMan M n := by
  obtain ⟨hroots, hclosed⟩ := hT hk
  have hnoq : ∀ x, ¬ InQueue st x s := by
    rintro x ⟨p, hp, _⟩
    rw [hq] at hp
    simp at hp
  have hvis : (n, s) ∈ st.visited := by
    induction hr with
    | refl =>
      rcases hroots m hm with h | h
      · exact absurd h (hnoq m)
      · exact h
    | tail _ he ih =>
      rcases (hclosed _ ih).2 _ he with h | h
      · exact absurd h (hnoq _)
      · exact h.1
  refine ⟨hvis, (hclosed n hvis).1, ?_⟩
  intro hcyc
  have hdec : ∀ a b, Relation.TransGen (Edge cfg ssa MMan M) a b → (a, s) ∈ st.visited →
      (b, s) ∈ st.visited ∧ visitRank (a, s) st.visited < visitRank (b, s) st.visited := by
    intro a b hab
    induction hab with
    | single he =>
      intro ha
      rcases (hclosed _ ha).2 _ he with h | h
      · exact absurd h (hnoq _)
      · exact h
    | tail _ he ih =>
      intro ha
      obtain ⟨h1, h2⟩ := ih ha
      rcases (hclosed _ h1).2 _ he with h | h
      · exact absurd h (hnoq _)
      · exact ⟨h.1, lt_trans h2 h.2⟩
  exact absurd (hdec n n hcyc hvis).2 (lt_irrefl _)

end IPDSE


namespace IPDSE

/-! ## The pass as a whole -/

theorem storeMapGet_all_none (m : List (InstId × Bool)) (h : ∀ k, storeMapGet k m = none) :
    m = [] := by
  cases m with
  | nil => rfl
  | cons kv rest =>
    obtain ⟨k, v⟩ := kv
    have := h k
    simp [storeMapGet] at this

theorem mainLoop_nil (cfg : Config) (ssa : MemSSA) (MMan : MemorySSACallsManager) (M : Module)
    (fuel : Nat) (st : PassState) (hq : st.queue = []) :
    mainLoop cfg ssa MMan M fuel st = some (.ok st) := by
  cases fuel <;> simp [mainLoop, hq]

/-- A finished run: seeding succeeded, the main loop drained in the state of the report, and the
Store Eliminator ran on the map of that state. -/
theorem runOnModule_finished (cfg : Config) (ssa : MemSSA) (M : Module) (r : Report)
    (h : runOnModule cfg ssa M = .finished r) :
    ∃ st0, seedModule cfg ssa M = .ok st0 ∧
      mainLoop cfg ssa (ssa.callsManager M cfg.OnlySingleton) M (loopFuel M st0) st0
        = some (.ok r.st) ∧
      r.eliminated = (eliminate r.st.m_store_map (M, 0)).1 ∧
      r.num_deleted = (eliminate r.st.m_store_map (M, 0)).2 := by
  unfold runOnModule at h
  split at h
  · rename_i hM
    simp only [Outcome.finished.injEq] at h
    subst h
    refine ⟨PassState.init, by simp [seedModule, hM, seedFunctions], ?_, ?_, ?_⟩
    · exact mainLoop_nil _ _ _ _ _ _ rfl
    · simp [PassState.init, eliminate]
    · simp [PassState.init, eliminate]
  · split at h
    · simp at h
    · rename_i st0 hseed
      split at h
      · rename_i hq
        simp only [Outcome.finished.injEq] at h
        subst h
        have hmap : st0.m_store_map = [] := by
          apply storeMapGet_all_none
          intro k
          obtain ⟨h1, _, _, _, _, h6, _⟩ := seedModule_ok cfg ssa M st0 hseed
          apply h6
          have : seedList cfg ssa M = [] := by
            have := congrArg List.reverse h1
            simpa [hq] using this.symm
          simp [this]
        refine ⟨st0, hseed, ?_, ?_, ?_⟩
        · exact mainLoop_nil _ _ _ _ _ _ hq
        · simp [hmap, eliminate]
        · simp [hmap, eliminate]
      · split at h
        · simp at h
        · simp at h
        · rename_i st' hloop
          simp only [Outcome.finished.injEq] at h
          subst h
          exact ⟨st0, hseed, hloop, rfl, rfl⟩

theorem step_mapOk (cfg : Config) (ssa : MemSSA) (MMan : MemorySSACallsManager) (M : Module)
    (keys : List InstId) (st st' : PassState) (hm : MapOk keys st) (hne : st.queue ≠ [])
    (h : step cfg ssa MMan M st = .ok st') : MapOk keys st' := by
  obtain ⟨w, q, hq⟩ := List.exists_cons_of_ne_nil hne
  obtain ⟨hk, hnd, hqs⟩ := hm
  obtain ⟨⟨ps, hps, _, _, hstore⟩, _, hmap⟩ := step_frame cfg ssa MMan M st w q hq
  rw [h] at hps hmap
  simp only [resState] at hps hmap
  have hw : w.store_inst ∈ keys := hqs w (by rw [hq]; exact List.mem_cons_self _ _)
  refine ⟨?_, hnd, ?_⟩
  · rcases hmap with hmap | hmap
    · rw [hmap]; exact hk
    · rw [hmap, storeMapSet_keys_of_mem _ _ _ (by rw [hk]; exact hw)]; exact hk
  · intro p hp
    rw [hps] at hp
    rcases List.mem_append.1 hp with hp | hp
    · rw [(hstore p hp).1]; exact hw
    · exact hqs p (by rw [hq]; exact List.mem_cons_of_mem _ hp)

theorem seedAll_keys (ms : List (Instruction × Option Instruction)) :
    ∀ (st st' : PassState), seedAll ms st = .ok st' →
      (∀ w ∈ st.queue, w.store_inst ∈ st.m_store_map.map Prod.fst) →
      ∀ w ∈ st'.queue, w.store_inst ∈ st'.m_store_map.map Prod.fst := by
  induction ms with
  | nil =>
    intro st st' h hst
    simp only [seedAll, Except.ok.injEq] at h
    subst h
    exact hst
  | cons m rest ih =>
    intro st st' h hst
    simp only [seedAll] at h
    cases hm : seedOf m with
    | none => rw [hm] at h; simp at h
    | some e =>
      rw [hm] at h
      apply ih _ _ h
      intro w hw
      simp only [PassState.markStoreToRemove, PassState.enqueue, List.mem_cons] at hw ⊢
      rw [storeMapSet_mem_keys]
      rcases hw with hw | hw
      · left; rw [hw]
      · right; exact hst w hw

theorem seedModule_mapOk (cfg : Config) (ssa : MemSSA) (M : Module) (st0 : PassState)
    (h : seedModule cfg ssa M = .ok st0) : MapOk (st0.m_store_map.map Prod.fst) st0 := by
  refine ⟨rfl, (seedModule_ok cfg ssa M st0 h).2.2.2.2.2.2, ?_⟩
  rw [seedModule_eq_seedAll] at h
  exact seedAll_keys _ _ _ h (by simp [PassState.init])

/-- Facts about the final state of a finished run. -/
theorem finished_facts (cfg : Config) (ssa : MemSSA) (M : Module) (r : Report)
    (h : runOnModule cfg ssa M = .finished r) :
    r.st.queue = [] ∧ (r.st.m_store_map.map Prod.fst).Nodup ∧
    (∀ k, r.st.decision k ≠ none ↔ k ∈ (seedList cfg ssa M).map (fun e => e.store_inst)) ∧
    r.eliminated = (eliminate r.st.m_store_map (M, 0)).1 ∧
    r.num_deleted = (eliminate r.st.m_store_map (M, 0)).2 := by
  obtain ⟨st0, hseed, hloop, he, hn⟩ := runOnModule_finished cfg ssa M r h
  have hm0 := seedModule_mapOk cfg ssa M st0 hseed
  obtain ⟨⟨hk, hnd, _⟩, hq⟩ := mainLoop_ok_induction cfg ssa (ssa.callsManager M cfg.OnlySingleton)
    M (MapOk (st0.m_store_map.map Prod.fst)) (fun st st' => step_mapOk cfg ssa _ M _ st st')
    _ st0 r.st hm0 hloop
  refine ⟨hq, by rw [hk]; exact hnd, ?_, he, hn⟩
  intro k
  obtain ⟨_, _, _, _, h5, h6, _⟩ := seedModule_ok cfg ssa M st0 hseed
  have hiff : ∀ (st : PassState), st.decision k ≠ none ↔ k ∈ st.m_store_map.map Prod.fst := by
    intro st
    simp only [PassState.decision, ne_eq, storeMapGet_eq_none, not_not]
  rw [hiff, hk, ← hiff st0]
  constructor
  · intro hk0
    by_contra hc
    exact hk0 (h6 k hc)
  · intro hk0
    rw [h5 k hk0]
    simp

/-- In a map with unique keys an entry `false` is the decision tentatively-dead. -/
theorem mem_false_iff_decision (st : PassState) (hnd : (st.m_store_map.map Prod.fst).Nodup)
    (i : InstId) : (i, false) ∈ st.m_store_map ↔ st.decision i = some false :=
  ⟨fun h => storeMapGet_of_mem_nodup i false _ hnd h, fun h => storeMapGet_mem i false _ h⟩

/-- A store marked keep survives the Store Eliminator. -/
theorem kept_not_deleted (cfg : Config) (ssa : MemSSA) (M : Module) (r : Report)
    (h : runOnModule cfg ssa M = .finished r) (s : InstId)
    (hk : r.st.decision s ≠ some false) (hs : s ∈ M.instIds) : s ∈ r.eliminated.instIds := by
  obtain ⟨_, hnd, _, he, _⟩ := finished_facts cfg ssa M r h
  rw [he, (eliminate_spec _ M 0).1, List.mem_filter]
  refine ⟨hs, ?_⟩
  simp only [decide_eq_true_eq]
  intro hmem
  exact hk ((mem_false_iff_decision r.st hnd s).1 hmem)

/-- The traversal invariant holds after seeding for every seeded pair. -/
theorem traced_seed (cfg : Config) (ssa : MemSSA) (MMan : MemorySSACallsManager) (M : Module)
    (st0 : PassState) (h : seedModule cfg ssa M = .ok st0) (m s : InstId)
    (hseed : ({ shadow_mem_inst := m, store_inst := s, length := 0 } : QueueElem)
      ∈ seedList cfg ssa M) :
    Traced cfg ssa MMan M s [m] st0 := by
  obtain ⟨h1, h2, _⟩ := seedModule_ok cfg ssa M st0 h
  intro _
  refine ⟨?_, ?_⟩
  · intro m' hm'
    simp only [List.mem_singleton] at hm'
    subst hm'
    left
    exact ⟨_, by rw [h1, List.mem_reverse]; exact hseed, rfl, rfl⟩
  · intro n hn
    rw [h2] at hn
    simp at hn

/-- The core of soundness and cycle safety: in a finished run, a seeded store from whose marker
a node with a Load user, or a node on a cycle, is reachable along followed edges is marked
keep. -/
theorem finished_keep (cfg : Config) (ssa : MemSSA) (M : Module) (r : Report)
    (h : runOnModule cfg ssa M = .finished r) (m s n : InstId)
    (hseed : ({ shadow_mem_inst := m, store_inst := s, length := 0 } : QueueElem)
      ∈ seedList cfg ssa M)
    (hreach : Reach cfg ssa (ssa.callsManager M cfg.OnlySingleton) M m n)
    (hn : ssa.hasMemSSALoadUser n cfg.OnlySingleton = true ∨
      OnCycle cfg ssa (ssa.callsManager M cfg.OnlySingleton) M n) :
    r.st.decision s = some true := by
  obtain ⟨st0, hseed0, hloop, _, _⟩ := runOnModule_finished cfg ssa M r h
  have hT0 := traced_seed cfg ssa (ssa.callsManager M cfg.OnlySingleton) M st0 hseed0 m s hseed
  obtain ⟨hT, hq⟩ := mainLoop_ok_induction cfg ssa (ssa.callsManager M cfg.OnlySingleton) M
    (Traced cfg ssa (ssa.callsManager M cfg.OnlySingleton) M s [m])
    (fun st st' => step_traced cfg ssa _ M s [m] st st') _ st0 r.st hT0 hloop
  by_contra hk
  obtain ⟨_, hload, hcyc⟩ := traced_final cfg ssa _ M s [m] r.st hT hq hk m
    (List.mem_singleton_self m) n hreach
  rcases hn with hn | hn
  · rw [hload] at hn; simp at hn
  · exact hcyc hn

theorem runOnModule_ne_outOfFuel (cfg : Config) (ssa : MemSSA) (M : Module) :
    runOnModule cfg ssa M ≠ .outOfFuel := by
  unfold runOnModule
  split
  · simp
  · split
    · simp
    · split
      · simp
      · split
        · rename_i hnone
          exact absurd hnone (mainLoop_loopFuel cfg ssa _ M _)
        · simp
        · simp

theorem seed_store_mem_instIds (cfg : Config) (ssa : MemSSA) (M : Module) (w : QueueElem)
    (hw : w ∈ seedList cfg ssa M) : w.store_inst ∈ M.instIds :=
  (seedList_stores_sublist cfg ssa M).subset (List.mem_map_of_mem _ hw)

end IPDSE


namespace IPDSE

/-! ## Decisions never go back -/

theorem step_decision (cfg : Config) (ssa : MemSSA) (MMan : MemorySSACallsManager)
    (M : Module) (st : PassState) (s : InstId) :
    (st.decision s = some true →
      (resState (step cfg ssa MMan M st)).decision s = some true) ∧
    ((resState (step cfg ssa MMan M st)).decision s = some false →
      st.decision s = some false) := by
  cases hq : st.queue with
  | nil => simp [step, hq, resState]
  | cons w q =>
    obtain ⟨_, _, hmap⟩ := step_frame cfg ssa MMan M st w q hq
    obtain ⟨_, h2, h3⟩ := decision_storeMapSet_true st w.store_inst s _ hmap
    exact ⟨h2, h3⟩

theorem mainLoop_decision (cfg : Config) (ssa : MemSSA) (MMan : MemorySSACallsManager)
    (M : Module) (s : InstId) :
    ∀ (fuel : Nat) (st : PassState) (r : Res), mainLoop cfg ssa MMan M fuel st = some r →
      (st.decision s = some true → (resState r).decision s = some true) ∧
      ((resState r).decision s = some false → st.decision s = some false) := by
  intro fuel
  induction fuel with
  | zero =>
    intro st r h
    simp only [mainLoop] at h
    split at h
    · simp only [Option.some.injEq] at h
      subst h
      exact ⟨id, id⟩
    · simp at h
  | succ fuel ih =>
    intro st r h
    simp only [mainLoop] at h
    split at h
    · simp only [Option.some.injEq] at h
      subst h
      exact ⟨id, id⟩
    · have hs := step_decision cfg ssa MMan M st s
      split at h
      · rename_i e he
        simp only [Option.some.injEq] at h
        subst h
        rw [he] at hs
        exact hs
      · rename_i st1 hst1
        rw [hst1] at hs
        simp only [resState] at hs
        obtain ⟨h1, h2⟩ := ih st1 r h
        exact ⟨fun hk => h1 (hs.1 hk), fun hk => hs.2 (h2 hk)⟩

theorem step_visited (cfg : Config) (ssa : MemSSA) (MMan : MemorySSACallsManager)
    (M : Module) (st : PassState) (w : QueueElem) (q : List QueueElem)
    (hq : st.queue = w :: q) :
    (resState (step cfg ssa MMan M st)).visited
      = if w.key ∈ st.visited then st.visited else w.key :: st.visited := by
  rcases step_shape cfg ssa MMan M st w q hq with ⟨hv, h⟩ | ⟨hv, _, h⟩ | ⟨hv, _, _, h⟩ |
    ⟨hv, _, _, h⟩
  · rw [h]; simp [resState, hv, PassState.markStoreToKeep]
  · rw [h]; simp [resState, hv]
  · rw [h]; simp [resState, hv]
  · rw [h, resState_liftRes]; simp [PassState.plus, hv]

theorem step_skipped (cfg : Config) (ssa : MemSSA) (MMan : MemorySSACallsManager)
    (M : Module) (st : PassState) (w : QueueElem) (q : List QueueElem)
    (hq : st.queue = w :: q) :
    (resState (step cfg ssa MMan M st)).skipped_chains
      = if w.key ∉ st.visited ∧ w.length = cfg.MaxLenDefUse then st.skipped_chains + 1
        else st.skipped_chains := by
  rcases step_shape cfg ssa MMan M st w q hq with ⟨hv, h⟩ | ⟨hv, hl, h⟩ | ⟨hv, hl, _, h⟩ |
    ⟨hv, hl, _, h⟩
  · rw [h]; simp [resState, hv, PassState.markStoreToKeep]
  · rw [h]; simp [resState, hv, hl]
  · rw [h]; simp [resState, hv, hl]
  · rw [h, resState_liftRes]; simp [PassState.plus, hv, hl]

/-! ## The Store Eliminator on the whole module -/

theorem keepOnly_keepOnly (M : Module) (p q : InstId → Bool) :
    (M.keepOnly p).keepOnly q = M.keepOnly (fun i => p i && q i) := by
  simp only [Module.keepOnly, List.map_map, Module.mk.injEq]
  apply List.map_congr_left
  intro F _
  simp only [Function.comp, List.map_map, Function.mk.injEq, true_and, and_true]
  apply List.map_congr_left
  intro b _
  simp [List.filter_filter, Bool.and_comm]

theorem keepOnly_true (M : Module) : M.keepOnly (fun _ => true) = M := by
  cases M with
  | mk fs =>
    simp only [Module.keepOnly, Module.mk.injEq]
    conv_rhs => rw [← List.map_id fs]
    apply List.map_congr_left
    intro F _
    cases F
    simp

theorem eliminate_keepOnly (m : List (InstId × Bool)) :
    ∀ (M : Module) (n : Nat),
      (eliminate m (M, n)).1 = M.keepOnly (fun i => decide ((i, false) ∉ m)) := by
  induction m with
  | nil => intro M n; simp [eliminate, keepOnly_true]
  | cons kv rest ih =>
    intro M n
    obtain ⟨k, v⟩ := kv
    cases v with
    | false =>
      simp only [eliminate, Bool.not_false, if_true]
      rw [ih]
      have : M.eraseFromParent k = M.keepOnly (fun i => decide (i ≠ k)) := rfl
      rw [this, keepOnly_keepOnly]
      congr 1
      funext i
      by_cases hik : i = k <;> simp [hik]
    | true =>
      simp only [eliminate, Bool.not_true, Bool.false_eq_true, if_false]
      rw [ih]
      congr 1
      funext i
      simp

theorem instIds_keepOnly (M : Module) (p : InstId → Bool) :
    (M.keepOnly p).instIds = M.instIds.filter p := by
  unfold Module.keepOnly Module.instIds
  simp only
  induction M.functions with
  | nil => simp
  | cons F Fs ih =>
    simp only [List.map_cons, List.flatMap_cons, List.filter_append, ih]
    congr 1
    unfold Function.instIds
    simp only
    induction F.blocks with
    | nil => simp
    | cons b bs ihb =>
      simp only [List.map_cons, List.flatMap_cons, List.filter_append, ihb]
      congr 1
      rw [List.filter_map]
      rfl

/-! ## A store whose marker has only skipped uses -/

theorem userPushes_skipped (cfg : Config) (ssa : MemSSA) (MMan : MemorySSACallsManager)
    (M : Module) (u : InstId) (f : FunId) (hop : M.opcodeOf u = some (.call (some f)))
    (hk : ssa.classify u cfg.OnlySingleton = some .Store ∨
      ssa.classify u cfg.OnlySingleton = some .ArgMod ∨
      ssa.classify u cfg.OnlySingleton = some .FunIn) :
    userPushes cfg ssa MMan M (.inst u) = some [] := by
  rcases hk with hk | hk | hk <;>
    simp [userPushes, userAct, hop, isMemSSAStore, isMemSSAArgRef, isMemSSAArgMod,
      isMemSSAArgRefMod, isMemSSAFunIn, hk]

theorem step_untouched (cfg : Config) (ssa : MemSSA) (MMan : MemorySSACallsManager)
    (M : Module) (m s : InstId) (hbound : cfg.MaxLenDefUse ≠ 0)
    (hload : ssa.hasMemSSALoadUser m cfg.OnlySingleton = false)
    (husers : ∀ U ∈ M.usesOf m, ∃ u f, U = .inst u ∧ M.opcodeOf u = some (.call (some f)) ∧
      (ssa.classify u cfg.OnlySingleton = some .Store ∨
        ssa.classify u cfg.OnlySingleton = some .ArgMod ∨
        ssa.classify u cfg.OnlySingleton = some .FunIn))
    (st st' : PassState) (hU : Untouched m s st) (hne : st.queue ≠ [])
    (h : step cfg ssa MMan M st = .ok st') : Untouched m s st' := by
  obtain ⟨w, q, hq⟩ := List.exists_cons_of_ne_nil hne
  obtain ⟨hdec, hqueue⟩ := hU
  by_cases hws : w.store_inst = s
  · have hfil : st.queue.filter (fun p => decide (p.store_inst = s))
        = w :: q.filter (fun p => decide (p.store_inst = s)) := by
      rw [hq]; simp [List.filter_cons, hws]
    rw [hfil] at hqueue
    rcases hqueue with ⟨hone, hnv⟩ | hnil
    · simp only [List.cons.injEq] at hone
      obtain ⟨hw, hrest⟩ := hone
      rcases step_shape cfg ssa MMan M st w q hq with ⟨hv, _⟩ | ⟨_, hl, _⟩ | ⟨_, _, hl, _⟩ |
        ⟨_, _, _, h1⟩
      · exact absurd hv (by rw [hw]; exact hnv m)
      · rw [hw] at hl
        exact absurd hl.symm hbound
      · rw [hw] at hl
        simp only at hl
        rw [hload] at hl
        simp at hl
      · have hquiet : Quiet cfg ssa MMan M w.shadow_mem_inst := by
          intro U hU
          rw [hw] at hU
          obtain ⟨u, f, hUu, hop, hk⟩ := husers U hU
          rw [hUu, userPushes_skipped cfg ssa MMan M u f hop hk]
          simp
        have hpush : quietPushes cfg ssa MMan M w.shadow_mem_inst = [] := by
          unfold quietPushes
          rw [List.flatMap_eq_nil_iff]
          intro U hU
          rw [hw] at hU
          obtain ⟨u, f, hUu, hop, hk⟩ := husers U hU
          rw [hUu, userPushes_skipped cfg ssa MMan M u f hop hk]
          rfl
        obtain ⟨k, hd⟩ := delta_of_quiet cfg ssa MMan M w hquiet
        rw [h1, hd, hpush] at h
        simp only [liftRes, Except.ok.injEq] at h
        subst h
        refine ⟨?_, Or.inr ?_⟩
        · simpa [PassState.plus, PassState.decision, storeMapGet] using hdec
        · simpa [PassState.plus] using hrest
    · simp at hnil
  · have hfil : st.queue.filter (fun p => decide (p.store_inst = s))
        = q.filter (fun p => decide (p.store_inst = s)) := by
      rw [hq]; simp [List.filter_cons, hws]
    rw [hfil] at hqueue
    obtain ⟨⟨ps, hps, _, _, hstore⟩, hvis, _⟩ := step_frame cfg ssa MMan M st w q hq
    rw [h] at hps hvis
    simp only [resState] at hps hvis
    have hfil' : st'.queue.filter (fun p => decide (p.store_inst = s))
        = q.filter (fun p => decide (p.store_inst = s)) := by
      rw [hps, List.filter_append]
      have : ps.filter (fun p => decide (p.store_inst = s)) = [] := by
        rw [List.filter_eq_nil_iff]
        intro p hp
        simp only [decide_eq_true_eq]
        rw [(hstore p hp).1]
        exact hws
      rw [this, List.nil_append]
    refine ⟨?_, ?_⟩
    · rw [(step_ok_decision cfg ssa MMan M st st' w q hq h s).1 (fun hc => hws hc.symm)]
      exact hdec
    · rw [hfil']
      rcases hqueue with ⟨hone, hnv⟩ | hnil
      · left
        refine ⟨hone, ?_⟩
        intro n hn
        rcases hvis with hvis | ⟨_, hvis⟩
        · rw [hvis] at hn; exact hnv n hn
        · rw [hvis] at hn
          rcases List.mem_cons.1 hn with hn | hn
          · apply hws
            have := (Prod.mk.inj hn).2
            simpa [QueueElem.key] using this.symm
          · exact hnv n hn
      · exact Or.inr hnil

theorem untouched_seed (cfg : Config) (ssa : MemSSA) (M : Module) (hWF : M.WF)
    (st0 : PassState) (h : seedModule cfg ssa M = .ok st0) (m s : InstId)
    (hseed : ({ shadow_mem_inst := m, store_inst := s, length := 0 } : QueueElem)
      ∈ seedList cfg ssa M) : Untouched m s st0 := by
  obtain ⟨h1, h2, _, _, h5, _, _⟩ := seedModule_ok cfg ssa M st0 h
  refine ⟨h5 s (List.mem_map_of_mem (fun e => e.store_inst) hseed), Or.inl ⟨?_, ?_⟩⟩
  · rw [h1, List.filter_reverse]
    have := filter_eq_singleton_of_nodup_map (fun e : QueueElem => e.store_inst)
      (seedList cfg ssa M) _ (seedList_stores_nodup cfg ssa M hWF) hseed
    simp only at this
    rw [this]
    rfl
  · intro n hn
    rw [h2] at hn
    simp at hn

end IPDSE


namespace IPDSE

/-! ## Reordered modules look the same to the traversal -/

theorem blockFrom_reordered (i : InstId) (b b' : List Instruction)
    (h : List.Forall₂ InstReordered b b') :
    List.Forall₂ InstReordered (blockFrom i b) (blockFrom i b') := by
  induction h with
  | nil => simp [blockFrom]
  | cons hx hxs ih =>
    rename_i x x' xs xs'
    have hid : x'.id = x.id := hx.1.symm
    by_cases hxi : x.id = i
    · simp only [blockFrom, hxi, hid, if_true]
      exact List.Forall₂.cons hx hxs
    · simp only [blockFrom, hxi, hid, if_false]
      exact ih

theorem locateInBlocks_reordered (i : InstId) (bs bs' : List (List Instruction))
    (h : List.Forall₂ (List.Forall₂ InstReordered) bs bs') :
    (locateInBlocks i bs = none ∧ locateInBlocks i bs' = none) ∨
    ∃ l l', locateInBlocks i bs = some l ∧ locateInBlocks i bs' = some l' ∧
      List.Forall₂ InstReordered l l' := by
  induction h with
  | nil => left; simp [locateInBlocks]
  | cons hb hbs ih =>
    rename_i b b' rest rest'
    have hfrom := blockFrom_reordered i b b' hb
    cases h1 : blockFrom i b with
    | nil =>
      rw [h1] at hfrom
      have h2 : blockFrom i b' = [] := List.forall₂_nil_left_iff.1 hfrom
      simp only [locateInBlocks, h1, h2]
      exact ih
    | cons x xs =>
      rw [h1] at hfrom
      cases h2 : blockFrom i b' with
      | nil =>
        rw [h2] at hfrom
        exact absurd (List.forall₂_nil_right_iff.1 hfrom) (by simp)
      | cons y ys =>
        right
        rw [h2] at hfrom
        exact ⟨_, _, by simp [locateInBlocks, h1], by simp [locateInBlocks, h2], hfrom⟩

theorem locateInFunctions_reordered (i : InstId) (Fs Fs' : List Function)
    (h : List.Forall₂ FunReordered Fs Fs') :
    (locateInFunctions i Fs = none ∧ locateInFunctions i Fs' = none) ∨
    ∃ F F' l l', locateInFunctions i Fs = some (F, l) ∧
      locateInFunctions i Fs' = some (F', l') ∧ FunReordered F F' ∧
      List.Forall₂ InstReordered l l' := by
  induction h with
  | nil => left; simp [locateInFunctions]
  | cons hF hFs ih =>
    rename_i F F' rest rest'
    rcases locateInBlocks_reordered i F.blocks F'.blocks hF.2.2.2.2 with ⟨h1, h2⟩ |
      ⟨l, l', h1, h2, hl⟩
    · simp only [locateInFunctions, h1, h2]
      exact ih
    · right
      exact ⟨F, F', l, l', by simp [locateInFunctions, h1], by simp [locateInFunctions, h2],
        hF, hl⟩

theorem function?_reordered (g : FunId) (Fs Fs' : List Function)
    (h : List.Forall₂ FunReordered Fs Fs') :
    (Fs.find? (fun F => decide (F.id = g)) = none ∧
      Fs'.find? (fun F => decide (F.id = g)) = none) ∨
    ∃ G G', Fs.find? (fun F => decide (F.id = g)) = some G ∧
      Fs'.find? (fun F => decide (F.id = g)) = some G' ∧ FunReordered G G' := by
  induction h with
  | nil => left; simp
  | cons hF hFs ih =>
    rename_i F F' rest rest'
    have hid : F'.id = F.id := hF.1.symm
    by_cases hg : F.id = g
    · right
      exact ⟨F, F', by simp [List.find?_cons, hg], by simp [List.find?_cons, hid, hg], hF⟩
    · simp only [List.find?_cons, hid, hg, decide_False]
      exact ih

theorem isShadowMemFunction_reordered (M M' : Module) (h : Reordered M M') (g : FunId) :
    M'.isShadowMemFunction g = M.isShadowMemFunction g := by
  unfold Module.isShadowMemFunction Module.function?
  rcases function?_reordered g M.functions M'.functions h with ⟨h1, h2⟩ | ⟨G, G', h1, h2, hG⟩
  · rw [h1, h2]
  · rw [h1, h2]
    simp only
    rw [hG.2.1]

theorem findCalledFunctionFrom_reordered (M M' : Module) (h : Reordered M M')
    (l l' : List Instruction) (hl : List.Forall₂ InstReordered l l') :
    findCalledFunctionFrom M' l' = findCalledFunctionFrom M l := by
  induction hl with
  | nil => simp [findCalledFunctionFrom]
  | cons hx hxs ih =>
    rename_i x x' xs xs'
    simp only [findCalledFunctionFrom, ← hx.2.1]
    cases hop : x.opcode with
    | call callee =>
      cases callee with
      | none => rfl
      | some g =>
        simp only [isShadowMemFunction_reordered M M' h g, ih]
    | phi => simpa using ih
    | store => simpa using ih
    | other => simpa using ih

/-- What the traversal observes is the same in a reordered module, up to the order of the use
lists. -/
theorem useOrderVariant_of_reordered (M M' : Module) (h : Reordered M M') :
    UseOrderVariant M M' := by
  have hloc := fun i => locateInFunctions_reordered i M.functions M'.functions h
  refine ⟨?_, ?_, ?_, ?_, ?_⟩
  · intro i
    unfold Module.opcodeOf Module.instruction? Module.locate
    rcases hloc i with ⟨h1, h2⟩ | ⟨F, F', l, l', h1, h2, _, hl⟩
    · rw [h1, h2]
    · rw [h1, h2]
      cases hl with
      | nil => rfl
      | cons hx _ => simp [hx.2.1]
  · intro i
    unfold Module.usesOf Module.instruction? Module.locate
    rcases hloc i with ⟨h1, h2⟩ | ⟨F, F', l, l', h1, h2, _, hl⟩
    · rw [h1, h2]
    · rw [h1, h2]
      cases hl with
      | nil => exact List.Perm.refl _
      | cons hx _ => exact hx.2.2.symm
  · intro i
    unfold Module.parentUses Module.locate
    rcases hloc i with ⟨h1, h2⟩ | ⟨F, F', l, l', h1, h2, hF, _⟩
    · rw [h1, h2]
    · rw [h1, h2]
      exact hF.2.2.2.1.symm
  · intro i
    unfold Module.findCalledFunction Module.locate
    rcases hloc i with ⟨h1, h2⟩ | ⟨F, F', l, l', h1, h2, _, hl⟩
    · rw [h1, h2]
    · rw [h1, h2]
      exact findCalledFunctionFrom_reordered M M' h l l' hl
  · intro g
    unfold Module.hasFunctionPtrParam Module.function?
    rcases function?_reordered g M.functions M'.functions h with ⟨h1, h2⟩ | ⟨G, G', h1, h2, hG⟩
    · rw [h1, h2]
    · rw [h1, h2]
      simp only [IPDSE.hasFunctionPtrParam]
      rw [hG.2.2.1]

theorem UseOrderVariant.symm {M M' : Module} (h : UseOrderVariant M M') :
    UseOrderVariant M' M :=
  { opcodeOf := fun i => (h.opcodeOf i).symm
    usesOf := fun i => (h.usesOf i).symm
    parentUses := fun i => (h.parentUses i).symm
    findCalledFunction := fun i => (h.findCalledFunction i).symm
    hasFunctionPtrParam := fun g => (h.hasFunctionPtrParam g).symm }

theorem callerAct_variant (cfg : Config) (MMan : MemorySSACallsManager) (M M' : Module)
    (h : UseOrderVariant M M') (idx : Int) (C : Value) :
    callerAct cfg MMan M' idx C = callerAct cfg MMan M idx C := by
  cases C with
  | nonInst => rfl
  | inst CI =>
    simp only [callerAct, h.opcodeOf, h.hasFunctionPtrParam]

theorem userAct_variant (cfg : Config) (ssa : MemSSA) (MMan : MemorySSACallsManager)
    (M M' : Module) (h : UseOrderVariant M M') (U : Value) :
    userAct cfg ssa MMan M' U = match U with
      | .nonInst => .skip
      | .inst I => (userAct cfg ssa MMan M (.inst I)).withCallers (M'.parentUses I) := by
  cases U with
  | nonInst => rfl
  | inst I =>
    simp only [userAct, h.opcodeOf, h.findCalledFunction]
    cases hop : M.opcodeOf I with
    | none => rfl
    | some op =>
      cases op with
      | phi => rfl
      | store => rfl
      | other => rfl
      | call callee =>
        cases callee with
        | none => rfl
        | some g =>
          simp only
          split_ifs
          · rfl
          · rfl
          · rfl
          · rfl
          · cases hf : M.findCalledFunction I with
            | none => rfl
            | some calleeF =>
              cases hg : MMan.getFunction calleeF with
              | none => simp [hg, UserAct.withCallers]
              | some fn =>
                simp only [hg]
                split_ifs
                · rfl
                · cases hi : fn.getInFormal (ssa.getMemSSAParamIdx I) with
                  | none => rfl
                  | some v => cases v <;> rfl
          · rfl
          · rfl
          · rfl
          · rfl

theorem all_perm {α : Type} (p : α → Bool) (l l' : List α) (h : l.Perm l') :
    l.all p = l'.all p := by
  rw [Bool.eq_iff_iff, List.all_eq_true, List.all_eq_true]
  exact ⟨fun hl a ha => hl a (h.mem_iff.2 ha), fun hl a ha => hl a (h.mem_iff.1 ha)⟩

theorem userPushes_variant (cfg : Config) (ssa : MemSSA) (MMan : MemorySSACallsManager)
    (M M' : Module) (h : UseOrderVariant M M') (U : Value) :
    ((userPushes cfg ssa MMan M' U).isSome = (userPushes cfg ssa MMan M U).isSome) ∧
    ((userPushes cfg ssa MMan M' U).getD []).Perm ((userPushes cfg ssa MMan M U).getD []) := by
  unfold userPushes
  rw [userAct_variant cfg ssa MMan M M' h U]
  cases U with
  | nonInst => simp [userAct]
  | inst I =>
    simp only
    cases hact : userAct cfg ssa MMan M (.inst I) with
    | skip => simp [UserAct.withCallers]
    | abort e => simp [UserAct.withCallers]
    | keep => simp [UserAct.withCallers]
    | push p => simp [UserAct.withCallers]
    | warn => simp [UserAct.withCallers]
    | ascend idx callers =>
      have hcallers : callers = M.parentUses I := by
        cases hop : M.opcodeOf I with
        | none => simp [userAct, hop] at hact
        | some op =>
          cases op with
          | phi => simp [userAct, hop] at hact
          | store => simp [userAct, hop] at hact
          | other => simp [userAct, hop] at hact
          | call callee =>
            cases callee with
            | none => simp [userAct, hop] at hact
            | some g =>
              simp only [userAct, hop] at hact
              split_ifs at hact
              · split at hact
                · simp at hact
                · split at hact
                  · simp at hact
                  · split_ifs at hact
                    split at hact <;> simp at hact
              · simp only [UserAct.ascend.injEq] at hact
                exact hact.2.symm
      subst hcallers
      simp only [UserAct.withCallers]
      have hp := h.parentUses I
      have hfun : (fun C => ((callerAct cfg MMan M' idx C).pushes).isSome)
          = (fun C => ((callerAct cfg MMan M idx C).pushes).isSome) := by
        funext C; rw [callerAct_variant cfg MMan M M' h]
      have hfun2 : (fun C => ((callerAct cfg MMan M' idx C).pushes).getD [])
          = (fun C => ((callerAct cfg MMan M idx C).pushes).getD []) := by
        funext C; rw [callerAct_variant cfg MMan M M' h]
      rw [hfun, hfun2, all_perm _ _ _ hp]
      split_ifs
      · exact ⟨rfl, List.Perm.flatMap_right _ hp⟩
      · exact ⟨rfl, List.Perm.refl _⟩

theorem quiet_variant (cfg : Config) (ssa : MemSSA) (MMan : MemorySSACallsManager)
    (M M' : Module) (h : UseOrderVariant M M') (n : InstId)
    (hq : Quiet cfg ssa MMan M n) : Quiet cfg ssa MMan M' n := by
  intro U hU
  have hU' := (h.usesOf n).mem_iff.1 hU
  have h1 := (userPushes_variant cfg ssa MMan M M' h U).1
  have h2 := hq U hU'
  intro hc
  rw [hc] at h1
  cases hp : userPushes cfg ssa MMan M U with
  | none => exact h2 hp
  | some l => rw [hp] at h1; simp at h1

theorem quietPushes_variant (cfg : Config) (ssa : MemSSA) (MMan : MemorySSACallsManager)
    (M M' : Module) (h : UseOrderVariant M M') (n : InstId) :
    (quietPushes cfg ssa MMan M' n).Perm (quietPushes cfg ssa MMan M n) := by
  unfold quietPushes
  exact (List.Perm.flatMap_right _ (h.usesOf n)).trans
    (List.Perm.flatMap_left _ (fun U _ => (userPushes_variant cfg ssa MMan M M' h U).2))

theorem children_variant (cfg : Config) (ssa : MemSSA) (MMan : MemorySSACallsManager)
    (M M' : Module) (h : UseOrderVariant M M') (w : QueueElem) :
    (↑(children cfg ssa MMan M' w) : Multiset QueueElem) = ↑(children cfg ssa MMan M w) :=
  Multiset.coe_eq_coe.2 ((quietPushes_variant cfg ssa MMan M M' h _).map _)

theorem admissible_variant (cfg : Config) (ssa : MemSSA) (MMan : MemorySSACallsManager)
    (M M' : Module) (h : UseOrderVariant M M') (w : QueueElem)
    (ha : Admissible cfg ssa MMan M w) : Admissible cfg ssa MMan M' w :=
  ⟨ha.1, ha.2.1, quiet_variant cfg ssa MMan M M' h _ ha.2.2⟩

theorem deadCert_variant (cfg : Config) (ssa : MemSSA) (MMan : MemorySSACallsManager)
    (M M' : Module) (h : UseOrderVariant M M') (s : InstId) (seeds L : Multiset QueueElem)
    (hc : DeadCert cfg ssa MMan M s seeds L) : DeadCert cfg ssa MMan M' s seeds L := by
  refine ⟨hc.nodup, fun w hw => ⟨admissible_variant cfg ssa MMan M M' h w (hc.adm w hw).1,
    (hc.adm w hw).2⟩, ?_⟩
  have hfun : (fun w => (↑(children cfg ssa MMan M' w) : Multiset QueueElem))
      = (fun w => (↑(children cfg ssa MMan M w) : Multiset QueueElem)) := by
    funext w; exact children_variant cfg ssa MMan M M' h w
  rw [hfun]
  exact hc.closed

end IPDSE


namespace IPDSE

/-! ## Counting the elements of one store -/

theorem ofStore_cons_same (s : InstId) (w : QueueElem) (q : List QueueElem)
    (h : w.store_inst = s) : ofStore s (w :: q) = w ::ₘ ofStore s q := by
  simp [ofStore, List.filter_cons, h]

theorem ofStore_cons_other (s : InstId) (w : QueueElem) (q : List QueueElem)
    (h : w.store_inst ≠ s) : ofStore s (w :: q) = ofStore s q := by
  simp [ofStore, List.filter_cons, h]

theorem ofStore_append (s : InstId) (a b : List QueueElem) :
    ofStore s (a ++ b) = ofStore s a + ofStore s b := by
  simp [ofStore, List.filter_append]

theorem ofStore_all (s : InstId) (l : List QueueElem) (h : ∀ p ∈ l, p.store_inst = s) :
    ofStore s l = ↑l := by
  unfold ofStore
  rw [List.filter_eq_self.2]
  intro p hp
  simpa using h p hp

theorem ofStore_none (s : InstId) (l : List QueueElem) (h : ∀ p ∈ l, p.store_inst ≠ s) :
    ofStore s l = 0 := by
  unfold ofStore
  rw [List.filter_eq_nil_iff.2]
  · rfl
  · intro p hp
    simpa using h p hp

theorem ofStore_perm (s : InstId) (a b : List QueueElem) (h : a.Perm b) :
    ofStore s a = ofStore s b :=
  Multiset.coe_eq_coe.2 (h.filter _)

theorem visitedOf_cons_same (s : InstId) (p : InstId × InstId) (v : List (InstId × InstId))
    (h : p.2 = s) : visitedOf s (p :: v) = p ::ₘ visitedOf s v := by
  simp [visitedOf, List.filter_cons, h]

theorem visitedOf_cons_other (s : InstId) (p : InstId × InstId) (v : List (InstId × InstId))
    (h : p.2 ≠ s) : visitedOf s (p :: v) = visitedOf s v := by
  simp [visitedOf, List.filter_cons, h]

theorem mem_visitedOf (s : InstId) (p : InstId × InstId) (v : List (InstId × InstId)) :
    p ∈ visitedOf s v ↔ p ∈ v ∧ p.2 = s := by
  simp [visitedOf]

theorem children_store (cfg : Config) (ssa : MemSSA) (MMan : MemorySSACallsManager)
    (M : Module) (w p : QueueElem) (hp : p ∈ children cfg ssa MMan M w) :
    p.store_inst = w.store_inst := by
  unfold children at hp
  obtain ⟨n, _, hn⟩ := List.mem_map.1 hp
  rw [← hn]
  rfl

/-! ## Iterations that leave the decision alone -/

/-- The first visit of an admissible element only enqueues its children. -/
theorem step_admissible (cfg : Config) (ssa : MemSSA) (MMan : MemorySSACallsManager)
    (M : Module) (st : PassState) (w : QueueElem) (q : List QueueElem)
    (hq : st.queue = w :: q) (hv : w.key ∉ st.visited)
    (ha : Admissible cfg ssa MMan M w) :
    ∃ k, step cfg ssa MMan M st = .ok
      { queue := (children cfg ssa MMan M w).reverse ++ q
        visited := w.key :: st.visited
        m_store_map := st.m_store_map
        skipped_chains := st.skipped_chains
        warnings := st.warnings + k } := by
  obtain ⟨hl, hload, hquiet⟩ := ha
  rcases step_shape cfg ssa MMan M st w q hq with ⟨hv', _⟩ | ⟨_, hl', _⟩ | ⟨_, _, hload', _⟩ |
    ⟨_, _, _, h⟩
  · exact absurd hv' hv
  · exact absurd hl' hl
  · rw [hload] at hload'; simp at hload'
  · obtain ⟨k, hd⟩ := delta_of_quiet cfg ssa MMan M w hquiet
    refine ⟨k, ?_⟩
    rw [h, hd]
    simp [liftRes, PassState.plus, PassState.decision, storeMapGet, children]

/-- An iteration after which the store of the popped element is not keep was the first visit of
an admissible element. -/
theorem step_not_keep (cfg : Config) (ssa : MemSSA) (MMan : MemorySSACallsManager)
    (M : Module) (st st' : PassState) (w : QueueElem) (q : List QueueElem)
    (hq : st.queue = w :: q) (h : step cfg ssa MMan M st = .ok st')
    (hk : st'.decision w.store_inst ≠ some true) :
    w.key ∉ st.visited ∧ Admissible cfg ssa MMan M w := by
  rcases step_shape cfg ssa MMan M st w q hq with ⟨_, h1⟩ | ⟨_, _, h1⟩ | ⟨_, _, _, h1⟩ |
    ⟨hv, hl, hload, h1⟩
  · rw [h1] at h
    simp only [Except.ok.injEq] at h
    subst h
    exact absurd (decision_markStoreToKeep _ _) hk
  · rw [h1] at h
    simp only [Except.ok.injEq] at h
    subst h
    exact absurd (by simp [PassState.decision, storeMapGet_set_self]) hk
  · rw [h1] at h
    simp only [Except.ok.injEq] at h
    subst h
    exact absurd (by simp [PassState.decision, storeMapGet_set_self]) hk
  · rw [h1] at h
    cases hd : delta cfg ssa MMan M w with
    | error e => obtain ⟨e1, s1⟩ := e; rw [hd] at h; simp [liftRes] at h
    | ok b =>
      rw [hd] at h
      simp only [liftRes, Except.ok.injEq] at h
      have hbk : b.decision w.store_inst ≠ some true := by
        intro hb
        apply hk
        rw [← h]
        have hb' : storeMapGet w.store_inst b.m_store_map = some true := hb
        simp [PassState.plus, PassState.decision, hb', storeMapGet_set_self]
      exact ⟨hv, hl, hload, quiet_of_delta cfg ssa MMan M w b hd hbk⟩

theorem step_decision_cases (cfg : Config) (ssa : MemSSA) (MMan : MemorySSACallsManager)
    (M : Module) (st : PassState) (s : InstId) :
    (resState (step cfg ssa MMan M st)).decision s = st.decision s ∨
      (resState (step cfg ssa MMan M st)).decision s = some true := by
  cases hq : st.queue with
  | nil => left; simp [step, hq, resState]
  | cons w q =>
    obtain ⟨_, _, hmap⟩ := step_frame cfg ssa MMan M st w q hq
    rcases hmap with hmap | hmap
    · left; simp [PassState.decision, hmap]
    · by_cases hs : s = w.store_inst
      · right; simp [PassState.decision, hmap, hs, storeMapGet_set_self]
      · left; simp [PassState.decision, hmap, storeMapGet_set_ne _ _ _ _ hs]

theorem mainLoop_decision_cases (cfg : Config) (ssa : MemSSA) (MMan : MemorySSACallsManager)
    (M : Module) (s : InstId) (d : Option Bool) (fuel : Nat) (st st' : PassState)
    (hd : st.decision s = d)
    (h : mainLoop cfg ssa MMan M fuel st = some (.ok st')) :
    st'.decision s = d ∨ st'.decision s = some true := by
  refine (mainLoop_ok_induction cfg ssa MMan M
    (fun x => x.decision s = d ∨ x.decision s = some true) ?_ fuel st st' (Or.inl hd) h).1
  intro x x' hx _ hstep
  have h1 := step_decision_cases cfg ssa MMan M x s
  have h2 := (step_decision cfg ssa MMan M x s).1
  rw [hstep] at h1 h2
  simp only [resState] at h1 h2
  rcases hx with hx | hx
  · rcases h1 with h1 | h1
    · left; rw [h1, hx]
    · right; exact h1
  · right; exact h2 hx

/-! ## The bookkeeping of one store -/

theorem explored_step_other (cfg : Config) (ssa : MemSSA) (MMan : MemorySSACallsManager)
    (M : Module) (s : InstId) (seeds V : Multiset QueueElem) (st st' : PassState)
    (w : QueueElem) (q : List QueueElem) (hq : st.queue = w :: q) (hws : w.store_inst ≠ s)
    (h : step cfg ssa MMan M st = .ok st') (hE : Explored cfg ssa MMan M s seeds st V) :
    Explored cfg ssa MMan M s seeds st' V := by
  obtain ⟨⟨ps, hps, _, _, hstore⟩, _, _⟩ := step_frame cfg ssa MMan M st w q hq
  have hvis := step_visited cfg ssa MMan M st w q hq
  rw [h] at hps hvis
  simp only [resState] at hps hvis
  have hq' : ofStore s st'.queue = ofStore s st.queue := by
    rw [hps, hq, ofStore_append, ofStore_cons_other s w q hws, ofStore_none s ps, zero_add]
    intro p hp
    rw [(hstore p hp).1]
    exact hws
  have hv' : visitedOf s st'.visited = visitedOf s st.visited := by
    rw [hvis]
    split
    · rfl
    · exact visitedOf_cons_other s _ _ (by simpa [QueueElem.key] using hws)
  exact ⟨by rw [hv']; exact hE.vis, hE.adm, by rw [hq']; exact hE.eq⟩

theorem explored_step_same (cfg : Config) (ssa : MemSSA) (MMan : MemorySSACallsManager)
    (M : Module) (s : InstId) (seeds V : Multiset QueueElem) (st : PassState)
    (w : QueueElem) (q : List QueueElem) (k : Nat) (hq : st.queue = w :: q)
    (hws : w.store_inst = s) (ha : Admissible cfg ssa MMan M w)
    (hE : Explored cfg ssa MMan M s seeds st V) :
    Explored cfg ssa MMan M s seeds
      { queue := (children cfg ssa MMan M w).reverse ++ q
        visited := w.key :: st.visited
        m_store_map := st.m_store_map
        skipped_chains := st.skipped_chains
        warnings := st.warnings + k } (w ::ₘ V) := by
  refine ⟨?_, ?_, ?_⟩
  · rw [Multiset.map_cons, hE.vis]
    exact (visitedOf_cons_same s _ _ (by simpa [QueueElem.key] using hws)).symm
  · intro p hp
    rcases Multiset.mem_cons.1 hp with hp | hp
    · rw [hp]; exact ⟨ha, hws⟩
    · exact hE.adm p hp
  · have hch : ofStore s ((children cfg ssa MMan M w).reverse ++ q)
        = ↑(children cfg ssa MMan M w) + ofStore s q := by
      rw [ofStore_append, ofStore_perm s _ _ (List.reverse_perm _), ofStore_all]
      intro p hp
      rw [children_store cfg ssa MMan M w p hp, hws]
    have heq := hE.eq
    rw [hq, ofStore_cons_same s w q hws] at heq
    simp only [hch, Multiset.cons_bind]
    calc ↑(children cfg ssa MMan M w) + ofStore s q + w ::ₘ V
        = ↑(children cfg ssa MMan M w) + (w ::ₘ ofStore s q + V) := by
          rw [Multiset.add_cons, Multiset.cons_add, add_assoc, Multiset.add_cons]
      _ = ↑(children cfg ssa MMan M w)
            + (seeds + V.bind (fun w => (↑(children cfg ssa MMan M w) : Multiset QueueElem))) := by
          rw [heq]
      _ = seeds + (↑(children cfg ssa MMan M w)
            + V.bind (fun w => (↑(children cfg ssa MMan M w) : Multiset QueueElem))) := by
          rw [add_left_comm]

/-- The invariant from which a drained traversal yields its certificate. -/
theorem step_explored (cfg : Config) (ssa : MemSSA) (MMan : MemorySSACallsManager)
    (M : Module) (s : InstId) (seeds : Multiset QueueElem) (st st' : PassState)
    (hP : st.visited.Nodup ∧
      (st.decision s ≠ some true → ∃ V, Explored cfg ssa MMan M s seeds st V))
    (hne : st.queue ≠ []) (h : step cfg ssa MMan M st = .ok st') :
    st'.visited.Nodup ∧
      (st'.decision s ≠ some true → ∃ V, Explored cfg ssa MMan M s seeds st' V) := by
  obtain ⟨w, q, hq⟩ := List.exists_cons_of_ne_nil hne
  obtain ⟨hnd, hex⟩ := hP
  have hvis := step_visited cfg ssa MMan M st w q hq
  rw [h] at hvis
  simp only [resState] at hvis
  refine ⟨?_, ?_⟩
  · rw [hvis]
    split
    · exact hnd
    · rename_i hv
      exact List.nodup_cons.2 ⟨hv, hnd⟩
  · intro hk'
    have hk : st.decision s ≠ some true :=
      fun hc => hk' ((step_ok_decision cfg ssa MMan M st st' w q hq h s).2.1 hc)
    obtain ⟨V, hE⟩ := hex hk
    by_cases hws : w.store_inst = s
    · obtain ⟨hv, ha⟩ := step_not_keep cfg ssa MMan M st st' w q hq h (by rw [hws]; exact hk')
      obtain ⟨k, hres⟩ := step_admissible cfg ssa MMan M st w q hq hv ha
      rw [hres] at h
      simp only [Except.ok.injEq] at h
      subst h
      exact ⟨_, explored_step_same cfg ssa MMan M s seeds V st w q k hq hws ha hE⟩
    · exact ⟨V, explored_step_other cfg ssa MMan M s seeds V st st' w q hq hws h hE⟩

/-- A drained traversal that did not mark the store keep has a certificate. -/
theorem deadCert_of_run (cfg : Config) (ssa : MemSSA) (MMan : MemorySSACallsManager)
    (M : Module) (s : InstId) (fuel : Nat) (st0 fin : PassState) (hvis : st0.visited = [])
    (h : mainLoop cfg ssa MMan M fuel st0 = some (.ok fin))
    (hk : fin.decision s ≠ some true) :
    ∃ L, DeadCert cfg ssa MMan M s (ofStore s st0.queue) L := by
  have h0 : st0.visited.Nodup ∧ (st0.decision s ≠ some true →
      ∃ V, Explored cfg ssa MMan M s (ofStore s st0.queue) st0 V) := by
    refine ⟨by rw [hvis]; exact List.nodup_nil, fun _ => ⟨0, ?_, ?_, ?_⟩⟩
    · simp [hvis, visitedOf]
    · intro w hw; simp at hw
    · simp
  obtain ⟨⟨hnd, hex⟩, hq⟩ := mainLoop_ok_induction cfg ssa MMan M _
    (fun st st' => step_explored cfg ssa MMan M s (ofStore s st0.queue) st st') fuel st0 fin h0 h
  obtain ⟨V, hE⟩ := hex hk
  refine ⟨V, ?_, hE.adm, ?_⟩
  · rw [hE.vis]
    unfold visitedOf
    rw [Multiset.coe_nodup]
    exact hnd.filter _
  · have := hE.eq
    rw [hq] at this
    simpa [ofStore] using this

/-- With a certificate, every iteration keeps the store away from keep. -/
theorem step_certified (cfg : Config) (ssa : MemSSA) (MMan : MemorySSACallsManager)
    (M : Module) (s : InstId) (seeds L : Multiset QueueElem)
    (hc : DeadCert cfg ssa MMan M s seeds L) (st st' : PassState)
    (hP : st.decision s ≠ some true ∧
      ∃ V, Explored cfg ssa MMan M s seeds st V ∧ V ≤ L)
    (hne : st.queue ≠ []) (h : step cfg ssa MMan M st = .ok st') :
    st'.decision s ≠ some true ∧ ∃ V, Explored cfg ssa MMan M s seeds st' V ∧ V ≤ L := by
  obtain ⟨w, q, hq⟩ := List.exists_cons_of_ne_nil hne
  obtain ⟨hk, V, hE, hVL⟩ := hP
  by_cases hws : w.store_inst = s
  · have hbind : V.bind (fun w => (↑(children cfg ssa MMan M w) : Multiset QueueElem))
        ≤ L.bind (fun w => (↑(children cfg ssa MMan M w) : Multiset QueueElem)) := by
      obtain ⟨u, hu⟩ := Multiset.le_iff_exists_add.1 hVL
      rw [hu, Multiset.add_bind]
      exact Multiset.le_add_right _ _
    have hle : ofStore s st.queue + V ≤ L := by
      rw [hE.eq, hc.closed]
      exact add_le_add_left hbind _
    have hwV : w ::ₘ V ≤ L := by
      refine le_trans ?_ hle
      rw [hq, ofStore_cons_same s w q hws, Multiset.cons_add]
      exact Multiset.cons_le_cons _ (Multiset.le_add_left _ _)
    have hwL : w ∈ L := Multiset.mem_of_le hwV (Multiset.mem_cons_self _ _)
    have ha := (hc.adm w hwL).1
    have hnd : (Multiset.map QueueElem.key (w ::ₘ V)).Nodup :=
      Multiset.nodup_of_le (Multiset.map_le_map hwV) hc.nodup
    have hv : w.key ∉ st.visited := by
      intro hmem
      rw [Multiset.map_cons, Multiset.nodup_cons] at hnd
      apply hnd.1
      rw [hE.vis, mem_visitedOf]
      exact ⟨hmem, by simpa [QueueElem.key] using hws⟩
    obtain ⟨k, hres⟩ := step_admissible cfg ssa MMan M st w q hq hv ha
    rw [hres] at h
    simp only [Except.ok.injEq] at h
    subst h
    exact ⟨hk, _, explored_step_same cfg ssa MMan M s seeds V st w q k hq hws ha hE, hwV⟩
  · refine ⟨?_, V, explored_step_other cfg ssa MMan M s seeds V st st' w q hq hws h hE, hVL⟩
    rw [(step_ok_decision cfg ssa MMan M st st' w q hq h s).1 (fun hc => hws hc.symm)]
    exact hk

/-- A store that one drained traversal leaves without the keep mark is left without it by every
drained traversal of a reordered module from a reordered queue. -/
theorem dead_transfer (cfg : Config) (ssa : MemSSA) (MMan : MemorySSACallsManager)
    (M1 M2 : Module) (hv : UseOrderVariant M1 M2) (s : InstId) (st1 st2 fin1 fin2 : PassState)
    (hvis1 : st1.visited = []) (hvis2 : st2.visited = [])
    (hq : st2.queue.Perm st1.queue) (hd : st2.decision s = st1.decision s)
    (fuel1 fuel2 : Nat)
    (h1 : mainLoop cfg ssa MMan M1 fuel1 st1 = some (.ok fin1))
    (h2 : mainLoop cfg ssa MMan M2 fuel2 st2 = some (.ok fin2))
    (hdead : fin1.decision s ≠ some true) : fin2.decision s ≠ some true := by
  obtain ⟨L, hc⟩ := deadCert_of_run cfg ssa MMan M1 s fuel1 st1 fin1 hvis1 h1 hdead
  have hc2 : DeadCert cfg ssa MMan M2 s (ofStore s st2.queue) L := by
    rw [ofStore_perm s _ _ hq]
    exact deadCert_variant cfg ssa MMan M1 M2 hv s _ L hc
  have hk1 : st1.decision s ≠ some true :=
    fun hc' => hdead ((mainLoop_decision cfg ssa MMan M1 s fuel1 st1 _ h1).1 hc')
  have h0 : st2.decision s ≠ some true ∧
      ∃ V, Explored cfg ssa MMan M2 s (ofStore s st2.queue) st2 V ∧ V ≤ L := by
    refine ⟨by rw [hd]; exact hk1, 0, ⟨?_, ?_, ?_⟩, Multiset.zero_le _⟩
    · simp [hvis2, visitedOf]
    · intro w hw; simp at hw
    · simp
  exact (mainLoop_ok_induction cfg ssa MMan M2 _
    (fun st st' => step_certified cfg ssa MMan M2 s (ofStore s st2.queue) L hc2 st st')
    fuel2 st2 fin2 h0 h2).1.1

end IPDSE


namespace IPDSE

/-! ## The claims -/

/-- C1 (soundness, no false deletion).  On every run that does not abort: when some shadow node
reachable from the marker of a seeded store along followed edges (phi successor, `ArgRefMod` to
the in-formal of the callee, `FunOut` to the primed value of a caller) has a Load-kind user, the
store ends the traversal marked keep and is still in the module after the Store Eliminator. -/
theorem soundness_no_false_deletion (cfg : Config) (ssa : MemSSA) (M : Module) (r : Report)
    (hrun : runOnModule cfg ssa M = .finished r) (m s n : InstId)
    (hseed : ({ shadow_mem_inst := m, store_inst := s, length := 0 } : QueueElem)
      ∈ seedList cfg ssa M)
    (hreach : Reach cfg ssa (ssa.callsManager M cfg.OnlySingleton) M m n)
    (hload : ssa.hasMemSSALoadUser n cfg.OnlySingleton = true) :
    r.st.decision s = some true ∧ s ∈ r.eliminated.instIds := by
  have hk := finished_keep cfg ssa M r hrun m s n hseed hreach (Or.inl hload)
  refine ⟨hk, kept_not_deleted cfg ssa M r hrun s ?_ (seed_store_mem_instIds cfg ssa M _ hseed)⟩
  rw [hk]
  simp

/-- Witness of C1: in `exPhiModule` the phi node 20, reached from marker 10, has a Load user; the
store 11 is kept. -/
theorem soundness_no_false_deletion_witness :
    (runOnModule exCfg exLoadSsa exPhiModule).report.st.decision 11 = some true ∧
      11 ∈ (runOnModule exCfg exLoadSsa exPhiModule).report.eliminated.instIds :=
  soundness_no_false_deletion exCfg exLoadSsa exPhiModule
    (runOnModule exCfg exLoadSsa exPhiModule).report (by rfl) 10 11 20 (by decide)
    (Relation.ReflTransGen.single (Edge.phi (by decide) (by decide))) (by decide)

/-- C2 (termination).  For every module (a finite effect graph, cyclic or not) and every
configuration, the unbounded default included, the pass never runs out of iterations: the main
loop, started in any state with `loopFuel` iterations, ends with an empty queue or an abort, and
more iterations do not change the result.  Only a first-time dequeue can enqueue: popping an
element whose pair is already visited leaves the rest of the queue and the visited set as they
are.  A pair dequeued for the first time is put into the visited set, which never loses a member,
so it is dequeued for the first time at most once. -/
theorem main_loop_terminates (cfg : Config) (ssa : MemSSA) (M : Module) :
    runOnModule cfg ssa M ≠ .outOfFuel ∧
    (∀ (MMan : MemorySSACallsManager) (st : PassState),
      ∃ r, mainLoop cfg ssa MMan M (loopFuel M st) st = some r ∧
        ∀ fuel, loopFuel M st ≤ fuel → mainLoop cfg ssa MMan M fuel st = some r) ∧
    (∀ (MMan : MemorySSACallsManager) (st : PassState) (w : QueueElem) (q : List QueueElem),
      st.queue = w :: q →
        (w.key ∈ st.visited →
          (resState (step cfg ssa MMan M st)).queue = q ∧
          (resState (step cfg ssa MMan M st)).visited = st.visited) ∧
        (w.key ∉ st.visited →
          (resState (step cfg ssa MMan M st)).visited = w.key :: st.visited) ∧
        (∀ p ∈ st.visited, p ∈ (resState (step cfg ssa MMan M st)).visited) ∧
        potential M (st.queue.map (fun e => e.store_inst)) (resState (step cfg ssa MMan M st))
          < potential M (st.queue.map (fun e => e.store_inst)) st) := by
  refine ⟨runOnModule_ne_outOfFuel cfg ssa M, ?_, ?_⟩
  · intro MMan st
    cases hr : mainLoop cfg ssa MMan M (loopFuel M st) st with
    | none => exact absurd hr (mainLoop_loopFuel cfg ssa MMan M st)
    | some r => exact ⟨r, rfl, fun fuel hf => mainLoop_mono cfg ssa MMan M _ st r hr fuel hf⟩
  · intro MMan st w q hq
    have hvis := step_visited cfg ssa MMan M st w q hq
    obtain ⟨⟨ps, hps, _, hnil, _⟩, _, _⟩ := step_frame cfg ssa MMan M st w q hq
    refine ⟨?_, ?_, ?_, ?_⟩
    · intro hv
      rw [hvis, hps, hnil hv]
      simp [hv]
    · intro hv
      rw [hvis]
      simp [hv]
    · intro p hp
      rw [hvis]
      split
      · exact hp
      · exact List.mem_cons_of_mem _ hp
    · exact (step_potential cfg ssa MMan M _ st (by rw [hq]; simp)
        (fun e he => List.mem_map_of_mem _ he)).1

/-- C3 (cycle safety).  When a node on a cycle of followed edges is reachable from the marker of
a seeded store, the pass does not run out of iterations, and when the traversal drains (no fatal
abort) the store is marked keep and stays in the module.  The mechanism: popping an element whose
pair is already in the visited set marks its store keep and enqueues nothing. -/
theorem cycle_safety (cfg : Config) (ssa : MemSSA) (M : Module) (m s c : InstId)
    (hseed : ({ shadow_mem_inst := m, store_inst := s, length := 0 } : QueueElem)
      ∈ seedList cfg ssa M)
    (hreach : Reach cfg ssa (ssa.callsManager M cfg.OnlySingleton) M m c)
    (hcycle : OnCycle cfg ssa (ssa.callsManager M cfg.OnlySingleton) M c) :
    runOnModule cfg ssa M ≠ .outOfFuel ∧
    (∀ r, runOnModule cfg ssa M = .finished r →
      r.st.decision s = some true ∧ s ∈ r.eliminated.instIds) ∧
    (∀ (MMan : MemorySSACallsManager) (st : PassState) (w : QueueElem) (q : List QueueElem),
      st.queue = w :: q → w.key ∈ st.visited →
        step cfg ssa MMan M st = .ok ({ st with queue := q }.markStoreToKeep w.store_inst)) := by
  refine ⟨runOnModule_ne_outOfFuel cfg ssa M, ?_, ?_⟩
  · intro r hrun
    have hk := finished_keep cfg ssa M r hrun m s c hseed hreach (Or.inr hcycle)
    refine ⟨hk, kept_not_deleted cfg ssa M r hrun s ?_
      (seed_store_mem_instIds cfg ssa M _ hseed)⟩
    rw [hk]
    simp
  · intro MMan st w q hq hv
    rcases step_shape cfg ssa MMan M st w q hq with ⟨_, h⟩ | ⟨hv', _⟩ | ⟨hv', _⟩ | ⟨hv', _⟩
    · exact h
    · exact absurd hv hv'
    · exact absurd hv hv'
    · exact absurd hv hv'

/-- Witness of C3: in `exCycleModule` the phi nodes 20 and 21 form a cycle reachable from marker
10; the run finishes and the store 11 is kept, without any Load user. -/
theorem cycle_safety_witness :
    (∃ r, runOnModule exCfg exPlainSsa exCycleModule = .finished r ∧
      r.st.decision 11 = some true ∧ r.st.skipped_chains = 0) ∧
    (runOnModule exCfg exPlainSsa exCycleModule ≠ .outOfFuel ∧
      (∀ r, runOnModule exCfg exPlainSsa exCycleModule = .finished r →
        r.st.decision 11 = some true ∧ 11 ∈ r.eliminated.instIds) ∧
      (∀ (MMan : MemorySSACallsManager) (st : PassState) (w : QueueElem) (q : List QueueElem),
        st.queue = w :: q → w.key ∈ st.visited →
          step exCfg exPlainSsa MMan exCycleModule st
            = .ok ({ st with queue := q }.markStoreToKeep w.store_inst))) :=
  ⟨⟨(runOnModule exCfg exPlainSsa exCycleModule).report, by rfl, by decide, by decide⟩,
    cycle_safety exCfg exPlainSsa exCycleModule 10 11 20 (by decide)
      (Relation.ReflTransGen.single (Edge.phi (by decide) (by decide)))
      (Relation.TransGen.tail
        (Relation.TransGen.single
          (Edge.phi (by decide) (by decide) :
            Edge exCfg exPlainSsa (exPlainSsa.callsManager exCycleModule exCfg.OnlySingleton)
              exCycleModule 20 21))
        (Edge.phi (by decide) (by decide) :
          Edge exCfg exPlainSsa (exPlainSsa.callsManager exCycleModule exCfg.OnlySingleton)
            exCycleModule 21 20))⟩

/-- C4 (monotonicity).  In every state, a store whose decision is keep is still keep after one
more iteration of the main loop and in whatever state the loop ends or aborts; and a decision
that is tentatively-dead afterwards was tentatively-dead before, so the loop never assigns
tentatively-dead. -/
theorem keep_is_monotone (cfg : Config) (ssa : MemSSA) (MMan : MemorySSACallsManager)
    (M : Module) (st : PassState) (s : InstId) :
    (st.decision s = some true →
      (resState (step cfg ssa MMan M st)).decision s = some true) ∧
    ((resState (step cfg ssa MMan M st)).decision s = some false →
      st.decision s = some false) ∧
    (∀ (fuel : Nat) (r : Res), mainLoop cfg ssa MMan M fuel st = some r →
      (st.decision s = some true → (resState r).decision s = some true) ∧
      ((resState r).decision s = some false → st.decision s = some false)) :=
  ⟨(step_decision cfg ssa MMan M st s).1, (step_decision cfg ssa MMan M st s).2,
    fun fuel r h => mainLoop_decision cfg ssa MMan M s fuel st r h⟩

/-- Witness of C4: store 11, marked keep in a state with another element still queued, is keep
after the next iteration. -/
theorem keep_is_monotone_witness :
    (resState (step exCfg exPlainSsa exNoTables exCycleModule
      { queue := [{ shadow_mem_inst := 20, store_inst := 7, length := 1 }], visited := [],
        m_store_map := [(11, true), (7, false)], skipped_chains := 0, warnings := 0 })).decision 11
      = some true :=
  (keep_is_monotone exCfg exPlainSsa exNoTables exCycleModule
    { queue := [{ shadow_mem_inst := 20, store_inst := 7, length := 1 }], visited := [],
      m_store_map := [(11, true), (7, false)], skipped_chains := 0, warnings := 0 } 11).1
    (by decide)

end IPDSE


namespace IPDSE

theorem runOnModule_aborted (cfg : Config) (ssa : MemSSA) (M : Module) (e : Fatal)
    (st : PassState) (M' : Module) (h : runOnModule cfg ssa M = .aborted e st M') :
    M' = M ∧
    (seedModule cfg ssa M = .error (e, st) ∨
      ∃ st0, seedModule cfg ssa M = .ok st0 ∧
        mainLoop cfg ssa (ssa.callsManager M cfg.OnlySingleton) M (loopFuel M st0) st0
          = some (.error (e, st))) := by
  unfold runOnModule at h
  split at h
  · simp at h
  · split at h
    · rename_i e1 st1 hseed
      simp only [Outcome.aborted.injEq] at h
      obtain ⟨h1, h2, h3⟩ := h
      subst h1; subst h2
      exact ⟨h3.symm, Or.inl hseed⟩
    · rename_i st0 hseed
      split at h
      · simp at h
      · split at h
        · simp at h
        · rename_i e1 st1 hloop
          simp only [Outcome.aborted.injEq] at h
          obtain ⟨h1, h2, h3⟩ := h
          subst h1; subst h2
          exact ⟨h3.symm, Or.inr ⟨st0, hseed, hloop⟩⟩
        · simp at h

/-- C6 (atomicity on fatal contract violation).  When the pass aborts, during seeding or during
the traversal, the module at the abort is the input module: no store has been deleted.  Deletion
happens only in a run that does not abort, after the worklist has drained, on the decision map of
the drained state. -/
theorem abort_deletes_nothing (cfg : Config) (ssa : MemSSA) (M : Module) :
    (∀ (e : Fatal) (st : PassState) (M' : Module),
      runOnModule cfg ssa M = .aborted e st M' →
        M' = M ∧ M'.instIds = M.instIds ∧
        (seedModule cfg ssa M = .error (e, st) ∨
          ∃ st0, seedModule cfg ssa M = .ok st0 ∧
            mainLoop cfg ssa (ssa.callsManager M cfg.OnlySingleton) M (loopFuel M st0) st0
              = some (.error (e, st)))) ∧
    (∀ r, runOnModule cfg ssa M = .finished r →
      r.st.queue = [] ∧ r.eliminated = (eliminate r.st.m_store_map (M, 0)).1) := by
  refine ⟨?_, ?_⟩
  · intro e st M' h
    obtain ⟨h1, h2⟩ := runOnModule_aborted cfg ssa M e st M' h
    exact ⟨h1, by rw [h1], h2⟩
  · intro r h
    obtain ⟨h1, _, _, h4, _⟩ := finished_facts cfg ssa M r h
    exact ⟨h1, h4⟩

/-- Witness of C6: the pass aborts on `exBadIndexModule` in the traversal (an `ArgRefMod` user
without parameter index) and on `exBadSeedModule` in the seeding; both modules are unchanged at
the abort. -/
theorem abort_deletes_nothing_witness :
    (runOnModule exCfg exPlainSsa exBadSeedModule
        = .aborted .expectStoreInst PassState.init exBadSeedModule) ∧
    (exBadIndexModule = exBadIndexModule ∧
      exBadIndexModule.instIds = exBadIndexModule.instIds ∧
      (seedModule exCfg exPlainSsa exBadIndexModule
          = .error (.cannotFindIndex,
              { queue := [], visited := [(10, 11)], m_store_map := [(11, false)],
                skipped_chains := 0, warnings := 0 }) ∨
        ∃ st0, seedModule exCfg exPlainSsa exBadIndexModule = .ok st0 ∧
          mainLoop exCfg exPlainSsa
              (exPlainSsa.callsManager exBadIndexModule exCfg.OnlySingleton) exBadIndexModule
              (loopFuel exBadIndexModule st0) st0
            = some (.error (.cannotFindIndex,
                { queue := [], visited := [(10, 11)], m_store_map := [(11, false)],
                  skipped_chains := 0, warnings := 0 })))) :=
  ⟨by rfl,
    (abort_deletes_nothing exCfg exPlainSsa exBadIndexModule).1 .cannotFindIndex
      { queue := [], visited := [(10, 11)], m_store_map := [(11, false)], skipped_chains := 0,
        warnings := 0 } exBadIndexModule (by rfl)⟩

theorem seedOf_isSome_iff (mk : Instruction × Option Instruction) :
    seedOf mk ≠ none ↔ ∃ SI, mk.2 = some SI ∧ SI.opcode = .store := by
  obtain ⟨x, nxt⟩ := mk
  cases nxt with
  | none => simp [seedOf]
  | some SI =>
    by_cases hs : SI.opcode = .store <;> simp [seedOf, hs]

theorem seedOf_eq_of_store (mk : Instruction × Option Instruction) (SI : Instruction)
    (h1 : mk.2 = some SI) (h2 : SI.opcode = .store) :
    seedOf mk = some { shadow_mem_inst := mk.1.id, store_inst := SI.id, length := 0 } := by
  obtain ⟨x, nxt⟩ := mk
  simp only at h1
  subst h1
  simp [seedOf, h2]

/-- C7 (seeding).  The markers of the module are the instructions classified as shadow Store on a
qualifying region, each taken with the instruction that immediately follows it in its block.
When seeding succeeds, every marker is followed by a concrete store, the queue holds exactly one
item `(marker, store, 0)` per marker in program order and nothing else, every seeded store is
tentatively-dead and no other store has a decision.  Seeding aborts exactly when some marker is
not followed by a concrete store, with the fatal error of the source, and then the pass aborts
with the module untouched. -/
theorem seeding_contract (cfg : Config) (ssa : MemSSA) (M : Module) :
    (∀ st0, seedModule cfg ssa M = .ok st0 →
      (∀ mk ∈ markers cfg ssa M, ∃ SI, mk.2 = some SI ∧ SI.opcode = .store ∧
        seedOf mk = some { shadow_mem_inst := mk.1.id, store_inst := SI.id, length := 0 }) ∧
      st0.queue.reverse = (markers cfg ssa M).filterMap seedOf ∧
      st0.queue.length = (markers cfg ssa M).length ∧
      (∀ w ∈ st0.queue, w.length = 0 ∧ st0.decision w.store_inst = some false) ∧
      (∀ k, st0.decision k ≠ none → ∃ w ∈ st0.queue, w.store_inst = k) ∧
      st0.visited = [] ∧ st0.skipped_chains = 0 ∧
      (M.WF → st0.queue.Nodup)) ∧
    ((∀ mk ∈ markers cfg ssa M, ∃ SI, mk.2 = some SI ∧ SI.opcode = .store) →
      ∃ st0, seedModule cfg ssa M = .ok st0) ∧
    (∀ e st, seedModule cfg ssa M = .error (e, st) →
      e = .expectStoreInst ∧
      (∃ mk ∈ markers cfg ssa M, ¬ ∃ SI, mk.2 = some SI ∧ SI.opcode = .store) ∧
      runOnModule cfg ssa M = .aborted .expectStoreInst st M) ∧
    ((∃ mk ∈ markers cfg ssa M, ¬ ∃ SI, mk.2 = some SI ∧ SI.opcode = .store) →
      ∃ st, seedModule cfg ssa M = .error (.expectStoreInst, st)) := by
  refine ⟨?_, ?_, ?_, ?_⟩
  · intro st0 h
    obtain ⟨h1, h2, h3, _, h5, h6, _⟩ := seedModule_ok cfg ssa M st0 h
    have hgood : ∀ mk ∈ markers cfg ssa M, seedOf mk ≠ none := by
      rw [seedModule_eq_seedAll] at h
      exact (seedAll_ok _ _ _ h).2.2.2.2.1
    have hq : st0.queue.reverse = (markers cfg ssa M).filterMap seedOf := by
      rw [h1, List.reverse_reverse]; rfl
    refine ⟨?_, hq, ?_, ?_, ?_, h2, h3, ?_⟩
    · intro mk hmk
      obtain ⟨SI, hs1, hs2⟩ := (seedOf_isSome_iff mk).1 (hgood mk hmk)
      exact ⟨SI, hs1, hs2, seedOf_eq_of_store mk SI hs1 hs2⟩
    · have : st0.queue.length = st0.queue.reverse.length := by simp
      rw [this, hq]
      generalize markers cfg ssa M = ms at hgood
      induction ms with
      | nil => rfl
      | cons a rest ih =>
        have ha := hgood a (List.mem_cons_self _ _)
        cases hsa : seedOf a with
        | none => exact absurd hsa ha
        | some e =>
          simp only [List.filterMap_cons, hsa, List.length_cons]
          rw [ih (fun mk hmk => hgood mk (List.mem_cons_of_mem _ hmk))]
    · intro w hw
      have hw' : w ∈ seedList cfg ssa M := by
        rw [h1] at hw
        exact List.mem_reverse.1 hw
      refine ⟨?_, h5 _ (List.mem_map_of_mem (fun e => e.store_inst) hw')⟩
      unfold seedList at hw'
      obtain ⟨mk, _, hmk⟩ := List.mem_filterMap.1 hw'
      obtain ⟨x, nxt⟩ := mk
      cases nxt with
      | none => simp [seedOf] at hmk
      | some SI =>
        by_cases hs : SI.opcode = .store
        · simp only [seedOf, hs, if_true, Option.some.injEq] at hmk
          rw [← hmk]
        · simp [seedOf, hs] at hmk
    · intro k hk
      by_contra hc
      apply hk
      apply h6
      intro hmem
      obtain ⟨w, hw, hwk⟩ := List.mem_map.1 hmem
      exact hc ⟨w, by rw [h1]; exact List.mem_reverse.2 hw, hwk⟩
    · intro hWF
      have := seedList_stores_nodup cfg ssa M hWF
      rw [h1]
      exact List.nodup_reverse.2 (List.Nodup.of_map _ this)
  · intro hall
    rw [seedModule_eq_seedAll]
    exact seedAll_isOk _ (fun mk hmk => (seedOf_isSome_iff mk).2 (hall mk hmk)) _
  · intro e st h
    have h' := h
    rw [seedModule_eq_seedAll] at h'
    obtain ⟨he, mk, hmk, hnone⟩ := seedAll_error _ _ _ _ h'
    refine ⟨he, ⟨mk, hmk, ?_⟩, ?_⟩
    · intro hex
      exact (seedOf_isSome_iff mk).2 hex hnone
    · have hne : M.functions ≠ [] := by
        intro hnil
        simp [markers, hnil] at hmk
      unfold runOnModule
      split
      · rename_i hnil
        exact absurd hnil hne
      · rw [h, he]
  · rintro ⟨mk, hmk, hbad⟩
    cases hs : seedModule cfg ssa M with
    | error e =>
      obtain ⟨e1, st⟩ := e
      have h' := hs
      rw [seedModule_eq_seedAll] at h'
      obtain ⟨he, _⟩ := seedAll_error _ _ _ _ h'
      exact ⟨st, by rw [he]⟩
    | ok st0 =>
      rw [seedModule_eq_seedAll] at hs
      have hgood := (seedAll_ok _ _ _ hs).2.2.2.2.1 mk hmk
      exact absurd ((seedOf_isSome_iff mk).1 hgood) hbad

/-- Witness of C7: `exArgModModule` has the single marker 10, followed by store 11; seeding
yields the single item `(10, 11, 0)` and the decision tentatively-dead for 11. -/
theorem seeding_contract_witness :
    seedModule exCfg exPlainSsa exArgModModule
        = .ok { queue := [{ shadow_mem_inst := 10, store_inst := 11, length := 0 }],
                visited := [], m_store_map := [(11, false)], skipped_chains := 0,
                warnings := 0 } ∧
      [({ shadow_mem_inst := 10, store_inst := 11, length := 0 } : QueueElem)].reverse
        = (markers exCfg exPlainSsa exArgModModule).filterMap seedOf :=
  ⟨by rfl,
    ((seeding_contract exCfg exPlainSsa exArgModModule).1
      { queue := [{ shadow_mem_inst := 10, store_inst := 11, length := 0 }],
        visited := [], m_store_map := [(11, false)], skipped_chains := 0, warnings := 0 }
      (by rfl)).2.1⟩

/-- C8 (Store Eliminator exactness).  After a run that does not abort, the module left by the
Store Eliminator is the input module without the instructions whose decision is tentatively-dead;
these are seeded stores; every instruction whose decision is keep or that has no decision (it was
never seeded) is still there; and the reported number of deleted stores is the number of seeded
stores whose decision is tentatively-dead. -/
theorem eliminator_exact (cfg : Config) (ssa : MemSSA) (M : Module) (r : Report)
    (hrun : runOnModule cfg ssa M = .finished r) :
    r.eliminated = M.keepOnly (fun i => decide (r.st.decision i ≠ some false)) ∧
    (∀ i, r.st.decision i = some false →
      i ∈ (seedList cfg ssa M).map (fun e => e.store_inst)) ∧
    (∀ i, i ∈ r.eliminated.instIds ↔ i ∈ M.instIds ∧ r.st.decision i ≠ some false) ∧
    r.num_deleted
      = (((seedList cfg ssa M).map (fun e => e.store_inst)).toFinset.filter
          (fun i => r.st.decision i = some false)).card := by
  obtain ⟨_, hnd, hkeys, he, hn⟩ := finished_facts cfg ssa M r hrun
  have hpred : (fun i => decide ((i, false) ∉ r.st.m_store_map))
      = (fun i => decide (r.st.decision i ≠ some false)) := by
    funext i
    rw [decide_eq_decide]
    exact not_congr (mem_false_iff_decision r.st hnd i)
  have helim : r.eliminated = M.keepOnly (fun i => decide (r.st.decision i ≠ some false)) := by
    rw [he, eliminate_keepOnly, hpred]
  have hseeded : ∀ i, r.st.decision i = some false →
      i ∈ (seedList cfg ssa M).map (fun e => e.store_inst) := by
    intro i hi
    apply (hkeys i).1
    rw [hi]
    simp
  refine ⟨helim, hseeded, ?_, ?_⟩
  · intro i
    rw [helim, instIds_keepOnly, List.mem_filter]
    simp
  · rw [hn, (eliminate_spec _ M 0).2, Nat.zero_add]
    have hlen : (r.st.m_store_map.filter (fun kv => !kv.2)).length
        = ((r.st.m_store_map.filter (fun kv => !kv.2)).map Prod.fst).length := by simp
    have hnd' : ((r.st.m_store_map.filter (fun kv => !kv.2)).map Prod.fst).Nodup :=
      List.Nodup.sublist ((List.filter_sublist _).map _) hnd
    rw [hlen, ← List.toFinset_card_of_nodup hnd']
    congr 1
    ext i
    rw [List.mem_toFinset, Finset.mem_filter, List.mem_toFinset]
    constructor
    · intro h
      obtain ⟨kv, hkv, hfst⟩ := List.mem_map.1 h
      obtain ⟨hmem, hv⟩ := List.mem_filter.1 hkv
      obtain ⟨k, v⟩ := kv
      simp only at hfst
      subst hfst
      have hv' : v = false := by simpa using hv
      subst hv'
      have hdec := (mem_false_iff_decision r.st hnd k).1 hmem
      exact ⟨hseeded k hdec, hdec⟩
    · rintro ⟨_, hdec⟩
      apply List.mem_map.2
      refine ⟨(i, false), List.mem_filter.2 ⟨?_, rfl⟩, rfl⟩
      exact (mem_false_iff_decision r.st hnd i).2 hdec

/-- Witness of C8: on `exArgModModule` the only seeded store, 11, is tentatively-dead at the end;
it is the one instruction removed and the reported count is 1. -/
theorem eliminator_exact_witness :
    (runOnModule exCfg exPlainSsa exArgModModule).report.eliminated.instIds = [10, 13, 12] ∧
    (runOnModule exCfg exPlainSsa exArgModModule).report.num_deleted = 1 ∧
    (runOnModule exCfg exPlainSsa exArgModModule).report.eliminated
      = exArgModModule.keepOnly (fun i => decide
          ((runOnModule exCfg exPlainSsa exArgModModule).report.st.decision i ≠ some false)) :=
  ⟨by decide, by decide,
    (eliminator_exact exCfg exPlainSsa exArgModModule
      (runOnModule exCfg exPlainSsa exArgModModule).report (by rfl)).1⟩

/-- C10 (precision on overwritten or unread stores).  With a hop bound of at least 1, in a module
with unique instruction addresses and in a run that does not abort: a seeded store whose marker
has no Load-kind user and whose uses are all shadow calls of kind Store, ArgMod or FunIn (or that
has no uses at all) is still tentatively-dead when the traversal ends, and the Store Eliminator
deletes it. -/
theorem precision_on_overwritten_stores (cfg : Config) (ssa : MemSSA) (M : Module)
    (r : Report) (hWF : M.WF) (hrun : runOnModule cfg ssa M = .finished r) (m s : InstId)
    (hseed : ({ shadow_mem_inst := m, store_inst := s, length := 0 } : QueueElem)
      ∈ seedList cfg ssa M)
    (hbound : 1 ≤ cfg.MaxLenDefUse)
    (hload : ssa.hasMemSSALoadUser m cfg.OnlySingleton = false)
    (husers : ∀ U ∈ M.usesOf m, ∃ u f, U = .inst u ∧ M.opcodeOf u = some (.call (some f)) ∧
      (ssa.classify u cfg.OnlySingleton = some .Store ∨
        ssa.classify u cfg.OnlySingleton = some .ArgMod ∨
        ssa.classify u cfg.OnlySingleton = some .FunIn)) :
    r.st.decision s = some false ∧ s ∈ M.instIds ∧ s ∉ r.eliminated.instIds := by
  obtain ⟨st0, hseed0, hloop, _, _⟩ := runOnModule_finished cfg ssa M r hrun
  have hU0 := untouched_seed cfg ssa M hWF st0 hseed0 m s hseed
  obtain ⟨hU, _⟩ := mainLoop_ok_induction cfg ssa (ssa.callsManager M cfg.OnlySingleton) M
    (Untouched m s)
    (fun st st' => step_untouched cfg ssa _ M m s (by omega) hload husers st st')
    _ st0 r.st hU0 hloop
  obtain ⟨_, hnd, _, he, _⟩ := finished_facts cfg ssa M r hrun
  refine ⟨hU.1, seed_store_mem_instIds cfg ssa M _ hseed, ?_⟩
  rw [he, (eliminate_spec _ M 0).1, List.mem_filter]
  rintro ⟨_, hmem⟩
  simp only [decide_eq_true_eq] at hmem
  exact hmem ((mem_false_iff_decision r.st hnd s).2 hU.1)

/-- Witness of C10 (Scenario C): in `exArgModModule` the marker 10 of store 11 has the single use
13, of kind ArgMod; the store is tentatively-dead at the end and deleted. -/
theorem precision_on_overwritten_stores_witness :
    (runOnModule exCfg exPlainSsa exArgModModule).report.st.decision 11 = some false ∧
      11 ∈ exArgModModule.instIds ∧
      11 ∉ (runOnModule exCfg exPlainSsa exArgModModule).report.eliminated.instIds :=
  precision_on_overwritten_stores exCfg exPlainSsa exArgModModule
    (runOnModule exCfg exPlainSsa exArgModModule).report (by decide) (by rfl) 10 11 (by decide)
    (by decide) (by decide)
    (fun U hU => ⟨13, 101, by
      have hu : exArgModModule.usesOf 10 = [.inst 13] := by decide
      rw [hu] at hU
      exact List.mem_singleton.1 hU, by decide, Or.inr (Or.inl (by decide))⟩)

end IPDSE


namespace IPDSE

/-! ## Seeding and the final map under reordering -/

theorem seedAll_congr (ms : List (Instruction × Option Instruction)) :
    ∀ (ms' : List (Instruction × Option Instruction)), ms.map seedOf = ms'.map seedOf →
      ∀ st : PassState, seedAll ms st = seedAll ms' st := by
  induction ms with
  | nil =>
    intro ms' h st
    cases ms' with
    | nil => rfl
    | cons a r => simp at h
  | cons m rest ih =>
    intro ms' h st
    cases ms' with
    | nil => simp at h
    | cons m' rest' =>
      simp only [List.map_cons, List.cons.injEq] at h
      simp only [seedAll, h.1]
      cases seedOf m' with
      | none => rfl
      | some e => exact ih rest' h.2 _

theorem blockMarkers_reordered (cfg : Config) (ssa : MemSSA) (b b' : List Instruction)
    (h : List.Forall₂ InstReordered b b') :
    (blockMarkers cfg ssa b').map seedOf = (blockMarkers cfg ssa b).map seedOf := by
  induction h with
  | nil => rfl
  | cons hx hxs ih =>
    rename_i x x' xs xs'
    have hid : x'.id = x.id := hx.1.symm
    have hhead : seedOf (x', xs'.head?) = seedOf (x, xs.head?) := by
      cases hxs with
      | nil => rfl
      | cons hy _ =>
        rename_i y y' ys ys'
        simp only [List.head?_cons, seedOf, hid, ← hy.1, ← hy.2.1]
    simp only [blockMarkers, hid]
    split
    · simp only [List.map_cons, hhead, ih]
    · exact ih

theorem blocksMarkers_reordered (cfg : Config) (ssa : MemSSA) (bs bs' : List (List Instruction))
    (h : List.Forall₂ (List.Forall₂ InstReordered) bs bs') :
    (bs'.flatMap (blockMarkers cfg ssa)).map seedOf
      = (bs.flatMap (blockMarkers cfg ssa)).map seedOf := by
  induction h with
  | nil => rfl
  | cons hb1 _ ihb =>
    simp only [List.flatMap_cons, List.map_append, ihb]
    rw [blockMarkers_reordered cfg ssa _ _ hb1]

theorem functionsMarkers_reordered (cfg : Config) (ssa : MemSSA) (Fs Fs' : List Function)
    (h : List.Forall₂ FunReordered Fs Fs') :
    (Fs'.flatMap (fun F => F.blocks.flatMap (blockMarkers cfg ssa))).map seedOf
      = (Fs.flatMap (fun F => F.blocks.flatMap (blockMarkers cfg ssa))).map seedOf := by
  induction h with
  | nil => rfl
  | cons hF _ ih =>
    simp only [List.flatMap_cons, List.map_append, ih]
    rw [blocksMarkers_reordered cfg ssa _ _ hF.2.2.2.2]

theorem markers_reordered (cfg : Config) (ssa : MemSSA) (M M' : Module)
    (h : Reordered M M') :
    (markers cfg ssa M').map seedOf = (markers cfg ssa M).map seedOf :=
  functionsMarkers_reordered cfg ssa M.functions M'.functions h

/-- Seeding does not look at use lists: a reordered module has the same seeds. -/
theorem seedModule_reordered (cfg : Config) (ssa : MemSSA) (M M' : Module)
    (h : Reordered M M') : seedModule cfg ssa M' = seedModule cfg ssa M := by
  rw [seedModule_eq_seedAll, seedModule_eq_seedAll]
  exact seedAll_congr _ _ (markers_reordered cfg ssa M M' h) _

theorem storeMap_ext (m : List (InstId × Bool)) :
    ∀ (m' : List (InstId × Bool)), m.map Prod.fst = m'.map Prod.fst →
      (m.map Prod.fst).Nodup → (∀ k, storeMapGet k m = storeMapGet k m') → m = m' := by
  induction m with
  | nil =>
    intro m' hk _ _
    cases m' with
    | nil => rfl
    | cons a r => simp at hk
  | cons kv rest ih =>
    intro m' hk hnd hget
    cases m' with
    | nil => simp at hk
    | cons kv' rest' =>
      obtain ⟨k, v⟩ := kv
      obtain ⟨k', v'⟩ := kv'
      simp only [List.map_cons, List.cons.injEq] at hk
      obtain ⟨hkk, hrest⟩ := hk
      subst hkk
      simp only [List.map_cons, List.nodup_cons] at hnd
      have hv : v = v' := by
        have := hget k
        simpa [storeMapGet] using this
      subst hv
      congr 1
      apply ih rest' hrest hnd.2
      intro j
      by_cases hj : k = j
      · subst hj
        rw [(storeMapGet_eq_none k rest).2 hnd.1,
          (storeMapGet_eq_none k rest').2 (by rw [← hrest]; exact hnd.1)]
      · have := hget j
        simpa [storeMapGet, hj] using this

theorem mainLoop_mapOk (cfg : Config) (ssa : MemSSA) (MMan : MemorySSACallsManager)
    (M : Module) (keys : List InstId) (fuel : Nat) (st fin : PassState) (h0 : MapOk keys st)
    (h : mainLoop cfg ssa MMan M fuel st = some (.ok fin)) : MapOk keys fin :=
  (mainLoop_ok_induction cfg ssa MMan M (MapOk keys)
    (fun x x' => step_mapOk cfg ssa MMan M keys x x') fuel st fin h0 h).1

/-- C9 (order independence).  Take a module that seeds without abort, any module that differs
from it only in the enumeration order of the use lists of its instructions (the def-use
successors of a node) and of its functions (the call sites of a function), and any enumeration
order of the seeds in the initial queue.  The reordered module seeds to the same state, and when
both traversals drain without abort they end with the same decision map: every store has the same
keep or tentatively-dead decision in both runs, so the same stores are deleted.  Both runs query
the effect tables of the program; the skipped-chain counter is not part of the statement. -/
theorem order_independence (cfg : Config) (ssa : MemSSA) (M M' : Module)
    (hM : Reordered M M') (st0 : PassState) (hseed : seedModule cfg ssa M = .ok st0)
    (q' : List QueueElem) (hq : q'.Perm st0.queue) (fuel fuel' : Nat) (fin fin' : PassState)
    (hA : mainLoop cfg ssa (ssa.callsManager M cfg.OnlySingleton) M fuel st0 = some (.ok fin))
    (hB : mainLoop cfg ssa (ssa.callsManager M cfg.OnlySingleton) M' fuel'
      { st0 with queue := q' } = some (.ok fin')) :
    seedModule cfg ssa M' = .ok st0 ∧
    (∀ s, fin'.decision s = fin.decision s) ∧
    fin'.m_store_map = fin.m_store_map ∧
    eliminate fin'.m_store_map (M, 0) = eliminate fin.m_store_map (M, 0) := by
  have hv := useOrderVariant_of_reordered M M' hM
  have hvis : st0.visited = [] := (seedModule_ok cfg ssa M st0 hseed).2.1
  have hdec : ∀ s, fin'.decision s = fin.decision s := by
    intro s
    have hcA := mainLoop_decision_cases cfg ssa _ M s (st0.decision s) fuel st0 fin rfl hA
    have hcB := mainLoop_decision_cases cfg ssa _ M' s (st0.decision s) fuel'
      { st0 with queue := q' } fin' rfl hB
    by_cases hkA : fin.decision s = some true
    · by_cases hkB : fin'.decision s = some true
      · rw [hkA, hkB]
      · exact absurd hkA (dead_transfer cfg ssa _ M' M hv.symm s { st0 with queue := q' } st0
          fin' fin hvis hvis hq.symm rfl fuel' fuel hB hA hkB)
    · have hkB : fin'.decision s ≠ some true :=
        dead_transfer cfg ssa _ M M' hv s st0 { st0 with queue := q' } fin fin' hvis hvis
          hq rfl fuel fuel' hA hB hkA
      rcases hcA with hcA | hcA
      · rcases hcB with hcB | hcB
        · rw [hcA, hcB]
        · exact absurd hcB hkB
      · exact absurd hcA hkA
  have hm0 := seedModule_mapOk cfg ssa M st0 hseed
  have hm0' : MapOk (st0.m_store_map.map Prod.fst) { st0 with queue := q' } :=
    ⟨hm0.1, hm0.2.1, fun w hw => hm0.2.2 w (hq.mem_iff.1 hw)⟩
  have hmA := mainLoop_mapOk cfg ssa _ M _ fuel st0 fin hm0 hA
  have hmB := mainLoop_mapOk cfg ssa _ M' _ fuel' _ fin' hm0' hB
  have hmap : fin'.m_store_map = fin.m_store_map :=
    storeMap_ext _ _ (by rw [hmA.1, hmB.1]) (by rw [hmB.1]; exact hmB.2.1) hdec
  exact ⟨by rw [seedModule_reordered cfg ssa M M' hM]; exact hseed, hdec, hmap, by rw [hmap]⟩

/-- Witness of C9: `exOrderModule` and `exOrderModuleSwapped` differ in the order of the uses of
marker 10, and the two seeds are queued in opposite orders; both traversals end with store 11
tentatively-dead and store 31 keep. -/
theorem order_independence_witness :
    seedModule exCfg exOrderSsa exOrderModuleSwapped
        = .ok { queue := [{ shadow_mem_inst := 30, store_inst := 31, length := 0 },
                          { shadow_mem_inst := 10, store_inst := 11, length := 0 }],
                visited := [], m_store_map := [(11, false), (31, false)], skipped_chains := 0,
                warnings := 0 } ∧
    (∀ s, ({ queue := [], visited := [(21, 31), (30, 31), (20, 11), (10, 11)],
             m_store_map := [(11, false), (31, true)], skipped_chains := 0,
             warnings := 0 } : PassState).decision s
        = ({ queue := [], visited := [(20, 11), (10, 11), (21, 31), (30, 31)],
             m_store_map := [(11, false), (31, true)], skipped_chains := 0,
             warnings := 0 } : PassState).decision s) ∧
    [((11 : InstId), false), (31, true)] = [(11, false), (31, true)] ∧
    eliminate [(11, false), (31, true)] (exOrderModule, 0)
      = eliminate [(11, false), (31, true)] (exOrderModule, 0) :=
  order_independence exCfg exOrderSsa exOrderModule exOrderModuleSwapped (by decide)
    { queue := [{ shadow_mem_inst := 30, store_inst := 31, length := 0 },
                { shadow_mem_inst := 10, store_inst := 11, length := 0 }],
      visited := [], m_store_map := [(11, false), (31, false)], skipped_chains := 0,
      warnings := 0 }
    (by rfl)
    [{ shadow_mem_inst := 10, store_inst := 11, length := 0 },
     { shadow_mem_inst := 30, store_inst := 31, length := 0 }]
    (List.Perm.swap _ _ _) 10 10
    { queue := [], visited := [(20, 11), (10, 11), (21, 31), (30, 31)],
      m_store_map := [(11, false), (31, true)], skipped_chains := 0, warnings := 0 }
    { queue := [], visited := [(21, 31), (30, 31), (20, 11), (10, 11)],
      m_store_map := [(11, false), (31, true)], skipped_chains := 0, warnings := 0 }
    (by rfl) (by rfl)

end IPDSE


namespace IPDSE

/-! ## The loop over the uses, use by use -/

theorem step_first_visit (cfg : Config) (ssa : MemSSA) (MMan : MemorySSACallsManager)
    (M : Module) (st : PassState) (w : QueueElem) (q : List QueueElem) (hq : st.queue = w :: q)
    (hv : w.key ∉ st.visited) (hl : w.length ≠ cfg.MaxLenDefUse)
    (hload : ssa.hasMemSSALoadUser w.shadow_mem_inst cfg.OnlySingleton = false) :
    step cfg ssa MMan M st
      = usersLoop cfg ssa MMan M w (M.usesOf w.shadow_mem_inst) (st.entered w q) := by
  simp [step, hq, processElem, hv, hl, hload, PassState.entered]

theorem usersLoop_append (cfg : Config) (ssa : MemSSA) (MMan : MemorySSACallsManager)
    (M : Module) (w : QueueElem) (pre post : List Value) :
    ∀ b, usersLoop cfg ssa MMan M w (pre ++ post) b =
      match usersLoop cfg ssa MMan M w pre b with
      | .error e => .error e
      | .ok b' => usersLoop cfg ssa MMan M w post b' := by
  induction pre with
  | nil => intro b; simp [usersLoop]
  | cons U rest ih =>
    intro b
    simp only [List.cons_append, usersLoop]
    cases processUser cfg ssa MMan M w U b with
    | error e => rfl
    | ok b1 => exact ih b1

/-- The iteration on a first-visited element, split at one use: when the uses in front of `U` are
processed without abort and leave the state `b`, the iteration is the processing of `U` in `b`
followed by the loop over the uses behind `U`. -/
theorem step_at_use (cfg : Config) (ssa : MemSSA) (MMan : MemorySSACallsManager)
    (M : Module) (st : PassState) (w : QueueElem) (q : List QueueElem) (hq : st.queue = w :: q)
    (hv : w.key ∉ st.visited) (hl : w.length ≠ cfg.MaxLenDefUse)
    (hload : ssa.hasMemSSALoadUser w.shadow_mem_inst cfg.OnlySingleton = false)
    (pre post : List Value) (U : Value) (b : PassState)
    (huses : M.usesOf w.shadow_mem_inst = pre ++ U :: post)
    (hpre : usersLoop cfg ssa MMan M w pre (st.entered w q) = .ok b) :
    step cfg ssa MMan M st =
      match processUser cfg ssa MMan M w U b with
      | .error e => .error e
      | .ok b' => usersLoop cfg ssa MMan M w post b' := by
  rw [step_first_visit cfg ssa MMan M st w q hq hv hl hload, huses, usersLoop_append, hpre]
  simp only [usersLoop]

theorem userAct_argRef (cfg : Config) (ssa : MemSSA) (MMan : MemorySSACallsManager)
    (M : Module) (u : InstId) (f : FunId) (hop : M.opcodeOf u = some (.call (some f)))
    (hcl : ssa.classify u cfg.OnlySingleton = some .ArgRef) :
    userAct cfg ssa MMan M (.inst u) = .keep := by
  simp [userAct, hop, isMemSSAStore, isMemSSAArgRef, hcl]

theorem userAct_unrecognised (cfg : Config) (ssa : MemSSA) (MMan : MemorySSACallsManager)
    (M : Module) (u : InstId) (f : FunId) (hop : M.opcodeOf u = some (.call (some f)))
    (h1 : ssa.classify u cfg.OnlySingleton ≠ some .Store)
    (h2 : ssa.classify u cfg.OnlySingleton ≠ some .ArgRef)
    (h3 : ssa.classify u cfg.OnlySingleton ≠ some .ArgMod)
    (h4 : ssa.classify u cfg.OnlySingleton ≠ some .ArgRefMod)
    (h5 : ssa.classify u cfg.OnlySingleton ≠ some .FunIn)
    (h6 : ssa.classify u cfg.OnlySingleton ≠ some .FunOut) :
    userAct cfg ssa MMan M (.inst u) = .warn := by
  simp [userAct, hop, isMemSSAStore, isMemSSAArgRef, isMemSSAArgMod, isMemSSAArgRefMod,
    isMemSSAFunIn, isMemSSAFunOut, h1, h2, h3, h4, h5, h6]

theorem userAct_argRefMod_noCallee (cfg : Config) (ssa : MemSSA) (MMan : MemorySSACallsManager)
    (M : Module) (u : InstId) (f : FunId)
    (hop : M.opcodeOf u = some (.call (some f)))
    (hcl : ssa.classify u cfg.OnlySingleton = some .ArgRefMod)
    (hidx : 0 ≤ ssa.getMemSSAParamIdx u) (hfc : M.findCalledFunction u = none) :
    userAct cfg ssa MMan M (.inst u) = .abort .cannotFindCallee := by
  have : ¬ ssa.getMemSSAParamIdx u < 0 := by omega
  simp [userAct, hop, isMemSSAStore, isMemSSAArgRef, isMemSSAArgMod, isMemSSAArgRefMod,
    hcl, hfc, this]

theorem userAct_argRefMod_noTable (cfg : Config) (ssa : MemSSA) (MMan : MemorySSACallsManager)
    (M : Module) (u : InstId) (f callee : FunId)
    (hop : M.opcodeOf u = some (.call (some f)))
    (hcl : ssa.classify u cfg.OnlySingleton = some .ArgRefMod)
    (hidx : 0 ≤ ssa.getMemSSAParamIdx u) (hfc : M.findCalledFunction u = some callee)
    (hgf : MMan.getFunction callee = none) :
    userAct cfg ssa MMan M (.inst u) = .abort .cannotFindMemorySSAFunction := by
  have : ¬ ssa.getMemSSAParamIdx u < 0 := by omega
  simp [userAct, hop, isMemSSAStore, isMemSSAArgRef, isMemSSAArgMod, isMemSSAArgRefMod,
    hcl, hfc, hgf, this]

theorem userAct_argRefMod_noIndex (cfg : Config) (ssa : MemSSA) (MMan : MemorySSACallsManager)
    (M : Module) (u : InstId) (f : FunId)
    (hop : M.opcodeOf u = some (.call (some f)))
    (hcl : ssa.classify u cfg.OnlySingleton = some .ArgRefMod)
    (hidx : ssa.getMemSSAParamIdx u < 0) :
    userAct cfg ssa MMan M (.inst u) = .abort .cannotFindIndex := by
  simp [userAct, hop, isMemSSAStore, isMemSSAArgRef, isMemSSAArgMod, isMemSSAArgRefMod,
    hcl, hidx]

/-- A use that marks keep leaves the keep mark at the end of the loop over the uses. -/
theorem usersLoop_keep_of_mem (cfg : Config) (ssa : MemSSA) (MMan : MemorySSACallsManager)
    (M : Module) (w : QueueElem) (us : List Value) (b b' : PassState)
    (h : usersLoop cfg ssa MMan M w us b = .ok b') (U : Value) (hU : U ∈ us)
    (hact : userAct cfg ssa MMan M U = .keep) : b'.decision w.store_inst = some true := by
  by_contra hk
  have := usersLoop_quiet cfg ssa MMan M w us b b' h hk U hU
  simp [userPushes, hact] at this

theorem nextLength_below (cfg : Config) (w : QueueElem) (hl : w.length < cfg.MaxLenDefUse)
    (hmax : cfg.MaxLenDefUse < UINT_RANGE) : nextLength w = w.length + 1 := by
  unfold nextLength
  exact Nat.mod_eq_of_lt (by omega)

theorem step_resState_decision_ne (cfg : Config) (ssa : MemSSA) (MMan : MemorySSACallsManager)
    (M : Module) (st : PassState) (w : QueueElem) (q : List QueueElem) (hq : st.queue = w :: q)
    (k : InstId) (hk : k ≠ w.store_inst) :
    (resState (step cfg ssa MMan M st)).decision k = st.decision k := by
  obtain ⟨_, _, hmap⟩ := step_frame cfg ssa MMan M st w q hq
  rcases hmap with hmap | hmap
  · simp [PassState.decision, hmap]
  · simp only [PassState.decision, hmap]
    exact storeMapGet_set_ne _ _ _ _ hk

end IPDSE


namespace IPDSE

/-! ## Claims on the Shadow Stripper and on the single kinds of users -/

/-- Counterexample to C11 as worded: on a module without functions the pass returns at once; it
does not abort and the Shadow Stripper is not invoked. -/
theorem strip_every_module_counterexample :
    (runOnModule exCfg exPlainSsa { functions := [] }).fatal? = none ∧
    (runOnModule exCfg exPlainSsa { functions := [] }).report.stripped = false := by
  decide

/-- C11 (stripping), amended.  On a module that contains at least one function, every run that
does not abort invokes the Shadow Stripper on the module left by the Store Eliminator, whatever
the analysis found, also when no store was seeded (then the module is handed to the stripper
unchanged).  On a module without functions the pass returns at once: nothing is seeded or deleted
and the stripper is not invoked. -/
theorem strip_unless_empty_module (cfg : Config) (ssa : MemSSA) (M : Module) :
    (M.functions = [] →
      runOnModule cfg ssa M = .finished
        { st := PassState.init, eliminated := M, num_deleted := 0, stripped := false, M := M }) ∧
    (M.functions ≠ [] → ∀ r, runOnModule cfg ssa M = .finished r →
      r.stripped = true ∧ r.M = ssa.stripShadowMem r.eliminated ∧
      r.eliminated = (eliminate r.st.m_store_map (M, 0)).1 ∧
      (seedList cfg ssa M = [] → r.eliminated = M ∧ r.num_deleted = 0)) := by
  refine ⟨fun h => by simp [runOnModule, h], fun hne r hrun => ?_⟩
  obtain ⟨_, _, hkeys, he, hn⟩ := finished_facts cfg ssa M r hrun
  have hstrip : r.stripped = true ∧ r.M = ssa.stripShadowMem r.eliminated := by
    unfold runOnModule at hrun
    split at hrun
    · rename_i hM
      exact absurd hM hne
    · split at hrun
      · simp at hrun
      · split at hrun
        · simp only [Outcome.finished.injEq] at hrun
          subst hrun
          exact ⟨rfl, rfl⟩
        · split at hrun
          · simp at hrun
          · simp at hrun
          · simp only [Outcome.finished.injEq] at hrun
            subst hrun
            exact ⟨rfl, rfl⟩
  refine ⟨hstrip.1, hstrip.2, he, fun hnil => ?_⟩
  have hmap : r.st.m_store_map = [] := by
    apply storeMapGet_all_none
    intro k
    by_contra hk
    have := (hkeys k).1 hk
    simp [hnil] at this
  rw [he, hn, hmap]
  exact ⟨rfl, rfl⟩

/-- Witness of C11: `exArgModModule` has functions; its run ends with the stripper invoked on the
module left by the Store Eliminator. -/
theorem strip_unless_empty_module_witness :
    (runOnModule exCfg exPlainSsa exArgModModule).report.stripped = true ∧
    (runOnModule exCfg exPlainSsa exArgModModule).report.M
      = exPlainSsa.stripShadowMem (runOnModule exCfg exPlainSsa exArgModModule).report.eliminated :=
  have h := (strip_unless_empty_module exCfg exPlainSsa exArgModModule).2 (by decide)
    (runOnModule exCfg exPlainSsa exArgModModule).report (by rfl)
  ⟨h.1, h.2.1⟩

/-- Counterexample to C13 as worded: in `exCalleeModule` the marker 10 of store 11 has the
`ArgRefMod` successor 14, whose callee `k` is resolved and has a table with no in-formal at all;
the pass does not abort, it keeps the store. -/
theorem argRefMod_no_inFormal_counterexample :
    Value.inst 14 ∈ exCalleeModule.usesOf 10 ∧
    (exTableSsa exCalleeKinds exNoInFormalTables).classify 14 exCfg.OnlySingleton
      = some .ArgRefMod ∧
    exCalleeModule.findCalledFunction 14 = some 2 ∧
    (exNoInFormalTables.getFunction 2).map (fun fn => fn.numInFormals) = some 0 ∧
    (runOnModule exCfg (exTableSsa exCalleeKinds exNoInFormalTables) exCalleeModule).fatal?
      = none ∧
    (runOnModule exCfg (exTableSsa exCalleeKinds exNoInFormalTables)
      exCalleeModule).report.st.decision 11 = some true := by
  decide

/-- C13 (ArgRefMod descent), amended.  Take a first-visited item `(n, s, h)` below the hop bound
whose node has no Load user, and a successor `u` of `n` of kind ArgRefMod that is reached (the
successors in front of it are processed without abort and leave the state `b`).  The pass aborts
when the parameter index is negative, when no callee is found behind the shadow call, when the
callee has no effect table, and when the table has in-formals but the one at the parameter index
is null or not an instruction.  When the table of the callee has no in-formal at all the pass
does not abort: `s` is marked keep, nothing is enqueued for `u` and the loop goes on with the
next successor.  Otherwise exactly the item `(in-formal at the parameter index, s, h+1)` is
enqueued for `u`. -/
theorem argRefMod_descent (cfg : Config) (ssa : MemSSA) (MMan : MemorySSACallsManager)
    (M : Module) (st : PassState) (w : QueueElem) (q : List QueueElem) (pre post : List Value)
    (u : InstId) (f : FunId) (b : PassState)
    (hq : st.queue = w :: q) (hv : w.key ∉ st.visited) (hl : w.length < cfg.MaxLenDefUse)
    (hmax : cfg.MaxLenDefUse < UINT_RANGE)
    (hload : ssa.hasMemSSALoadUser w.shadow_mem_inst cfg.OnlySingleton = false)
    (huses : M.usesOf w.shadow_mem_inst = pre ++ .inst u :: post)
    (hop : M.opcodeOf u = some (.call (some f)))
    (hcl : ssa.classify u cfg.OnlySingleton = some .ArgRefMod)
    (hpre : usersLoop cfg ssa MMan M w pre (st.entered w q) = .ok b) :
    (ssa.getMemSSAParamIdx u < 0 →
      step cfg ssa MMan M st = .error (.cannotFindIndex, b)) ∧
    (0 ≤ ssa.getMemSSAParamIdx u → M.findCalledFunction u = none →
      step cfg ssa MMan M st = .error (.cannotFindCallee, b)) ∧
    (∀ callee, 0 ≤ ssa.getMemSSAParamIdx u → M.findCalledFunction u = some callee →
      MMan.getFunction callee = none →
      step cfg ssa MMan M st = .error (.cannotFindMemorySSAFunction, b)) ∧
    (∀ callee fn, 0 ≤ ssa.getMemSSAParamIdx u → M.findCalledFunction u = some callee →
      MMan.getFunction callee = some fn →
      (fn.numInFormals = 0 →
        step cfg ssa MMan M st
          = usersLoop cfg ssa MMan M w post (b.markStoreToKeep w.store_inst)) ∧
      (fn.numInFormals ≠ 0 → fn.getInFormal (ssa.getMemSSAParamIdx u) = none →
        step cfg ssa MMan M st = .error (.getInFormalNull, b)) ∧
      (fn.numInFormals ≠ 0 → fn.getInFormal (ssa.getMemSSAParamIdx u) = some .nonInst →
        step cfg ssa MMan M st = .error (.expectedEnqueueFromCallee, b)) ∧
      (∀ p, fn.numInFormals ≠ 0 → fn.getInFormal (ssa.getMemSSAParamIdx u) = some (.inst p) →
        step cfg ssa MMan M st
          = usersLoop cfg ssa MMan M w post
              (b.enqueue
                { shadow_mem_inst := p, store_inst := w.store_inst, length := w.length + 1 }))) := by
  have hstep := step_at_use cfg ssa MMan M st w q hq hv (by omega) hload pre post (.inst u) b
    huses hpre
  rw [processUser_eq] at hstep
  refine ⟨fun hidx => ?_, fun hidx hfc => ?_, fun callee hidx hfc hgf => ?_,
    fun callee fn hidx hfc hgf => ?_⟩
  · rw [hstep, userAct_argRefMod_noIndex cfg ssa MMan M u f hop hcl hidx]
  · rw [hstep, userAct_argRefMod_noCallee cfg ssa MMan M u f hop hcl hidx hfc]
  · rw [hstep, userAct_argRefMod_noTable cfg ssa MMan M u f callee hop hcl hidx hfc hgf]
  · have hneg : ¬ ssa.getMemSSAParamIdx u < 0 := by omega
    rw [userAct_argRefMod cfg ssa MMan M u f callee fn hop hcl hfc hgf] at hstep
    simp only [hneg, if_false] at hstep
    refine ⟨fun h0 => ?_, fun h0 hin => ?_, fun h0 hin => ?_, fun p h0 hin => ?_⟩
    · rw [hstep]; simp [h0]
    · rw [hstep]; simp [h0, hin]
    · rw [hstep]; simp [h0, hin]
    · rw [hstep]; simp [h0, hin, childElem, nextLength_below cfg w hl hmax]

/-- Witness of C13: in `exCalleeModule` with the in-formal 60 of `k` for parameter 0, the first
visit of the seed `(10, 11, 0)` enqueues `(60, 11, 1)` for the `ArgRefMod` successor 14. -/
theorem argRefMod_descent_witness :
    step exCfg (exTableSsa exCalleeKinds exInFormalTables) exInFormalTables exCalleeModule exSeeded
      = usersLoop exCfg (exTableSsa exCalleeKinds exInFormalTables) exInFormalTables
          exCalleeModule { shadow_mem_inst := 10, store_inst := 11, length := 0 } []
          ((exSeeded.entered { shadow_mem_inst := 10, store_inst := 11, length := 0 } []).enqueue
            { shadow_mem_inst := 60, store_inst := 11, length := 0 + 1 }) :=
  (argRefMod_descent exCfg (exTableSsa exCalleeKinds exInFormalTables) exInFormalTables
    exCalleeModule exSeeded { shadow_mem_inst := 10, store_inst := 11, length := 0 } [] [] []
    14 102 (exSeeded.entered { shadow_mem_inst := 10, store_inst := 11, length := 0 } [])
    (by rfl) (by decide) (by decide) (by decide) (by rfl) (by decide) (by decide) (by decide)
    (by rfl)).2.2.2 2 exInFormalOfK (by decide) (by decide) (by rfl) |>.2.2.2 60 (by decide)
    (by rfl)

end IPDSE


namespace IPDSE

/-! ## Conditions that keep a store without aborting -/

/-- C14 (recoverable uncertainty is local and non-fatal).  While the item `w = (n, s, h)` at the
back of the queue is processed: a cyclic revisit, a hop count at the bound and a Load user end the
iteration normally with `s` marked keep and nothing enqueued; a successor of kind ArgRef and an
ArgRefMod successor whose callee has a table without in-formals are processed normally, marking
`s` keep; in the loop over the call sites, a called function with a function-pointer parameter
marks `s` keep and the loop goes on, an out-of-range parameter index and (in singleton-only mode)
a call site for which none of `isRefMod`, `isMod`, `isNew` holds mark `s` keep and end the loop
normally.  Whatever the iteration does, aborting or not, the decision of every store other than
`s` is the same after it as before. -/
theorem recoverable_uncertainty_is_local (cfg : Config) (ssa : MemSSA)
    (MMan : MemorySSACallsManager) (M : Module) (st : PassState) (w : QueueElem)
    (q : List QueueElem) (hq : st.queue = w :: q) :
    (w.key ∈ st.visited →
      step cfg ssa MMan M st = .ok ({ st with queue := q }.markStoreToKeep w.store_inst)) ∧
    (w.key ∉ st.visited → w.length = cfg.MaxLenDefUse →
      ∃ st', step cfg ssa MMan M st = .ok st' ∧ st'.decision w.store_inst = some true ∧
        st'.queue = q) ∧
    (w.key ∉ st.visited → w.length ≠ cfg.MaxLenDefUse →
      ssa.hasMemSSALoadUser w.shadow_mem_inst cfg.OnlySingleton = true →
      ∃ st', step cfg ssa MMan M st = .ok st' ∧ st'.decision w.store_inst = some true ∧
        st'.queue = q) ∧
    (∀ (b : PassState) (u : InstId) (f : FunId), M.opcodeOf u = some (.call (some f)) →
      ssa.classify u cfg.OnlySingleton = some .ArgRef →
      processUser cfg ssa MMan M w (.inst u) b = .ok (b.markStoreToKeep w.store_inst)) ∧
    (∀ (b : PassState) (u : InstId) (f callee : FunId) (fn : MemorySSAFunction),
      M.opcodeOf u = some (.call (some f)) →
      ssa.classify u cfg.OnlySingleton = some .ArgRefMod → 0 ≤ ssa.getMemSSAParamIdx u →
      M.findCalledFunction u = some callee → MMan.getFunction callee = some fn →
      fn.numInFormals = 0 →
      processUser cfg ssa MMan M w (.inst u) b = .ok (b.markStoreToKeep w.store_inst)) ∧
    (∀ (b : PassState) (idx : Int) (CI : InstId) (g : FunId) (cs : MemorySSACallSite)
      (rest : List Value), M.opcodeOf CI = some (.call (some g)) →
      MMan.getCallSite CI = some cs →
      (M.hasFunctionPtrParam g = true →
        callersLoop cfg MMan M w idx (.inst CI :: rest) b
          = callersLoop cfg MMan M w idx rest (b.markStoreToKeep w.store_inst)) ∧
      (M.hasFunctionPtrParam g = false → (cs.numParams : Int) ≤ idx →
        callersLoop cfg MMan M w idx (.inst CI :: rest) b
          = .ok (b.markStoreToKeep w.store_inst)) ∧
      (M.hasFunctionPtrParam g = false → idx < (cs.numParams : Int) →
        cfg.OnlySingleton = true → cs.isRefMod idx = false → cs.isMod idx = false →
        cs.isNew idx = false →
        callersLoop cfg MMan M w idx (.inst CI :: rest) b
          = .ok (b.markStoreToKeep w.store_inst))) ∧
    (∀ k, k ≠ w.store_inst →
      (resState (step cfg ssa MMan M st)).decision k = st.decision k) := by
  refine ⟨fun hv => ?_, fun hv hl => ?_, fun hv hl hload => ?_, fun b u f hop hcl => ?_,
    fun b u f callee fn hop hcl hidx hfc hgf h0 => ?_,
    fun b idx CI g cs rest hop hcs => ⟨fun hfp => ?_, fun hfp hi => ?_,
      fun hfp hi hs h1 h2 h3 => ?_⟩,
    fun k hk => step_resState_decision_ne cfg ssa MMan M st w q hq k hk⟩
  · simp [step, hq, processElem, hv]
  · refine ⟨_, by simp [step, hq, processElem, hv, hl]; rfl, ?_, rfl⟩
    simp [PassState.markStoreToKeep, PassState.decision, storeMapGet_set_self]
  · refine ⟨_, by simp [step, hq, processElem, hv, hl, hload]; rfl, ?_, rfl⟩
    simp [PassState.markStoreToKeep, PassState.decision, storeMapGet_set_self]
  · rw [processUser_eq, userAct_argRef cfg ssa MMan M u f hop hcl]
  · have hneg : ¬ ssa.getMemSSAParamIdx u < 0 := by omega
    rw [processUser_eq, userAct_argRefMod cfg ssa MMan M u f callee fn hop hcl hfc hgf]
    simp [hneg, h0]
  · rw [callersLoop_cons]
    simp [callerAct, hop, hcs, hfp]
  · have hge : idx ≥ (cs.numParams : Int) := hi
    rw [callersLoop_cons]
    simp [callerAct, hop, hcs, hfp, hge]
  · have hge : ¬ idx ≥ (cs.numParams : Int) := by omega
    rw [callersLoop_cons]
    simp [callerAct, hop, hcs, hfp, hge, hs, h1, h2, h3]

/-- Witness of C14: with a hop bound of 0, the iteration on the seed `(30, 31, 0)` of
`exOrderModule` ends normally with store 31 marked keep, and leaves the decision of the other
seeded store, 11, as it was. -/
theorem recoverable_uncertainty_is_local_witness :
    (∃ st', step exZeroHopCfg exOrderSsa exNoTables exOrderModule exSeededTwo = .ok st' ∧
      st'.decision 31 = some true ∧
      st'.queue = [{ shadow_mem_inst := 10, store_inst := 11, length := 0 }]) ∧
    (resState (step exZeroHopCfg exOrderSsa exNoTables exOrderModule exSeededTwo)).decision 11
      = exSeededTwo.decision 11 :=
  have h := recoverable_uncertainty_is_local exZeroHopCfg exOrderSsa exNoTables exOrderModule
    exSeededTwo { shadow_mem_inst := 30, store_inst := 31, length := 0 }
    [{ shadow_mem_inst := 10, store_inst := 11, length := 0 }] (by rfl)
  ⟨h.2.1 (by decide) (by rfl), h.2.2.2.2.2.2 11 (by decide)⟩

/-- C15 (ArgRef keeps the store).  Take a first-visited item `w = (n, s, h)` at the back of the
queue, not at the hop bound (in particular below it), whose node has no Load user, and a
successor `u` of `n` that is a call site of kind ArgRef.  Processing `u` marks `s` keep and
enqueues nothing; when the iteration on `w` ends without abort `s` is marked keep, and it is
still marked keep when the traversal ends without abort, so that the Store Eliminator leaves the
store in the module. -/
theorem argRef_keeps_store (cfg : Config) (ssa : MemSSA) (MMan : MemorySSACallsManager)
    (M : Module) (st : PassState) (w : QueueElem) (q : List QueueElem) (u : InstId) (f : FunId)
    (hq : st.queue = w :: q) (hv : w.key ∉ st.visited) (hl : w.length ≠ cfg.MaxLenDefUse)
    (hload : ssa.hasMemSSALoadUser w.shadow_mem_inst cfg.OnlySingleton = false)
    (hU : Value.inst u ∈ M.usesOf w.shadow_mem_inst)
    (hop : M.opcodeOf u = some (.call (some f)))
    (hcl : ssa.classify u cfg.OnlySingleton = some .ArgRef) :
    (∀ b, processUser cfg ssa MMan M w (.inst u) b = .ok (b.markStoreToKeep w.store_inst)) ∧
    (∀ b : PassState, (b.markStoreToKeep w.store_inst).queue = b.queue) ∧
    (∀ st', step cfg ssa MMan M st = .ok st' → st'.decision w.store_inst = some true) ∧
    (∀ fuel fin, mainLoop cfg ssa MMan M fuel st = some (.ok fin) →
      fin.decision w.store_inst = some true ∧
      ((fin.m_store_map.map Prod.fst).Nodup → w.store_inst ∈ M.instIds →
        w.store_inst ∈ (eliminate fin.m_store_map (M, 0)).1.instIds)) := by
  have hact := userAct_argRef cfg ssa MMan M u f hop hcl
  have hstep : ∀ st', step cfg ssa MMan M st = .ok st' →
      st'.decision w.store_inst = some true := by
    intro st' h
    rw [step_first_visit cfg ssa MMan M st w q hq hv hl hload] at h
    exact usersLoop_keep_of_mem cfg ssa MMan M w _ _ st' h _ hU hact
  refine ⟨fun b => by rw [processUser_eq, hact], fun b => rfl, hstep, fun fuel fin h => ?_⟩
  have hfin : fin.decision w.store_inst = some true := by
    cases fuel with
    | zero => simp [mainLoop, hq] at h
    | succ n =>
      simp only [mainLoop, hq] at h
      cases h1 : step cfg ssa MMan M st with
      | error e => rw [h1] at h; simp at h
      | ok st' =>
        rw [h1] at h
        simp only at h
        exact (mainLoop_decision cfg ssa MMan M w.store_inst n st' _ h).1 (hstep st' h1)
  refine ⟨hfin, fun hnd hs => ?_⟩
  rw [(eliminate_spec _ M 0).1, List.mem_filter]
  refine ⟨hs, ?_⟩
  simp only [decide_eq_true_eq]
  intro hmem
  have := (mem_false_iff_decision fin hnd w.store_inst).1 hmem
  rw [hfin] at this
  simp at this

/-- Witness of C15: in `exArgModModule` with the call 13 of kind ArgRef, the first visit of the
seed `(10, 11, 0)` marks store 11 keep. -/
theorem argRef_keeps_store_witness :
    (resState (step exCfg exArgRefSsa exNoTables exArgModModule exSeeded)).decision 11
      = some true :=
  (argRef_keeps_store exCfg exArgRefSsa exNoTables exArgModModule exSeeded
    { shadow_mem_inst := 10, store_inst := 11, length := 0 } [] 13 101 (by rfl) (by decide)
    (by decide) (by rfl) (by decide) (by decide) (by decide)).2.2.1
    (resState (step exCfg exArgRefSsa exNoTables exArgModModule exSeeded)) (by rfl)

end IPDSE


namespace IPDSE

/-! ## The loop over the call sites of the enclosing function -/

theorem markStoreToKeep_idem (b : PassState) (s : InstId) :
    (b.markStoreToKeep s).markStoreToKeep s = b.markStoreToKeep s := by
  simp [PassState.markStoreToKeep, storeMapSet_idem]

theorem callerAct_fnPtr (cfg : Config) (MMan : MemorySSACallsManager) (M : Module) (idx : Int)
    (CI : InstId) (g : FunId) (cs : MemorySSACallSite)
    (hop : M.opcodeOf CI = some (.call (some g))) (hcs : MMan.getCallSite CI = some cs)
    (hfp : M.hasFunctionPtrParam g = true) :
    callerAct cfg MMan M idx (.inst CI) = .keepNext := by
  simp [callerAct, hop, hcs, hfp]

theorem callerAct_outOfRange (cfg : Config) (MMan : MemorySSACallsManager) (M : Module)
    (idx : Int) (CI : InstId) (g : FunId) (cs : MemorySSACallSite)
    (hop : M.opcodeOf CI = some (.call (some g))) (hcs : MMan.getCallSite CI = some cs)
    (hfp : M.hasFunctionPtrParam g = false) (hi : (cs.numParams : Int) ≤ idx) :
    callerAct cfg MMan M idx (.inst CI) = .keepStop := by
  have hge : idx ≥ (cs.numParams : Int) := hi
  simp [callerAct, hop, hcs, hfp, hge]

/-- What is known of a call site for which a primed value is enqueued. -/
theorem callerAct_push_inv (cfg : Config) (MMan : MemorySSACallsManager) (M : Module)
    (idx : Int) (CI p : InstId) (h : callerAct cfg MMan M idx (.inst CI) = .push p) :
    ∃ g cs, M.opcodeOf CI = some (.call (some g)) ∧ MMan.getCallSite CI = some cs ∧
      M.hasFunctionPtrParam g = false ∧ idx < (cs.numParams : Int) ∧
      (cfg.OnlySingleton = true →
        cs.isRefMod idx = true ∨ cs.isMod idx = true ∨ cs.isNew idx = true) ∧
      cs.getPrimed idx = .inst p := by
  unfold callerAct at h
  cases hop : M.opcodeOf CI with
  | none => simp [hop] at h
  | some op =>
    cases op with
    | phi => simp [hop] at h
    | store => simp [hop] at h
    | other => simp [hop] at h
    | call callee =>
      cases hcs : MMan.getCallSite CI with
      | none => simp [hop, hcs] at h
      | some cs =>
        cases callee with
        | none => simp [hop, hcs] at h
        | some g =>
          simp only [hop, hcs] at h
          split_ifs at h with h1 h2 h3 h4
          cases hp : cs.getPrimed idx with
          | nonInst => simp [hp] at h
          | inst p' =>
            simp only [hp, CallerAct.push.injEq] at h
            subst h
            refine ⟨g, cs, rfl, rfl, by simpa using h1, by omega, fun hs => ?_, hp⟩
            rw [hs] at h3
            cases ha : cs.isRefMod idx <;> cases hb : cs.isMod idx <;>
              cases hc : cs.isNew idx <;> simp [ha, hb, hc] at h3 ⊢

/-- Call sites whose called function has a function-pointer parameter only mark keep. -/
theorem callersLoop_all_fnPtr (cfg : Config) (MMan : MemorySSACallsManager) (M : Module)
    (w : QueueElem) (idx : Int) (cs : List Value)
    (h : ∀ C ∈ cs, ∃ CI g t, C = .inst CI ∧ M.opcodeOf CI = some (.call (some g)) ∧
      MMan.getCallSite CI = some t ∧ M.hasFunctionPtrParam g = true) :
    ∀ b : PassState, callersLoop cfg MMan M w idx cs (b.markStoreToKeep w.store_inst)
      = .ok (b.markStoreToKeep w.store_inst) := by
  induction cs with
  | nil => intro b; rfl
  | cons C rest ih =>
    intro b
    obtain ⟨CI, g, t, hC, hop, hcs, hfp⟩ := h C (List.mem_cons_self _ _)
    rw [hC, callersLoop_cons, callerAct_fnPtr cfg MMan M idx CI g t hop hcs hfp]
    simp only [markStoreToKeep_idem]
    exact ih (fun C' hC' => h C' (List.mem_cons_of_mem _ hC')) b

/-- The loop over the call sites does not look behind a call site that leaves the loop. -/
theorem callersLoop_stop_indep (cfg : Config) (MMan : MemorySSACallsManager) (M : Module)
    (w : QueueElem) (idx : Int) (C : Value)
    (hC : callerAct cfg MMan M idx C = .keepStop) (pre rest rest' : List Value) :
    ∀ b : PassState, callersLoop cfg MMan M w idx (pre ++ C :: rest) b
      = callersLoop cfg MMan M w idx (pre ++ C :: rest') b := by
  induction pre with
  | nil =>
    intro b
    simp only [List.nil_append]
    rw [callersLoop_cons, callersLoop_cons, hC]
  | cons D pre ih =>
    intro b
    simp only [List.cons_append]
    rw [callersLoop_cons, callersLoop_cons]
    cases callerAct cfg MMan M idx D with
    | skip => exact ih b
    | abort e => rfl
    | keepNext => exact ih _
    | keepStop => rfl
    | push p => exact ih _

end IPDSE


namespace IPDSE

/-! ## Claims on the ascent from a `FunOut` marker -/

/-- Counterexample to C16 as worded: function `g` of `exFnPtrModule` has a parameter of
function-pointer type and contains the `FunOut` successor 16 of the marker 10, but no call
instruction uses `g`; store 11 is not set to keep, the run ends normally and deletes it. -/
theorem funOut_function_pointer_counterexample :
    (exFnPtrModule.locate 16).map (fun p => hasFunctionPtrParam p.1) = some true ∧
    Value.inst 16 ∈ exFnPtrModule.usesOf 10 ∧
    (exTableSsa exFunOutKinds exNoTables).classify 16 exCfg.OnlySingleton = some .FunOut ∧
    (runOnModule exCfg (exTableSsa exFunOutKinds exNoTables) exFnPtrModule).fatal? = none ∧
    (runOnModule exCfg (exTableSsa exFunOutKinds exNoTables) exFnPtrModule).report.st.decision 11
      = some false ∧
    11 ∉ (runOnModule exCfg (exTableSsa exFunOutKinds exNoTables)
      exFnPtrModule).report.eliminated.instIds := by
  decide

/-- C16 (FunOut and function-pointer parameters), amended.  Take an item `(n, s, h)` and a
successor `u` of kind FunOut with a parameter index, inside function `F`.  Processing `u` is the
loop over the uses of `F`.  In that loop every call instruction that has a call-site table and
whose called function has a parameter of function-pointer type sets `s` to keep, enqueues nothing,
and the loop goes on with the next use.  Hence when `F` has uses and all of them are such call
instructions (as the direct calls of an `F` with a function-pointer parameter are), `s` is set to
keep and no caller's primed value is enqueued for the edge; when `F` has no use at all, nothing is
marked and nothing is enqueued. -/
theorem funOut_function_pointer_callers (cfg : Config) (ssa : MemSSA)
    (MMan : MemorySSACallsManager) (M : Module) (w : QueueElem) (u : InstId) (f : FunId)
    (hop : M.opcodeOf u = some (.call (some f)))
    (hcl : ssa.classify u cfg.OnlySingleton = some .FunOut)
    (hidx : 0 ≤ ssa.getMemSSAParamIdx u) :
    (∀ b : PassState, processUser cfg ssa MMan M w (.inst u) b
      = callersLoop cfg MMan M w (ssa.getMemSSAParamIdx u) (M.parentUses u) b) ∧
    (∀ (b : PassState) (idx : Int) (CI : InstId) (g : FunId) (cs : MemorySSACallSite)
      (rest : List Value), M.opcodeOf CI = some (.call (some g)) →
      MMan.getCallSite CI = some cs → M.hasFunctionPtrParam g = true →
      callersLoop cfg MMan M w idx (.inst CI :: rest) b
        = callersLoop cfg MMan M w idx rest (b.markStoreToKeep w.store_inst)) ∧
    (∀ b : PassState, M.parentUses u ≠ [] →
      (∀ C ∈ M.parentUses u, ∃ CI g t, C = .inst CI ∧ M.opcodeOf CI = some (.call (some g)) ∧
        MMan.getCallSite CI = some t ∧ M.hasFunctionPtrParam g = true) →
      processUser cfg ssa MMan M w (.inst u) b = .ok (b.markStoreToKeep w.store_inst)) ∧
    (∀ b : PassState, M.parentUses u = [] →
      processUser cfg ssa MMan M w (.inst u) b = .ok b) := by
  have hneg : ¬ ssa.getMemSSAParamIdx u < 0 := by omega
  have hproc : ∀ b : PassState, processUser cfg ssa MMan M w (.inst u) b
      = callersLoop cfg MMan M w (ssa.getMemSSAParamIdx u) (M.parentUses u) b := by
    intro b
    rw [processUser_eq, userAct_funOut cfg ssa MMan M u f hop hcl]
    simp [hneg]
  refine ⟨hproc, fun b idx CI g cs rest hopC hcs hfp => ?_, fun b hne hall => ?_,
    fun b hnil => ?_⟩
  · rw [callersLoop_cons, callerAct_fnPtr cfg MMan M idx CI g cs hopC hcs hfp]
  · rw [hproc]
    cases hl : M.parentUses u with
    | nil => exact absurd hl hne
    | cons C rest =>
      rw [hl] at hall
      obtain ⟨CI, g, t, hC, hopC, hcs, hfp⟩ := hall C (List.mem_cons_self _ _)
      rw [hC, callersLoop_cons, callerAct_fnPtr cfg MMan M _ CI g t hopC hcs hfp]
      exact callersLoop_all_fnPtr cfg MMan M w _ rest
        (fun C' hC' => hall C' (List.mem_cons_of_mem _ hC')) b
  · rw [hproc, hnil]
    rfl

/-- Witness of C16: in `exFnPtrCalledModule` the only use of `g` is the direct call 40, and `g`
has a function-pointer parameter; processing the `FunOut` successor 16 marks store 11 keep and
enqueues nothing. -/
theorem funOut_function_pointer_callers_witness :
    processUser exCfg (exTableSsa exFunOutKinds exAmbiguousTables) exAmbiguousTables
        exFnPtrCalledModule { shadow_mem_inst := 10, store_inst := 11, length := 0 } (.inst 16)
        (exSeeded.entered { shadow_mem_inst := 10, store_inst := 11, length := 0 } [])
      = .ok ((exSeeded.entered { shadow_mem_inst := 10, store_inst := 11, length := 0 }
          []).markStoreToKeep 11) :=
  (funOut_function_pointer_callers exCfg (exTableSsa exFunOutKinds exAmbiguousTables)
    exAmbiguousTables exFnPtrCalledModule { shadow_mem_inst := 10, store_inst := 11, length := 0 }
    16 103 (by decide) (by decide) (by decide)).2.2.1
    (exSeeded.entered { shadow_mem_inst := 10, store_inst := 11, length := 0 } []) (by decide)
    (fun C hC => ⟨40, 1, exCallSite 1 false, by
      have hu : exFnPtrCalledModule.parentUses 16 = [.inst 40] := by decide
      rw [hu] at hC
      exact List.mem_singleton.1 hC, by decide, by rfl, by decide⟩)

/-- Counterexample to C17 as worded: `k` of `exTwoCallersModule` is called at 40 and at 41, in
this order in its use list.  Call site 40 has no actual shadow parameter; for call site 41 the
rules prescribe to enqueue its primed value 50, and processed alone it does so.  Yet after the
loop over both call sites nothing is enqueued, and in the whole run the node 50 is never visited:
call site 41 is not processed. -/
theorem funOut_index_out_of_range_counterexample :
    exTwoCallersModule.parentUses 16 = [.inst 40, .inst 41] ∧
    callerAct exCfg exShortCallTables exTwoCallersModule 0 (.inst 40) = .keepStop ∧
    callerAct exCfg exShortCallTables exTwoCallersModule 0 (.inst 41) = .push 50 ∧
    (resState (callersLoop exCfg exShortCallTables exTwoCallersModule
      { shadow_mem_inst := 10, store_inst := 11, length := 0 } 0 [.inst 41]
      PassState.init)).queue = [{ shadow_mem_inst := 50, store_inst := 11, length := 1 }] ∧
    (resState (callersLoop exCfg exShortCallTables exTwoCallersModule
      { shadow_mem_inst := 10, store_inst := 11, length := 0 } 0 [.inst 40, .inst 41]
      PassState.init)).queue = [] ∧
    (runOnModule exCfg (exTableSsa exFunOutKinds exShortCallTables)
      exTwoCallersModule).report.st.visited = [(10, 11)] := by
  decide

/-- C17 (FunOut with an out-of-range parameter index), amended.  While ascending from a FunOut
successor, a call site whose called function has no function-pointer parameter and whose number
of actual shadow parameters is not greater than the parameter index sets `s` to keep, enqueues
nothing, and ends the loop over the call sites: the call sites behind it in the use list of the
function are not processed (whatever they are, the loop gives the same result), those in front
of it have been processed. -/
theorem funOut_index_out_of_range (cfg : Config) (MMan : MemorySSACallsManager) (M : Module)
    (w : QueueElem) (idx : Int) (CI : InstId) (g : FunId) (cs : MemorySSACallSite)
    (hop : M.opcodeOf CI = some (.call (some g))) (hcs : MMan.getCallSite CI = some cs)
    (hfp : M.hasFunctionPtrParam g = false) (hi : (cs.numParams : Int) ≤ idx) :
    (∀ (b : PassState) (rest : List Value),
      callersLoop cfg MMan M w idx (.inst CI :: rest) b
        = .ok (b.markStoreToKeep w.store_inst)) ∧
    (∀ b : PassState, (b.markStoreToKeep w.store_inst).queue = b.queue) ∧
    (∀ (b : PassState) (pre rest rest' : List Value),
      callersLoop cfg MMan M w idx (pre ++ .inst CI :: rest) b
        = callersLoop cfg MMan M w idx (pre ++ .inst CI :: rest') b) := by
  have hact := callerAct_outOfRange cfg MMan M idx CI g cs hop hcs hfp hi
  refine ⟨fun b rest => ?_, fun b => rfl, fun b pre rest rest' =>
    callersLoop_stop_indep cfg MMan M w idx _ hact pre rest rest' b⟩
  rw [callersLoop_cons, hact]

/-- Witness of C17: at call site 40 of `exTwoCallersModule` the loop over the call sites ends
with store 11 marked keep, call site 41 behind it is not looked at. -/
theorem funOut_index_out_of_range_witness :
    callersLoop exCfg exShortCallTables exTwoCallersModule
        { shadow_mem_inst := 10, store_inst := 11, length := 0 } 0 (.inst 40 :: [.inst 41])
        exSeeded
      = .ok (exSeeded.markStoreToKeep 11) :=
  (funOut_index_out_of_range exCfg exShortCallTables exTwoCallersModule
    { shadow_mem_inst := 10, store_inst := 11, length := 0 } 0 40 2 (exCallSite 0 true)
    (by decide) (by rfl) (by decide) (by decide)).1 exSeeded [.inst 41]

/-- C18 (singleton-only caller guard).  In singleton-only mode: when the processing of a call
site of the enclosing function enqueues something, it enqueues the item `(primed, s, h+1)` of
the primed value of that call site, and at least one of `isRefMod`, `isMod`, `isNew` holds for
the parameter at that call site; and at a call site (a call with a called function and a
call-site table) for which none of the three holds, `s` is set to keep and nothing is enqueued,
the loop going on with the next use or ending there. -/
theorem singleton_caller_guard (cfg : Config) (MMan : MemorySSACallsManager) (M : Module)
    (w : QueueElem) (idx : Int) (hs : cfg.OnlySingleton = true) :
    (∀ (CI : InstId) (b b' : PassState),
      callersLoop cfg MMan M w idx [.inst CI] b = .ok b' → b'.queue ≠ b.queue →
      ∃ callee cs p, M.opcodeOf CI = some (.call callee) ∧ MMan.getCallSite CI = some cs ∧
        (cs.isRefMod idx = true ∨ cs.isMod idx = true ∨ cs.isNew idx = true) ∧
        cs.getPrimed idx = .inst p ∧
        b'.queue
          = { shadow_mem_inst := p, store_inst := w.store_inst, length := nextLength w }
            :: b.queue) ∧
    (∀ (CI : InstId) (g : FunId) (cs : MemorySSACallSite) (b : PassState) (rest : List Value),
      M.opcodeOf CI = some (.call (some g)) → MMan.getCallSite CI = some cs →
      cs.isRefMod idx = false → cs.isMod idx = false → cs.isNew idx = false →
      callersLoop cfg MMan M w idx (.inst CI :: rest) b
          = callersLoop cfg MMan M w idx rest (b.markStoreToKeep w.store_inst) ∨
        callersLoop cfg MMan M w idx (.inst CI :: rest) b
          = .ok (b.markStoreToKeep w.store_inst)) := by
  refine ⟨fun CI b b' h hne => ?_, fun CI g cs b rest hop hcs h1 h2 h3 => ?_⟩
  · rw [callersLoop_cons] at h
    cases hact : callerAct cfg MMan M idx (.inst CI) with
    | skip =>
      rw [hact] at h
      simp only [callersLoop, Except.ok.injEq] at h
      exact absurd (by rw [h]) hne
    | abort e => rw [hact] at h; simp at h
    | keepNext =>
      rw [hact] at h
      simp only [callersLoop, Except.ok.injEq] at h
      exact absurd (by rw [← h]; rfl) hne
    | keepStop =>
      rw [hact] at h
      simp only [Except.ok.injEq] at h
      exact absurd (by rw [← h]; rfl) hne
    | push p =>
      rw [hact] at h
      simp only [callersLoop, Except.ok.injEq] at h
      obtain ⟨g, cs, hop, hcs, _, _, hguard, hp⟩ := callerAct_push_inv cfg MMan M idx CI p hact
      exact ⟨some g, cs, p, hop, hcs, hguard hs, hp, by rw [← h]; rfl⟩
  · rw [callersLoop_cons]
    by_cases hfp : M.hasFunctionPtrParam g = true
    · left
      rw [callerAct_fnPtr cfg MMan M idx CI g cs hop hcs hfp]
    · right
      have hfp' : M.hasFunctionPtrParam g = false := by simpa using hfp
      by_cases hi : (cs.numParams : Int) ≤ idx
      · rw [callerAct_outOfRange cfg MMan M idx CI g cs hop hcs hfp' hi]
      · have hge : ¬ idx ≥ (cs.numParams : Int) := hi
        simp [callerAct, hop, hcs, hfp', hge, hs, h1, h2, h3]

/-- Witness of C18: in singleton-only mode, at call site 40 of `exTwoCallersModule` none of the
three predicates holds for parameter 0; the loop ends with store 11 marked keep and nothing
enqueued. -/
theorem singleton_caller_guard_witness :
    callersLoop exCfg exAmbiguousTables exTwoCallersModule
          { shadow_mem_inst := 10, store_inst := 11, length := 0 } 0 (.inst 40 :: [.inst 41])
          exSeeded
        = callersLoop exCfg exAmbiguousTables exTwoCallersModule
            { shadow_mem_inst := 10, store_inst := 11, length := 0 } 0 [.inst 41]
            (exSeeded.markStoreToKeep 11) ∨
      callersLoop exCfg exAmbiguousTables exTwoCallersModule
          { shadow_mem_inst := 10, store_inst := 11, length := 0 } 0 (.inst 40 :: [.inst 41])
          exSeeded
        = .ok (exSeeded.markStoreToKeep 11) :=
  (singleton_caller_guard exCfg exAmbiguousTables exTwoCallersModule
    { shadow_mem_inst := 10, store_inst := 11, length := 0 } 0 (by rfl)).2 40 2
    (exCallSite 1 false) exSeeded [.inst 41] (by decide) (by rfl) (by rfl) (by rfl) (by rfl)

/-- Counterexample to C19 as worded: with the only-singleton flag false and assertions compiled
in, call site 40 of `exTwoCallersModule` has an in-range parameter index, a called function
without function-pointer parameter and a primed value that is an instruction, and none of the
three predicates holds; the pass does not enqueue the primed value, it aborts on the assertion. -/
theorem no_singleton_guard_counterexample :
    exAllRegionsCfg.OnlySingleton = false ∧
    exTwoCallersModule.parentUses 16 = [.inst 40, .inst 41] ∧
    exTwoCallersModule.opcodeOf 40 = some (.call (some 2)) ∧
    exTwoCallersModule.hasFunctionPtrParam 2 = false ∧
    (exAmbiguousTables.getCallSite 40).map (fun cs => (cs.numParams, cs.getPrimed 0))
      = some (1, .inst 50) ∧
    (runOnModule exAllRegionsCfg (exTableSsa exFunOutKinds exAmbiguousTables)
      exTwoCallersModule).fatal? = some .assertionFailed := by
  decide

/-- C19 (only-singleton = false), amended.  With the only-singleton flag false, at a call site
with a call-site table, a called function without function-pointer parameter and an in-range
parameter index: when assertions are compiled out, or when one of `isRefMod`, `isMod`, `isNew`
holds, the classification decides nothing and the primed value of the call site is enqueued as
`(primed, s, h+1)`, the pass aborting when the primed value is not an instruction; when
assertions are compiled in and none of the three holds, the pass aborts on the assertion. -/
theorem no_singleton_caller_guard (cfg : Config) (MMan : MemorySSACallsManager) (M : Module)
    (w : QueueElem) (idx : Int) (CI : InstId) (g : FunId) (cs : MemorySSACallSite)
    (hs : cfg.OnlySingleton = false)
    (hop : M.opcodeOf CI = some (.call (some g))) (hcs : MMan.getCallSite CI = some cs)
    (hfp : M.hasFunctionPtrParam g = false) (hi : idx < (cs.numParams : Int)) :
    ((cfg.assertions = false ∨ cs.isRefMod idx = true ∨ cs.isMod idx = true ∨
        cs.isNew idx = true) →
      (∀ (p : InstId) (b : PassState) (rest : List Value), cs.getPrimed idx = .inst p →
        callersLoop cfg MMan M w idx (.inst CI :: rest) b
          = callersLoop cfg MMan M w idx rest
              (b.enqueue
                { shadow_mem_inst := p, store_inst := w.store_inst, length := nextLength w })) ∧
      (∀ (b : PassState) (rest : List Value), cs.getPrimed idx = .nonInst →
        callersLoop cfg MMan M w idx (.inst CI :: rest) b
          = .error (.expectedEnqueueFromCaller, b))) ∧
    (cfg.assertions = true → cs.isRefMod idx = false → cs.isMod idx = false →
      cs.isNew idx = false →
      ∀ (b : PassState) (rest : List Value),
        callersLoop cfg MMan M w idx (.inst CI :: rest) b = .error (.assertionFailed, b)) := by
  have hge : ¬ idx ≥ (cs.numParams : Int) := by omega
  refine ⟨fun hok => ⟨fun p b rest hp => ?_, fun b rest hp => ?_⟩,
    fun ha h1 h2 h3 b rest => ?_⟩
  · rw [callersLoop_cons]
    rcases hok with ha | h1 | h2 | h3
    · simp [callerAct, hop, hcs, hfp, hge, hs, ha, hp, childElem]
    · simp [callerAct, hop, hcs, hfp, hge, hs, h1, hp, childElem]
    · simp [callerAct, hop, hcs, hfp, hge, hs, h2, hp, childElem]
    · simp [callerAct, hop, hcs, hfp, hge, hs, h3, hp, childElem]
  · rw [callersLoop_cons]
    rcases hok with ha | h1 | h2 | h3
    · simp [callerAct, hop, hcs, hfp, hge, hs, ha, hp]
    · simp [callerAct, hop, hcs, hfp, hge, hs, h1, hp]
    · simp [callerAct, hop, hcs, hfp, hge, hs, h2, hp]
    · simp [callerAct, hop, hcs, hfp, hge, hs, h3, hp]
  · rw [callersLoop_cons]
    simp [callerAct, hop, hcs, hfp, hge, hs, ha, h1, h2, h3]

/-- Witness of C19: with assertions compiled out and the only-singleton flag false, call site 40
of `exTwoCallersModule`, for which none of the three predicates holds, enqueues its primed value
50. -/
theorem no_singleton_caller_guard_witness :
    callersLoop exReleaseCfg exAmbiguousTables exTwoCallersModule
        { shadow_mem_inst := 10, store_inst := 11, length := 0 } 0 (.inst 40 :: []) exSeeded
      = callersLoop exReleaseCfg exAmbiguousTables exTwoCallersModule
          { shadow_mem_inst := 10, store_inst := 11, length := 0 } 0 []
          (exSeeded.enqueue
            { shadow_mem_inst := 50, store_inst := 11,
              length := nextLength { shadow_mem_inst := 10, store_inst := 11, length := 0 } }) :=
  ((no_singleton_caller_guard exReleaseCfg exAmbiguousTables exTwoCallersModule
    { shadow_mem_inst := 10, store_inst := 11, length := 0 } 0 40 2 (exCallSite 1 false)
    (by rfl) (by decide) (by rfl) (by decide) (by decide)).1 (Or.inl (by rfl))).1 50 exSeeded []
    (by rfl)

end IPDSE


namespace IPDSE

/-! ## Users of unrecognised kind -/

theorem userPushes_unrecognised (cfg : Config) (ssa : MemSSA) (MMan : MemorySSACallsManager)
    (M : Module) (u : InstId) (f : FunId) (hop : M.opcodeOf u = some (.call (some f)))
    (hk : Unrecognised (ssa.classify u cfg.OnlySingleton)) :
    userPushes cfg ssa MMan M (.inst u) = some [] := by
  obtain ⟨h1, h2, h3, h4, h5, h6⟩ := hk
  simp [userPushes, userAct_unrecognised cfg ssa MMan M u f hop h1 h2 h3 h4 h5 h6]

/-- The invariant `Untouched` is kept by an iteration when no use of the marker marks keep,
aborts or enqueues. -/
theorem step_untouched_of_pushes (cfg : Config) (ssa : MemSSA) (MMan : MemorySSACallsManager)
    (M : Module) (m s : InstId) (hbound : cfg.MaxLenDefUse ≠ 0)
    (hload : ssa.hasMemSSALoadUser m cfg.OnlySingleton = false)
    (husers : ∀ U ∈ M.usesOf m, userPushes cfg ssa MMan M U = some [])
    (st st' : PassState) (hU : Untouched m s st) (hne : st.queue ≠ [])
    (h : step cfg ssa MMan M st = .ok st') : Untouched m s st' := by
  obtain ⟨w, q, hq⟩ := List.exists_cons_of_ne_nil hne
  obtain ⟨hdec, hqueue⟩ := hU
  by_cases hws : w.store_inst = s
  · have hfil : st.queue.filter (fun p => decide (p.store_inst = s))
        = w :: q.filter (fun p => decide (p.store_inst = s)) := by
      rw [hq]; simp [List.filter_cons, hws]
    rw [hfil] at hqueue
    rcases hqueue with ⟨hone, hnv⟩ | hnil
    · simp only [List.cons.injEq] at hone
      obtain ⟨hw, hrest⟩ := hone
      rcases step_shape cfg ssa MMan M st w q hq with ⟨hv, _⟩ | ⟨_, hl, _⟩ | ⟨_, _, hl, _⟩ |
        ⟨_, _, _, h1⟩
      · exact absurd hv (by rw [hw]; exact hnv m)
      · rw [hw] at hl
        exact absurd hl.symm hbound
      · rw [hw] at hl
        simp only at hl
        rw [hload] at hl
        simp at hl
      · have hquiet : Quiet cfg ssa MMan M w.shadow_mem_inst := by
          intro U hU
          rw [hw] at hU
          rw [husers U hU]
          simp
        have hpush : quietPushes cfg ssa MMan M w.shadow_mem_inst = [] := by
          unfold quietPushes
          rw [List.flatMap_eq_nil_iff]
          intro U hU
          rw [hw] at hU
          rw [husers U hU]
          rfl
        obtain ⟨k, hd⟩ := delta_of_quiet cfg ssa MMan M w hquiet
        rw [h1, hd, hpush] at h
        simp only [liftRes, Except.ok.injEq] at h
        subst h
        refine ⟨?_, Or.inr ?_⟩
        · simpa [PassState.plus, PassState.decision, storeMapGet] using hdec
        · simpa [PassState.plus] using hrest
    · simp at hnil
  · have hfil : st.queue.filter (fun p => decide (p.store_inst = s))
        = q.filter (fun p => decide (p.store_inst = s)) := by
      rw [hq]; simp [List.filter_cons, hws]
    rw [hfil] at hqueue
    obtain ⟨⟨ps, hps, _, _, hstore⟩, hvis, _⟩ := step_frame cfg ssa MMan M st w q hq
    rw [h] at hps hvis
    simp only [resState] at hps hvis
    have hfil' : st'.queue.filter (fun p => decide (p.store_inst = s))
        = q.filter (fun p => decide (p.store_inst = s)) := by
      rw [hps, List.filter_append]
      have : ps.filter (fun p => decide (p.store_inst = s)) = [] := by
        rw [List.filter_eq_nil_iff]
        intro p hp
        simp only [decide_eq_true_eq]
        rw [(hstore p hp).1]
        exact hws
      rw [this, List.nil_append]
    refine ⟨?_, ?_⟩
    · rw [(step_ok_decision cfg ssa MMan M st st' w q hq h s).1 (fun hc => hws hc.symm)]
      exact hdec
    · rw [hfil']
      rcases hqueue with ⟨hone, hnv⟩ | hnil
      · left
        refine ⟨hone, ?_⟩
        intro n hn
        rcases hvis with hvis | ⟨_, hvis⟩
        · rw [hvis] at hn; exact hnv n hn
        · rw [hvis] at hn
          rcases List.mem_cons.1 hn with hn | hn
          · apply hws
            have := (Prod.mk.inj hn).2
            simpa [QueueElem.key] using this.symm
          · exact hnv n hn
      · exact Or.inr hnil

/-- Counterexample to C20 as worded: with a hop bound of 0, the seeded store 11 of
`exArgModModule`, whose marker 10 has no Load user and the single successor 13, a call of
unrecognised kind, is kept and not deleted. -/
theorem unexpected_user_counterexample :
    exLoadSsa.hasMemSSALoadUser 10 exZeroHopCfg.OnlySingleton = false ∧
    exArgModModule.usesOf 10 = [.inst 13] ∧
    exArgModModule.opcodeOf 13 = some (.call (some 101)) ∧
    Unrecognised (exLoadSsa.classify 13 exZeroHopCfg.OnlySingleton) ∧
    (runOnModule exZeroHopCfg exLoadSsa exArgModModule).fatal? = none ∧
    (runOnModule exZeroHopCfg exLoadSsa exArgModModule).report.st.decision 11 = some true ∧
    11 ∈ (runOnModule exZeroHopCfg exLoadSsa exArgModModule).report.eliminated.instIds := by
  decide

/-- C20 (unexpected user kind), amended.  For every item `(n, s, h)`, a call-site successor that
is none of Store, ArgRef, ArgMod, ArgRefMod, FunIn, FunOut neither marks `s` keep nor enqueues
any item: only the warning is written.  Consequently, with a hop bound of at least 1, in a module
with unique instruction addresses and in a run that does not abort, a seeded store whose marker
has no Load user and whose only successors are call sites of unrecognised kind is
tentatively-dead when the traversal ends, and is deleted. -/
theorem unexpected_user_is_dead_end (cfg : Config) (ssa : MemSSA) (M : Module) :
    (∀ (MMan : MemorySSACallsManager) (w : QueueElem) (b : PassState) (u : InstId) (f : FunId),
      M.opcodeOf u = some (.call (some f)) → Unrecognised (ssa.classify u cfg.OnlySingleton) →
      processUser cfg ssa MMan M w (.inst u) b = .ok { b with warnings := b.warnings + 1 }) ∧
    (∀ (r : Report) (m s : InstId), M.WF → runOnModule cfg ssa M = .finished r →
      ({ shadow_mem_inst := m, store_inst := s, length := 0 } : QueueElem)
        ∈ seedList cfg ssa M →
      1 ≤ cfg.MaxLenDefUse → ssa.hasMemSSALoadUser m cfg.OnlySingleton = false →
      (∀ U ∈ M.usesOf m, ∃ u f, U = .inst u ∧ M.opcodeOf u = some (.call (some f)) ∧
        Unrecognised (ssa.classify u cfg.OnlySingleton)) →
      r.st.decision s = some false ∧ s ∈ M.instIds ∧ s ∉ r.eliminated.instIds) := by
  refine ⟨fun MMan w b u f hop hk => ?_, fun r m s hWF hrun hseed hbound hload husers => ?_⟩
  · obtain ⟨h1, h2, h3, h4, h5, h6⟩ := hk
    rw [processUser_eq, userAct_unrecognised cfg ssa MMan M u f hop h1 h2 h3 h4 h5 h6]
  · obtain ⟨st0, hseed0, hloop, _, _⟩ := runOnModule_finished cfg ssa M r hrun
    have hU0 := untouched_seed cfg ssa M hWF st0 hseed0 m s hseed
    have hpushes : ∀ U ∈ M.usesOf m,
        userPushes cfg ssa (ssa.callsManager M cfg.OnlySingleton) M U = some [] := by
      intro U hU
      obtain ⟨u, f, hUu, hop, hk⟩ := husers U hU
      rw [hUu]
      exact userPushes_unrecognised cfg ssa _ M u f hop hk
    obtain ⟨hU, _⟩ := mainLoop_ok_induction cfg ssa (ssa.callsManager M cfg.OnlySingleton) M
      (Untouched m s)
      (fun st st' => step_untouched_of_pushes cfg ssa _ M m s (by omega) hload hpushes st st')
      _ st0 r.st hU0 hloop
    obtain ⟨_, hnd, _, he, _⟩ := finished_facts cfg ssa M r hrun
    refine ⟨hU.1, seed_store_mem_instIds cfg ssa M _ hseed, ?_⟩
    rw [he, (eliminate_spec _ M 0).1, List.mem_filter]
    rintro ⟨_, hmem⟩
    simp only [decide_eq_true_eq] at hmem
    exact hmem ((mem_false_iff_decision r.st hnd s).2 hU.1)

/-- Witness of C20: with the default hop bound, the seeded store 11 of `exArgModModule`, whose
marker has the single successor 13 of unrecognised kind, is tentatively-dead at the end and
deleted. -/
theorem unexpected_user_is_dead_end_witness :
    (runOnModule exCfg exLoadSsa exArgModModule).report.st.decision 11 = some false ∧
      11 ∈ exArgModModule.instIds ∧
      11 ∉ (runOnModule exCfg exLoadSsa exArgModModule).report.eliminated.instIds :=
  (unexpected_user_is_dead_end exCfg exLoadSsa exArgModModule).2
    (runOnModule exCfg exLoadSsa exArgModModule).report 10 11 (by decide) (by rfl) (by decide)
    (by decide) (by decide)
    (fun U hU => ⟨13, 101, by
      have hu : exArgModModule.usesOf 10 = [.inst 13] := by decide
      rw [hu] at hU
      exact List.mem_singleton.1 hU, by decide, by decide⟩)

end IPDSE


namespace IPDSE

/-! ## Every enqueued node is the target of a followed edge -/

theorem opcodeOf_some_mem (M : Module) (i : InstId) (op : Opcode)
    (h : M.opcodeOf i = some op) : i ∈ M.instIds := by
  unfold Module.opcodeOf at h
  cases hx : M.instruction? i with
  | none => rw [hx] at h; simp at h
  | some x => exact instruction?_some_mem M i x hx

theorem userAct_push_edge (cfg : Config) (ssa : MemSSA) (MMan : MemorySSACallsManager)
    (M : Module) (n : InstId) (U : Value) (p : InstId) (hU : U ∈ M.usesOf n)
    (h : userAct cfg ssa MMan M U = .push p) : Edge cfg ssa MMan M n p := by
  cases U with
  | nonInst => simp [userAct] at h
  | inst u =>
    unfold userAct at h
    cases hop : M.opcodeOf u with
    | none => simp [hop] at h
    | some op =>
      cases op with
      | phi =>
        simp only [hop, UserAct.push.injEq] at h
        subst h
        exact Edge.phi hU hop
      | store => simp [hop] at h
      | other => simp [hop] at h
      | call callee =>
        cases callee with
        | none => simp [hop] at h
        | some f =>
          simp only [hop] at h
          split_ifs at h with h1 h2 h3 h4 h5 h6 h7 h8
          have hcl : ssa.classify u cfg.OnlySingleton = some .ArgRefMod := by
            simpa [isMemSSAArgRefMod] using h4
          cases hfc : M.findCalledFunction u with
          | none => simp [hfc] at h
          | some callee =>
            cases hgf : MMan.getFunction callee with
            | none => simp [hfc, hgf] at h
            | some fn =>
              simp only [hfc, hgf] at h
              split_ifs at h with h9
              cases hin : fn.getInFormal (ssa.getMemSSAParamIdx u) with
              | none => simp [hin] at h
              | some V =>
                cases V with
                | nonInst => simp [hin] at h
                | inst p' =>
                  simp only [hin, UserAct.push.injEq] at h
                  subst h
                  exact Edge.argRefMod hU hop hcl hfc hgf hin

theorem userAct_ascend_inv (cfg : Config) (ssa : MemSSA) (MMan : MemorySSACallsManager)
    (M : Module) (U : Value) (idx : Int) (callers : List Value)
    (h : userAct cfg ssa MMan M U = .ascend idx callers) :
    ∃ u f, U = .inst u ∧ M.opcodeOf u = some (.call (some f)) ∧
      ssa.classify u cfg.OnlySingleton = some .FunOut ∧ idx = ssa.getMemSSAParamIdx u ∧
      callers = M.parentUses u := by
  cases U with
  | nonInst => simp [userAct] at h
  | inst u =>
    unfold userAct at h
    cases hop : M.opcodeOf u with
    | none => simp [hop] at h
    | some op =>
      cases op with
      | phi => simp [hop] at h
      | store => simp [hop] at h
      | other => simp [hop] at h
      | call callee =>
        cases callee with
        | none => simp [hop] at h
        | some f =>
          simp only [hop] at h
          split_ifs at h with h1 h2 h3 h4 h5 h6 h7 h8
          · exfalso
            cases hfc : M.findCalledFunction u with
            | none => simp [hfc] at h
            | some callee =>
              cases hgf : MMan.getFunction callee with
              | none => simp [hfc, hgf] at h
              | some fn =>
                simp only [hfc, hgf] at h
                split_ifs at h with h9
                cases hin : fn.getInFormal (ssa.getMemSSAParamIdx u) with
                | none => simp [hin] at h
                | some V => cases V <;> simp [hin] at h
          · simp only [UserAct.ascend.injEq] at h
            exact ⟨u, f, rfl, hop, by simpa [isMemSSAFunOut] using h7, h.1.symm, h.2.symm⟩

theorem callerAct_push_edge (cfg : Config) (ssa : MemSSA) (MMan : MemorySSACallsManager)
    (M : Module) (n : InstId) (U C : Value) (idx : Int) (callers : List Value) (p : InstId)
    (hU : U ∈ M.usesOf n) (hact : userAct cfg ssa MMan M U = .ascend idx callers)
    (hC : C ∈ callers) (h : callerAct cfg MMan M idx C = .push p) :
    Edge cfg ssa MMan M n p := by
  obtain ⟨u, f, hUu, hop, hcl, hidx, hcallers⟩ := userAct_ascend_inv cfg ssa MMan M U idx
    callers hact
  subst hUu hidx hcallers
  cases C with
  | nonInst => simp [callerAct] at h
  | inst CI =>
    obtain ⟨g, cs, hopC, hcs, _, _, _, hp⟩ := callerAct_push_inv cfg MMan M _ CI p h
    exact Edge.funOut hU hop hcl hC hopC hcs hp

/-- The loop over the call sites only enqueues children for the primed values. -/
theorem callersLoop_queue_mem (cfg : Config) (MMan : MemorySSACallsManager) (M : Module)
    (w : QueueElem) (idx : Int) (cs : List Value) :
    ∀ (b : PassState) (e : QueueElem),
      e ∈ (resState (callersLoop cfg MMan M w idx cs b)).queue →
      e ∈ b.queue ∨ ∃ C ∈ cs, ∃ p, callerAct cfg MMan M idx C = .push p ∧ e = childElem w p := by
  induction cs with
  | nil => intro b e h; exact Or.inl h
  | cons C rest ih =>
    intro b e h
    rw [callersLoop_cons] at h
    cases hact : callerAct cfg MMan M idx C with
    | skip =>
      rw [hact] at h
      rcases ih b e h with h | ⟨C', hC', p, hp, he⟩
      · exact Or.inl h
      · exact Or.inr ⟨C', List.mem_cons_of_mem _ hC', p, hp, he⟩
    | abort err => rw [hact] at h; exact Or.inl h
    | keepNext =>
      rw [hact] at h
      rcases ih _ e h with h | ⟨C', hC', p, hp, he⟩
      · exact Or.inl h
      · exact Or.inr ⟨C', List.mem_cons_of_mem _ hC', p, hp, he⟩
    | keepStop => rw [hact] at h; exact Or.inl h
    | push p =>
      rw [hact] at h
      rcases ih _ e h with h | ⟨C', hC', p', hp, he⟩
      · rcases List.mem_cons.1 h with h | h
        · exact Or.inr ⟨C, List.mem_cons_self _ _, p, hact, h⟩
        · exact Or.inl h
      · exact Or.inr ⟨C', List.mem_cons_of_mem _ hC', p', hp, he⟩

/-- The loop over the uses of node `n` only enqueues children for targets of followed edges. -/
theorem usersLoop_queue_mem (cfg : Config) (ssa : MemSSA) (MMan : MemorySSACallsManager)
    (M : Module) (w : QueueElem) (n : InstId) (us : List Value)
    (hus : ∀ U ∈ us, U ∈ M.usesOf n) :
    ∀ (b : PassState) (e : QueueElem),
      e ∈ (resState (usersLoop cfg ssa MMan M w us b)).queue →
      e ∈ b.queue ∨ ∃ p, Edge cfg ssa MMan M n p ∧ e = childElem w p := by
  induction us with
  | nil => intro b e h; exact Or.inl h
  | cons U rest ih =>
    intro b e h
    have hU := hus U (List.mem_cons_self _ _)
    have hrest : ∀ V ∈ rest, V ∈ M.usesOf n := fun V hV => hus V (List.mem_cons_of_mem _ hV)
    have hone : ∀ e', e' ∈ (resState (processUser cfg ssa MMan M w U b)).queue →
        e' ∈ b.queue ∨ ∃ p, Edge cfg ssa MMan M n p ∧ e' = childElem w p := by
      intro e' he'
      rw [processUser_eq] at he'
      cases hact : userAct cfg ssa MMan M U with
      | skip => rw [hact] at he'; exact Or.inl he'
      | abort err => rw [hact] at he'; exact Or.inl he'
      | keep => rw [hact] at he'; exact Or.inl he'
      | warn => rw [hact] at he'; exact Or.inl he'
      | push p =>
        rw [hact] at he'
        rcases List.mem_cons.1 he' with he' | he'
        · exact Or.inr ⟨p, userAct_push_edge cfg ssa MMan M n U p hU hact, he'⟩
        · exact Or.inl he'
      | ascend idx callers =>
        rw [hact] at he'
        rcases callersLoop_queue_mem cfg MMan M w idx callers b e' he' with he' |
          ⟨C, hC, p, hp, he'⟩
        · exact Or.inl he'
        · exact Or.inr
            ⟨p, callerAct_push_edge cfg ssa MMan M n U C idx callers p hU hact hC hp, he'⟩
    simp only [usersLoop] at h
    cases hp : processUser cfg ssa MMan M w U b with
    | error err =>
      rw [hp] at h hone
      exact hone e h
    | ok b1 =>
      rw [hp] at h hone
      rcases ih hrest b1 e h with h | h
      · exact hone e h
      · exact Or.inr h

end IPDSE


namespace IPDSE

/-! ## No chain is skipped when the hop bound is at least the number of shadow nodes -/

theorem chain_length_lt (U : Finset InstId) (P : List InstId) (n : InstId) (hn : n ∈ U)
    (hnP : n ∉ P) (hnd : P.Nodup) (hP : ∀ p ∈ P, p ∈ U) : P.length < U.card := by
  have hnd' : (n :: P).Nodup := List.nodup_cons.2 ⟨hnP, hnd⟩
  have hsub : (n :: P).toFinset ⊆ U := by
    intro x hx
    rw [List.mem_toFinset] at hx
    rcases List.mem_cons.1 hx with h | h
    · rw [h]; exact hn
    · exact hP x h
  have hcard := Finset.card_le_card hsub
  rw [List.toFinset_card_of_nodup hnd'] at hcard
  simp only [List.length_cons] at hcard
  omega

/-- Under the invariant, an element whose hop count is at the bound is in the visited set when it
is popped. -/
theorem chained_bound_visited (cfg : Config) (U : Finset InstId)
    (hbound : U.card ≤ cfg.MaxLenDefUse) (st : PassState) (w : QueueElem) (q : List QueueElem)
    (hC : Chained U st) (hq : st.queue = w :: q) (hl : w.length = cfg.MaxLenDefUse) :
    w.key ∈ st.visited := by
  by_contra hv
  obtain ⟨hwU, P, hnd, hP, hlen⟩ := hC.2 w (by rw [hq]; exact List.mem_cons_self _ _)
  have hnP : w.shadow_mem_inst ∉ P := fun hmem => hv (hP _ hmem).2
  have h1 := chain_length_lt U P w.shadow_mem_inst hwU hnP hnd (fun p hp => (hP p hp).1)
  have h2 : P.length % UINT_RANGE ≤ P.length := Nat.mod_le _ _
  omega

theorem step_chained (cfg : Config) (ssa : MemSSA) (MMan : MemorySSACallsManager)
    (M : Module) (U : Finset InstId)
    (hclosed : ∀ n n', n ∈ U → Edge cfg ssa MMan M n n' → n' ∈ U)
    (hbound : U.card ≤ cfg.MaxLenDefUse) (st st' : PassState) (hC : Chained U st)
    (hne : st.queue ≠ []) (h : step cfg ssa MMan M st = .ok st') : Chained U st' := by
  obtain ⟨w, q, hq⟩ := List.exists_cons_of_ne_nil hne
  have hrest : ∀ e ∈ q, e.shadow_mem_inst ∈ U ∧
      ∃ P : List InstId, P.Nodup ∧
        (∀ p ∈ P, p ∈ U ∧ (p, e.store_inst) ∈ w.key :: st.visited) ∧
        e.length = P.length % UINT_RANGE := by
    intro e he
    obtain ⟨heU, P, hnd, hP, hlen⟩ := hC.2 e (by rw [hq]; exact List.mem_cons_of_mem _ he)
    exact ⟨heU, P, hnd, fun p hp => ⟨(hP p hp).1, List.mem_cons_of_mem _ (hP p hp).2⟩, hlen⟩
  rcases step_shape cfg ssa MMan M st w q hq with ⟨_, h1⟩ | ⟨hv, hl, _⟩ | ⟨_, _, _, h1⟩ |
    ⟨hv, _, _, h1⟩
  · rw [h1] at h
    simp only [Except.ok.injEq] at h
    subst h
    exact ⟨hC.1, fun e he => hC.2 e (by rw [hq]; exact List.mem_cons_of_mem _ he)⟩
  · exact absurd (chained_bound_visited cfg U hbound st w q hC hq hl) hv
  · rw [h1] at h
    simp only [Except.ok.injEq] at h
    subst h
    exact ⟨hC.1, hrest⟩
  · rw [h1] at h
    cases hd : delta cfg ssa MMan M w with
    | error e => obtain ⟨e1, s1⟩ := e; rw [hd] at h; simp [liftRes] at h
    | ok b =>
      rw [hd] at h
      simp only [liftRes, Except.ok.injEq] at h
      subst h
      obtain ⟨hwU, P, hnd, hP, hlen⟩ := hC.2 w (by rw [hq]; exact List.mem_cons_self _ _)
      have hnP : w.shadow_mem_inst ∉ P := fun hmem => hv (hP _ hmem).2
      refine ⟨hC.1, fun e he => ?_⟩
      have he' : e ∈ b.queue ++ q := he
      rcases List.mem_append.1 he' with he' | he'
      · have hmem : e ∈ (resState (usersLoop cfg ssa MMan M w (M.usesOf w.shadow_mem_inst)
            PassState.init)).queue := by
          have : delta cfg ssa MMan M w
              = usersLoop cfg ssa MMan M w (M.usesOf w.shadow_mem_inst) PassState.init := rfl
          rw [← this, hd]
          exact he'
        rcases usersLoop_queue_mem cfg ssa MMan M w w.shadow_mem_inst _ (fun V hV => hV)
          PassState.init e hmem with hnil | ⟨p, hedge, hep⟩
        · simp [PassState.init] at hnil
        · subst hep
          refine ⟨hclosed _ _ hwU hedge, w.shadow_mem_inst :: P, List.nodup_cons.2 ⟨hnP, hnd⟩,
            fun x hx => ?_, ?_⟩
          · rcases List.mem_cons.1 hx with hx | hx
            · subst hx
              exact ⟨hwU, List.mem_cons_self _ _⟩
            · exact ⟨(hP x hx).1, List.mem_cons_of_mem _ (hP x hx).2⟩
          · show (w.length + 1) % UINT_RANGE = (P.length + 1) % UINT_RANGE
            rw [hlen, Nat.mod_add_mod]
      · exact hrest e he'

theorem seedAll_error_skipped (ms : List (Instruction × Option Instruction)) :
    ∀ (st st' : PassState) (e : Fatal), seedAll ms st = .error (e, st') →
      st'.skipped_chains = st.skipped_chains := by
  induction ms with
  | nil => intro st st' e h; simp [seedAll] at h
  | cons m rest ih =>
    intro st st' e h
    simp only [seedAll] at h
    cases hm : seedOf m with
    | none =>
      rw [hm] at h
      simp only [Except.error.injEq, Prod.mk.injEq] at h
      rw [← h.2]
    | some x =>
      rw [hm] at h
      rw [ih _ st' e h]
      rfl

theorem chained_seed (cfg : Config) (ssa : MemSSA) (M : Module) (U : Finset InstId)
    (hroots : ∀ w ∈ seedList cfg ssa M, w.shadow_mem_inst ∈ U)
    (st0 : PassState) (h : seedModule cfg ssa M = .ok st0) : Chained U st0 := by
  obtain ⟨h1, _, h3, _, _, _, _⟩ := seedModule_ok cfg ssa M st0 h
  refine ⟨h3, fun w hw => ?_⟩
  rw [h1, List.mem_reverse] at hw
  refine ⟨hroots w hw, [], List.nodup_nil, fun p hp => by simp at hp, ?_⟩
  unfold seedList at hw
  obtain ⟨m, _, hm⟩ := List.mem_filterMap.1 hw
  obtain ⟨x, o⟩ := m
  cases o with
  | none => simp [seedOf] at hm
  | some SI =>
    simp only [seedOf] at hm
    split_ifs at hm
    simp only [Option.some.injEq] at hm
    rw [← hm]
    rfl

/-- C12 (Scenario E generalised).  Let `U` be a set of shadow nodes that contains the markers of
all seeded stores and every node the traversal can enqueue from a node of `U`, and let the hop
bound be at least the number of nodes of `U` (as the default bound `UINT_MAX` is for every
program with fewer than 2^32 shadow nodes).  Then the traversal terminates, and the
skipped-chain counter is 0 when it ends, normally or by abort: no item is kept by the hop bound.
A store from whose marker a cycle of followed edges can be reached is kept all the same, by the
cycle guard. -/
theorem cycle_keep_without_skips (cfg : Config) (ssa : MemSSA) (M : Module)
    (U : Finset InstId) (hroots : ∀ w ∈ seedList cfg ssa M, w.shadow_mem_inst ∈ U)
    (hclosed : ∀ n n', n ∈ U →
      Edge cfg ssa (ssa.callsManager M cfg.OnlySingleton) M n n' → n' ∈ U)
    (hbound : U.card ≤ cfg.MaxLenDefUse) :
    runOnModule cfg ssa M ≠ .outOfFuel ∧
    (∀ r, runOnModule cfg ssa M = .finished r →
      r.st.skipped_chains = 0 ∧
      ∀ m s c, ({ shadow_mem_inst := m, store_inst := s, length := 0 } : QueueElem)
          ∈ seedList cfg ssa M →
        Reach cfg ssa (ssa.callsManager M cfg.OnlySingleton) M m c →
        OnCycle cfg ssa (ssa.callsManager M cfg.OnlySingleton) M c →
        r.st.decision s = some true) ∧
    (∀ e st M', runOnModule cfg ssa M = .aborted e st M' → st.skipped_chains = 0) := by
  refine ⟨runOnModule_ne_outOfFuel cfg ssa M, fun r hrun => ⟨?_, fun m s c hseed hreach hcyc =>
    finished_keep cfg ssa M r hrun m s c hseed hreach (Or.inr hcyc)⟩, fun e st M' hrun => ?_⟩
  · obtain ⟨st0, hseed0, hloop, _, _⟩ := runOnModule_finished cfg ssa M r hrun
    have h0 := chained_seed cfg ssa M U hroots st0 hseed0
    exact (mainLoop_ok_induction cfg ssa (ssa.callsManager M cfg.OnlySingleton) M (Chained U)
      (fun st st' => step_chained cfg ssa _ M U hclosed hbound st st') _ st0 r.st h0 hloop).1.1
  · obtain ⟨_, hcase⟩ := runOnModule_aborted cfg ssa M e st M' hrun
    rcases hcase with hseed | ⟨st0, hseed0, hloop⟩
    · rw [seedModule_eq_seedAll] at hseed
      rw [seedAll_error_skipped _ _ _ _ hseed]
      rfl
    · have h0 := chained_seed cfg ssa M U hroots st0 hseed0
      obtain ⟨st1, hC1, hne1, hstep1⟩ := mainLoop_error_induction cfg ssa
        (ssa.callsManager M cfg.OnlySingleton) M (Chained U)
        (fun st st' => step_chained cfg ssa _ M U hclosed hbound st st') _ st0 st e h0 hloop
      obtain ⟨w, q, hq⟩ := List.exists_cons_of_ne_nil hne1
      have hsk := step_skipped cfg ssa (ssa.callsManager M cfg.OnlySingleton) M st1 w q hq
      rw [hstep1] at hsk
      simp only [resState] at hsk
      rw [hsk, if_neg, hC1.1]
      rintro ⟨hv, hl⟩
      exact hv (chained_bound_visited cfg U hbound st1 w q hC1 hq hl)

/-- Witness of C12 (Scenario E): in `exCycleModule` the shadow nodes are the marker 10 and the
phi nodes 20 and 21, far fewer than the default hop bound; the run ends with no skipped chain. -/
theorem cycle_keep_without_skips_witness :
    (runOnModule exCfg exPlainSsa exCycleModule).report.st.skipped_chains = 0 :=
  ((cycle_keep_without_skips exCfg exPlainSsa exCycleModule {10, 20, 21} (by decide)
    (fun n n' _ he => by
      cases he
      case phi u hu hop =>
        have key : ∀ u ∈ exCycleModule.instIds, exCycleModule.opcodeOf u = some .phi →
            u ∈ ({10, 20, 21} : Finset InstId) := by decide
        exact key _ (opcodeOf_some_mem _ _ _ hop) hop
      case argRefMod u f callee fn hu hop hcl hfc hgf hin =>
        exact absurd hgf (by simp [exPlainSsa, exNoTables])
      case funOut u CI f callee cs hu hop hcl hCI hopCI hcs hpr =>
        exact absurd hcs (by simp [exPlainSsa, exNoTables]))
    (by decide)).2.1 (runOnModule exCfg exPlainSsa exCycleModule).report (by rfl)).1

end IPDSE


namespace IPDSE

/-! ## Every pair of a deleted store is enqueued once -/

theorem pushedBy_eq (cfg : Config) (ssa : MemSSA) (MMan : MemorySSACallsManager) (M : Module)
    (st : PassState) (w : QueueElem) (q ps : List QueueElem) (hq : st.queue = w :: q)
    (h : (resState (step cfg ssa MMan M st)).queue = ps ++ q) :
    pushedBy cfg ssa MMan M st = ps := by
  simp only [pushedBy, hq, h, List.length_append, Nat.add_sub_cancel]
  exact List.take_left' rfl

theorem step_visited_nodup (cfg : Config) (ssa : MemSSA) (MMan : MemorySSACallsManager)
    (M : Module) (st st' : PassState) (hnd : st.visited.Nodup) (hne : st.queue ≠ [])
    (h : step cfg ssa MMan M st = .ok st') : st'.visited.Nodup := by
  obtain ⟨w, q, hq⟩ := List.exists_cons_of_ne_nil hne
  have hvis := step_visited cfg ssa MMan M st w q hq
  rw [h] at hvis
  simp only [resState] at hvis
  rw [hvis]
  split_ifs with hv
  · exact hnd
  · exact List.nodup_cons.2 ⟨hv, hnd⟩

/-- While a store is not marked keep, the pairs still to be popped and the pairs visited so far
are, up to order, the pairs visited at the end. -/
theorem enqueued_perm (cfg : Config) (ssa : MemSSA) (MMan : MemorySSACallsManager)
    (M : Module) (s : InstId) :
    ∀ (fuel : Nat) (st fin : PassState), mainLoop cfg ssa MMan M fuel st = some (.ok fin) →
      fin.decision s ≠ some true →
      List.Perm
        (((st.queue ++ enqueued cfg ssa MMan M fuel st).filter
            (fun e => decide (e.store_inst = s))).map QueueElem.key
          ++ st.visited.filter (fun p => decide (p.2 = s)))
        (fin.visited.filter (fun p => decide (p.2 = s))) := by
  intro fuel
  induction fuel with
  | zero =>
    intro st fin h hk
    cases hq : st.queue with
    | nil =>
      simp only [mainLoop, hq, Option.some.injEq, Except.ok.injEq] at h
      subst h
      simp [enqueued]
    | cons w q => simp [mainLoop, hq] at h
  | succ n ih =>
    intro st fin h hk
    cases hq : st.queue with
    | nil =>
      simp only [mainLoop, hq, Option.some.injEq, Except.ok.injEq] at h
      subst h
      simp [enqueued, hq]
    | cons w q =>
      simp only [mainLoop, hq] at h
      cases hs : step cfg ssa MMan M st with
      | error e => rw [hs] at h; simp at h
      | ok st' =>
        rw [hs] at h
        simp only at h
        have ih' := ih st' fin h hk
        obtain ⟨⟨ps, hps, _, _, hstore⟩, _, _⟩ := step_frame cfg ssa MMan M st w q hq
        have hpush := pushedBy_eq cfg ssa MMan M st w q ps hq hps
        rw [hs] at hps
        simp only [resState] at hps
        have henq : enqueued cfg ssa MMan M (n + 1) st
            = ps ++ enqueued cfg ssa MMan M n st' := by
          simp only [enqueued, hq, hs]
          rw [hpush]
        have hvis := step_visited cfg ssa MMan M st w q hq
        rw [hs] at hvis
        simp only [resState] at hvis
        rw [henq]
        refine List.Perm.trans ?_ ih'
        rw [hps]
        by_cases hws : w.store_inst = s
        · have hnv : w.key ∉ st.visited := by
            intro hv
            have h1 : step cfg ssa MMan M st
                = .ok ({ st with queue := q }.markStoreToKeep w.store_inst) := by
              simp [step, hq, processElem, hv]
            rw [h1] at hs
            simp only [Except.ok.injEq] at hs
            have hd : st'.decision s = some true := by
              rw [← hs, ← hws]
              exact decision_markStoreToKeep _ _
            exact hk ((mainLoop_decision cfg ssa MMan M s n st' _ h).1 hd)
          rw [hvis, if_neg hnv]
          have hk2 : w.key.2 = s := hws
          rw [List.perm_iff_count]
          intro a
          simp only [List.filter_append, List.filter_cons, hws, hk2, decide_True, if_true,
            List.map_append, List.map_cons, List.count_append, List.count_cons]
          omega
        · have hpsnil : ps.filter (fun e => decide (e.store_inst = s)) = [] := by
            rw [List.filter_eq_nil_iff]
            intro p hp
            simp only [decide_eq_true_eq]
            rw [(hstore p hp).1]
            exact hws
          have hk2 : ¬ w.key.2 = s := hws
          have hvis' : st'.visited.filter (fun p => decide (p.2 = s))
              = st.visited.filter (fun p => decide (p.2 = s)) := by
            rw [hvis]
            split_ifs
            · rfl
            · simp [List.filter_cons, hk2]
          rw [hvis']
          simp only [List.filter_append, List.filter_cons, hws, decide_False, hpsnil,
            List.nil_append, Bool.false_eq_true, if_false]
          exact List.Perm.refl _

/-- In a run that ends with store `s` not marked keep, no pair of `s` was in the queue twice. -/
theorem enqueuedPairs_nodup (cfg : Config) (ssa : MemSSA) (M : Module) (r : Report)
    (hrun : runOnModule cfg ssa M = .finished r) (st0 : PassState)
    (hseed : seedModule cfg ssa M = .ok st0) (s : InstId)
    (hk : r.st.decision s ≠ some true) : (enqueuedPairs cfg ssa M st0 s).Nodup := by
  obtain ⟨st0', hseed0, hloop, _, _⟩ := runOnModule_finished cfg ssa M r hrun
  rw [hseed] at hseed0
  simp only [Except.ok.injEq] at hseed0
  subst hseed0
  obtain ⟨_, hv0, _⟩ := seedModule_ok cfg ssa M st0 hseed
  have hnd : r.st.visited.Nodup :=
    (mainLoop_ok_induction cfg ssa (ssa.callsManager M cfg.OnlySingleton) M
      (fun st => st.visited.Nodup)
      (fun st st' => step_visited_nodup cfg ssa _ M st st') _ st0 r.st
      (by show st0.visited.Nodup; rw [hv0]; exact List.nodup_nil) hloop).1
  have hperm := enqueued_perm cfg ssa (ssa.callsManager M cfg.OnlySingleton) M s _ st0 r.st
    hloop hk
  rw [hv0] at hperm
  simp only [List.filter_nil, List.append_nil] at hperm
  exact (List.Perm.nodup_iff hperm).2 (hnd.filter _)

end IPDSE


namespace IPDSE

/-! ## Reconvergence -/

/-- With a certificate, every node reachable from a seeded marker has an element in it. -/
theorem cert_mem_of_reach (cfg : Config) (ssa : MemSSA) (MMan : MemorySSACallsManager)
    (M : Module) (s : InstId) (seeds L : Multiset QueueElem)
    (hC : DeadCert cfg ssa MMan M s seeds L) (w0 : QueueElem) (hw0 : w0 ∈ seeds) (n : InstId)
    (hr : Reach cfg ssa MMan M w0.shadow_mem_inst n) : ∃ w ∈ L, w.shadow_mem_inst = n := by
  induction hr with
  | refl =>
    refine ⟨w0, ?_, rfl⟩
    rw [hC.closed]
    exact Multiset.mem_add.2 (Or.inl hw0)
  | tail _ hbc ih =>
    obtain ⟨w, hw, hwn⟩ := ih
    have hq : Quiet cfg ssa MMan M w.shadow_mem_inst := (hC.adm w hw).1.2.2
    rw [← hwn] at hbc
    have hmem := edge_mem_quietPushes cfg ssa MMan M _ _ hbc hq
    refine ⟨childElem w _, ?_, rfl⟩
    rw [hC.closed]
    refine Multiset.mem_add.2 (Or.inr (Multiset.mem_bind.2 ⟨w, hw, ?_⟩))
    exact Multiset.mem_coe.2 (List.mem_map_of_mem _ hmem)

/-- No member of a certificate has the same child twice. -/
theorem cert_child_once (cfg : Config) (ssa : MemSSA) (MMan : MemorySSACallsManager)
    (M : Module) (s : InstId) (seeds L : Multiset QueueElem)
    (hC : DeadCert cfg ssa MMan M s seeds L) (w : QueueElem) (hw : w ∈ L) (e : QueueElem) :
    (children cfg ssa MMan M w).count e ≤ 1 := by
  have hnd : L.Nodup := Multiset.Nodup.of_map _ hC.nodup
  have h1 := Multiset.nodup_iff_count_le_one.1 hnd e
  have hL : L = seeds + (w ::ₘ L.erase w).bind
      (fun w => (↑(children cfg ssa MMan M w) : Multiset QueueElem)) := by
    rw [Multiset.cons_erase hw]
    exact hC.closed
  rw [hL, Multiset.cons_bind, Multiset.count_add, Multiset.count_add, Multiset.coe_count] at h1
  omega

/-- No two members of a certificate have a child in common. -/
theorem cert_child_unique (cfg : Config) (ssa : MemSSA) (MMan : MemorySSACallsManager)
    (M : Module) (s : InstId) (seeds L : Multiset QueueElem)
    (hC : DeadCert cfg ssa MMan M s seeds L) (w1 w2 : QueueElem) (h1 : w1 ∈ L) (h2 : w2 ∈ L)
    (hne : w1 ≠ w2) (e : QueueElem) (he1 : e ∈ children cfg ssa MMan M w1)
    (he2 : e ∈ children cfg ssa MMan M w2) : False := by
  have hnd : L.Nodup := Multiset.Nodup.of_map _ hC.nodup
  have hc := Multiset.nodup_iff_count_le_one.1 hnd e
  have h2' : w2 ∈ L.erase w1 := (Multiset.mem_erase_of_ne (Ne.symm hne)).2 h2
  have hL : L = seeds + (w1 ::ₘ w2 ::ₘ (L.erase w1).erase w2).bind
      (fun w => (↑(children cfg ssa MMan M w) : Multiset QueueElem)) := by
    rw [Multiset.cons_erase h2', Multiset.cons_erase h1]
    exact hC.closed
  rw [hL, Multiset.cons_bind, Multiset.cons_bind, Multiset.count_add, Multiset.count_add,
    Multiset.count_add, Multiset.coe_count, Multiset.coe_count] at hc
  have c1 := List.count_pos_iff.2 he1
  have c2 := List.count_pos_iff.2 he2
  omega

theorem count_phi_le_quietPushes (cfg : Config) (ssa : MemSSA) (MMan : MemorySSACallsManager)
    (M : Module) (n c : InstId) (hop : M.opcodeOf c = some .phi) :
    (M.usesOf n).count (.inst c) ≤ (quietPushes cfg ssa MMan M n).count c := by
  unfold quietPushes
  induction M.usesOf n with
  | nil => simp
  | cons U rest ih =>
    rw [List.flatMap_cons, List.count_append, List.count_cons]
    by_cases hU : U = .inst c
    · subst hU
      have : userPushes cfg ssa MMan M (.inst c) = some [c] := by
        simp [userPushes, userAct_phi cfg ssa MMan M c hop]
      simp only [this, Option.getD_some, List.count_singleton_self, beq_self_eq_true, if_true]
      omega
    · have hne : (U == Value.inst c) = false := by simpa using hU
      simp only [hne, Bool.false_eq_true, if_false]
      omega

/-- A finished run in which some node is enqueued from two different reachable nodes, or twice
from one reachable node, marks the store keep. -/
theorem keep_of_reconvergence (cfg : Config) (ssa : MemSSA) (M : Module) (r : Report)
    (hrun : runOnModule cfg ssa M = .finished r) (m s : InstId)
    (hseed : ({ shadow_mem_inst := m, store_inst := s, length := 0 } : QueueElem)
      ∈ seedList cfg ssa M) :
    (∀ n1 n2 c, n1 ≠ n2 →
      Reach cfg ssa (ssa.callsManager M cfg.OnlySingleton) M m n1 →
      Reach cfg ssa (ssa.callsManager M cfg.OnlySingleton) M m n2 →
      Edge cfg ssa (ssa.callsManager M cfg.OnlySingleton) M n1 c →
      Edge cfg ssa (ssa.callsManager M cfg.OnlySingleton) M n2 c →
      r.st.decision s = some true) ∧
    (∀ n c, Reach cfg ssa (ssa.callsManager M cfg.OnlySingleton) M m n →
      2 ≤ (quietPushes cfg ssa (ssa.callsManager M cfg.OnlySingleton) M n).count c →
      r.st.decision s = some true) := by
  obtain ⟨st0, hseed0, hloop, _, _⟩ := runOnModule_finished cfg ssa M r hrun
  obtain ⟨hq0, hv0, _⟩ := seedModule_ok cfg ssa M st0 hseed0
  have hw0 : ({ shadow_mem_inst := m, store_inst := s, length := 0 } : QueueElem)
      ∈ ofStore s st0.queue := by
    unfold ofStore
    rw [Multiset.mem_coe, List.mem_filter, hq0, List.mem_reverse]
    exact ⟨hseed, by simp⟩
  have hcert : r.st.decision s ≠ some true →
      ∃ L, DeadCert cfg ssa (ssa.callsManager M cfg.OnlySingleton) M s (ofStore s st0.queue) L :=
    deadCert_of_run cfg ssa _ M s _ st0 r.st hv0 hloop
  refine ⟨fun n1 n2 c hne hr1 hr2 he1 he2 => ?_, fun n c hr hcount => ?_⟩
  · by_contra hk
    obtain ⟨L, hC⟩ := hcert hk
    obtain ⟨w1, hw1, hn1⟩ := cert_mem_of_reach cfg ssa _ M s _ L hC _ hw0 n1 hr1
    obtain ⟨w2, hw2, hn2⟩ := cert_mem_of_reach cfg ssa _ M s _ L hC _ hw0 n2 hr2
    have hw12 : w1 ≠ w2 := by
      intro h
      rw [h, hn2] at hn1
      exact hne hn1.symm
    have hq1 := (hC.adm w1 hw1).1.2.2
    have hq2 := (hC.adm w2 hw2).1.2.2
    rw [← hn1] at he1
    rw [← hn2] at he2
    have hm1 : childElem w1 c ∈ children cfg ssa (ssa.callsManager M cfg.OnlySingleton) M w1 :=
      List.mem_map_of_mem _ (edge_mem_quietPushes cfg ssa _ M _ _ he1 hq1)
    have hm2 : childElem w2 c ∈ children cfg ssa (ssa.callsManager M cfg.OnlySingleton) M w2 :=
      List.mem_map_of_mem _ (edge_mem_quietPushes cfg ssa _ M _ _ he2 hq2)
    have hin : ∀ w ∈ L, ∀ e ∈ children cfg ssa (ssa.callsManager M cfg.OnlySingleton) M w,
        e ∈ L := by
      intro w hw e he
      rw [hC.closed]
      exact Multiset.mem_add.2 (Or.inr (Multiset.mem_bind.2 ⟨w, hw, Multiset.mem_coe.2 he⟩))
    have hkey : (childElem w1 c).key = (childElem w2 c).key := by
      simp [childElem, QueueElem.key, (hC.adm w1 hw1).2, (hC.adm w2 hw2).2]
    have heq : childElem w1 c = childElem w2 c :=
      Multiset.inj_on_of_nodup_map hC.nodup _ (hin w1 hw1 _ hm1) _ (hin w2 hw2 _ hm2) hkey
    rw [heq] at hm1
    exact cert_child_unique cfg ssa _ M s _ L hC w1 w2 hw1 hw2 hw12 _ hm1 hm2
  · by_contra hk
    obtain ⟨L, hC⟩ := hcert hk
    obtain ⟨w, hw, hn⟩ := cert_mem_of_reach cfg ssa _ M s _ L hC _ hw0 n hr
    have h1 := cert_child_once cfg ssa _ M s _ L hC w hw (childElem w c)
    have h2 : (quietPushes cfg ssa (ssa.callsManager M cfg.OnlySingleton) M n).count c
        ≤ (children cfg ssa (ssa.callsManager M cfg.OnlySingleton) M w).count
            (childElem w c) := by
      unfold children
      rw [hn]
      exact List.count_le_count_map _ _ _
    omega

end IPDSE


namespace IPDSE

/-! ## Claim on reconverging shadow values -/

/-- C21 (reconvergence forces keep).  In a run that does not abort: a store that the Store
Eliminator deletes had every pair `(node, store)` in the queue at most once during the whole
traversal, seeds included.  Hence a seeded store is marked keep, and left in the module, as soon
as some node is enqueued twice for it: from two different nodes reachable from its marker that
both have a followed edge to the node (a phi diamond), or twice from one reachable node (in
particular a phi node that has the same shadow value in two of its operands).  Neither a cycle
nor a Load user is needed for that. -/
theorem reconvergence_forces_keep (cfg : Config) (ssa : MemSSA) (M : Module) (r : Report)
    (hrun : runOnModule cfg ssa M = .finished r) :
    (∀ st0 s, seedModule cfg ssa M = .ok st0 → s ∈ M.instIds → s ∉ r.eliminated.instIds →
      (enqueuedPairs cfg ssa M st0 s).Nodup) ∧
    (∀ m s, ({ shadow_mem_inst := m, store_inst := s, length := 0 } : QueueElem)
        ∈ seedList cfg ssa M →
      (∀ n1 n2 c, n1 ≠ n2 →
        Reach cfg ssa (ssa.callsManager M cfg.OnlySingleton) M m n1 →
        Reach cfg ssa (ssa.callsManager M cfg.OnlySingleton) M m n2 →
        Edge cfg ssa (ssa.callsManager M cfg.OnlySingleton) M n1 c →
        Edge cfg ssa (ssa.callsManager M cfg.OnlySingleton) M n2 c →
        r.st.decision s = some true ∧ s ∈ r.eliminated.instIds) ∧
      (∀ n c, Reach cfg ssa (ssa.callsManager M cfg.OnlySingleton) M m n →
        2 ≤ (quietPushes cfg ssa (ssa.callsManager M cfg.OnlySingleton) M n).count c →
        r.st.decision s = some true ∧ s ∈ r.eliminated.instIds) ∧
      (∀ n c, Reach cfg ssa (ssa.callsManager M cfg.OnlySingleton) M m n →
        M.opcodeOf c = some .phi → 2 ≤ (M.usesOf n).count (.inst c) →
        r.st.decision s = some true ∧ s ∈ r.eliminated.instIds)) := by
  refine ⟨fun st0 s hseed hs hdel => ?_, fun m s hseed => ?_⟩
  · apply enqueuedPairs_nodup cfg ssa M r hrun st0 hseed s
    intro hk
    apply hdel
    exact kept_not_deleted cfg ssa M r hrun s (by rw [hk]; simp) hs
  · obtain ⟨hdiamond, hdouble⟩ := keep_of_reconvergence cfg ssa M r hrun m s hseed
    have hkept : r.st.decision s = some true →
        r.st.decision s = some true ∧ s ∈ r.eliminated.instIds := fun hk =>
      ⟨hk, kept_not_deleted cfg ssa M r hrun s (by rw [hk]; simp)
        (seed_store_mem_instIds cfg ssa M _ hseed)⟩
    refine ⟨fun n1 n2 c hne hr1 hr2 he1 he2 => hkept (hdiamond n1 n2 c hne hr1 hr2 he1 he2),
      fun n c hr hcount => hkept (hdouble n c hr hcount),
      fun n c hr hop hcount => hkept (hdouble n c hr ?_)⟩
    have := count_phi_le_quietPushes cfg ssa (ssa.callsManager M cfg.OnlySingleton) M n c hop
    omega

/-- Witness of C21: in the phi diamond `exDiamondModule` the node 22 is enqueued from 20 and from
21, and in `exDoubleUseModule` the phi node 20 uses the marker 10 twice; in both, store 11 is
kept and left in the module, without any cycle or Load user. -/
theorem reconvergence_forces_keep_witness :
    ((runOnModule exCfg exPlainSsa exDiamondModule).report.st.decision 11 = some true ∧
      11 ∈ (runOnModule exCfg exPlainSsa exDiamondModule).report.eliminated.instIds) ∧
    ((runOnModule exCfg exPlainSsa exDoubleUseModule).report.st.decision 11 = some true ∧
      11 ∈ (runOnModule exCfg exPlainSsa exDoubleUseModule).report.eliminated.instIds) :=
  ⟨((reconvergence_forces_keep exCfg exPlainSsa exDiamondModule
      (runOnModule exCfg exPlainSsa exDiamondModule).report (by rfl)).2 10 11 (by decide)).1
      20 21 22 (by decide)
      (Relation.ReflTransGen.single
        (Edge.phi (by decide) (by decide) :
          Edge exCfg exPlainSsa (exPlainSsa.callsManager exDiamondModule exCfg.OnlySingleton)
            exDiamondModule 10 20))
      (Relation.ReflTransGen.single
        (Edge.phi (by decide) (by decide) :
          Edge exCfg exPlainSsa (exPlainSsa.callsManager exDiamondModule exCfg.OnlySingleton)
            exDiamondModule 10 21))
      (Edge.phi (by decide) (by decide)) (Edge.phi (by decide) (by decide)),
    ((reconvergence_forces_keep exCfg exPlainSsa exDoubleUseModule
      (runOnModule exCfg exPlainSsa exDoubleUseModule).report (by rfl)).2 10 11
      (by decide)).2.2 10 20 Relation.ReflTransGen.refl (by decide) (by decide)⟩

end IPDSE


namespace IPDSE

/-! ## A hop bound of 0 -/

theorem seedList_length_zero (cfg : Config) (ssa : MemSSA) (M : Module) (w : QueueElem)
    (hw : w ∈ seedList cfg ssa M) : w.length = 0 := by
  unfold seedList at hw
  obtain ⟨m, _, hm⟩ := List.mem_filterMap.1 hw
  obtain ⟨x, o⟩ := m
  cases o with
  | none => simp [seedOf] at hm
  | some SI =>
    simp only [seedOf] at hm
    split_ifs at hm
    simp only [Option.some.injEq] at hm
    rw [← hm]

/-- With a hop bound of 0, the iteration on a hop-0 element only looks at the visited set. -/
theorem step_hop_zero (cfg : Config) (ssa : MemSSA) (MMan : MemorySSACallsManager) (M : Module)
    (h0 : cfg.MaxLenDefUse = 0) (st : PassState) (w : QueueElem) (q : List QueueElem)
    (hq : st.queue = w :: q) (hl : w.length = 0) :
    step cfg ssa MMan M st = .ok
      { queue := q
        visited := if w.key ∈ st.visited then st.visited else w.key :: st.visited
        m_store_map := storeMapSet w.store_inst true st.m_store_map
        skipped_chains :=
          if w.key ∈ st.visited then st.skipped_chains else st.skipped_chains + 1
        warnings := st.warnings } := by
  have hl' : w.length = cfg.MaxLenDefUse := by rw [hl, h0]
  by_cases hv : w.key ∈ st.visited
  · simp [step, hq, processElem, hv, PassState.markStoreToKeep]
  · simp [step, hq, processElem, hv, hl', PassState.markStoreToKeep]

theorem step_seedsOnly (cfg : Config) (ssa : MemSSA) (MMan : MemorySSACallsManager)
    (M : Module) (h0 : cfg.MaxLenDefUse = 0) (S : List InstId) (st st' : PassState)
    (hS : SeedsOnly S st) (hne : st.queue ≠ []) (h : step cfg ssa MMan M st = .ok st') :
    SeedsOnly S st' := by
  obtain ⟨w, q, hq⟩ := List.exists_cons_of_ne_nil hne
  obtain ⟨hlen, hdec, hwarn⟩ := hS
  have hl := hlen w (by rw [hq]; exact List.mem_cons_self _ _)
  rw [step_hop_zero cfg ssa MMan M h0 st w q hq hl] at h
  simp only [Except.ok.injEq] at h
  subst h
  refine ⟨fun e he => hlen e (by rw [hq]; exact List.mem_cons_of_mem _ he), fun s hs => ?_,
    hwarn⟩
  by_cases hsw : s = w.store_inst
  · left
    rw [hsw]
    exact storeMapGet_set_self _ _ _
  · rcases hdec s hs with hk | hmem
    · left
      show storeMapGet s (storeMapSet w.store_inst true st.m_store_map) = some true
      rw [storeMapGet_set_ne _ _ _ _ hsw]
      exact hk
    · right
      rw [hq, List.map_cons, List.mem_cons] at hmem
      rcases hmem with hmem | hmem
      · exact absurd hmem hsw
      · exact hmem

theorem step_counted (cfg : Config) (ssa : MemSSA) (MMan : MemorySSACallsManager)
    (M : Module) (h0 : cfg.MaxLenDefUse = 0) (N : Nat) (st st' : PassState)
    (hC : (∀ w ∈ st.queue, w.length = 0) ∧ Counted N st) (hne : st.queue ≠ [])
    (h : step cfg ssa MMan M st = .ok st') :
    (∀ w ∈ st'.queue, w.length = 0) ∧ Counted N st' := by
  obtain ⟨w, q, hq⟩ := List.exists_cons_of_ne_nil hne
  obtain ⟨hlen, hnd, hnv, hsum⟩ := hC
  have hl := hlen w (by rw [hq]; exact List.mem_cons_self _ _)
  have hv : w.key ∉ st.visited := hnv w (by rw [hq]; exact List.mem_cons_self _ _)
  rw [step_hop_zero cfg ssa MMan M h0 st w q hq hl] at h
  simp only [Except.ok.injEq] at h
  subst h
  rw [hq, List.map_cons, List.nodup_cons] at hnd
  rw [hq, List.length_cons] at hsum
  refine ⟨fun e he => hlen e (by rw [hq]; exact List.mem_cons_of_mem _ he), hnd.2,
    fun e he => ?_, ?_⟩
  · simp only [hv, if_false, List.mem_cons, not_or]
    refine ⟨fun heq => hnd.1 ?_, hnv e (by rw [hq]; exact List.mem_cons_of_mem _ he)⟩
    rw [← heq]
    exact List.mem_map_of_mem _ he
  · simp only [hv, if_false]
    omega

/-- With a hop bound of 0, a traversal that starts with hop-0 elements only is the same for every
program, instrumentation and effect tables: nothing but its own state is looked at. -/
theorem mainLoop_hop_zero_indep (cfg : Config) (ssa ssa' : MemSSA)
    (MMan MMan' : MemorySSACallsManager) (M M' : Module) (h0 : cfg.MaxLenDefUse = 0) :
    ∀ (fuel : Nat) (st : PassState), (∀ w ∈ st.queue, w.length = 0) →
      mainLoop cfg ssa MMan M fuel st = mainLoop cfg ssa' MMan' M' fuel st := by
  intro fuel
  induction fuel with
  | zero => intro st _; rfl
  | succ n ih =>
    intro st hlen
    cases hq : st.queue with
    | nil => simp [mainLoop, hq]
    | cons w q =>
      have hl := hlen w (by rw [hq]; exact List.mem_cons_self _ _)
      simp only [mainLoop, hq, step_hop_zero cfg ssa MMan M h0 st w q hq hl,
        step_hop_zero cfg ssa' MMan' M' h0 st w q hq hl]
      exact ih _ (fun e he => hlen e (by rw [hq]; exact List.mem_cons_of_mem _ he))

theorem seedsOnly_seed (cfg : Config) (ssa : MemSSA) (M : Module) (st0 : PassState)
    (h : seedModule cfg ssa M = .ok st0) :
    SeedsOnly ((seedList cfg ssa M).map (fun e => e.store_inst)) st0 := by
  obtain ⟨h1, _, _, h4, _⟩ := seedModule_ok cfg ssa M st0 h
  refine ⟨fun w hw => ?_, fun s hs => Or.inr ?_, h4⟩
  · rw [h1, List.mem_reverse] at hw
    exact seedList_length_zero cfg ssa M w hw
  · rw [h1, List.map_reverse, List.mem_reverse]
    exact hs

theorem counted_seed (cfg : Config) (ssa : MemSSA) (M : Module) (hWF : M.WF) (st0 : PassState)
    (h : seedModule cfg ssa M = .ok st0) : Counted (seedList cfg ssa M).length st0 := by
  obtain ⟨h1, h2, h3, _⟩ := seedModule_ok cfg ssa M st0 h
  have hst := seedList_stores_nodup cfg ssa M hWF
  have hkeys : ((seedList cfg ssa M).map QueueElem.key).Nodup := by
    have hmap : (seedList cfg ssa M).map (fun e => e.store_inst)
        = ((seedList cfg ssa M).map QueueElem.key).map Prod.snd := by
      rw [List.map_map]
      rfl
    rw [hmap] at hst
    exact List.Nodup.of_map _ hst
  refine ⟨?_, fun w _ => by rw [h2]; simp, ?_⟩
  · rw [h1, List.map_reverse]
    exact List.nodup_reverse.2 hkeys
  · rw [h1, h3, List.length_reverse, Nat.zero_add]

/-- C22 (hop bound 0 disables elimination).  With the hop bound set to 0, for every program whose
seeding does not abort: the pass ends normally; every iteration of the main loop pops a hop-0
item, marks its store keep and enqueues nothing, and the whole traversal looks at nothing but
its own state (it is the same for every program and instrumentation, so no successor is
examined, and no warning is written); every seeded store is marked keep at the end and no store
is deleted (the module handed to the Shadow Stripper is the input module, the reported count is
0); and, instruction addresses being unique, the final skipped-chain count is the number of
seeded stores. -/
theorem hop_bound_zero_disables_elimination (cfg : Config) (ssa : MemSSA) (M : Module)
    (st0 : PassState) (h0 : cfg.MaxLenDefUse = 0) (hseed : seedModule cfg ssa M = .ok st0) :
    (∃ r, runOnModule cfg ssa M = .finished r ∧
      (∀ s ∈ (seedList cfg ssa M).map (fun e => e.store_inst), r.st.decision s = some true) ∧
      (∀ i, r.st.decision i ≠ some false) ∧
      r.eliminated = M ∧ r.num_deleted = 0 ∧ r.st.warnings = 0 ∧
      (M.WF → r.st.skipped_chains
        = ((seedList cfg ssa M).map (fun e => e.store_inst)).toFinset.card)) ∧
    (∀ (MMan : MemorySSACallsManager) (st : PassState) (w : QueueElem) (q : List QueueElem),
      st.queue = w :: q → w.length = 0 →
      ∃ st', step cfg ssa MMan M st = .ok st' ∧ st'.decision w.store_inst = some true ∧
        st'.queue = q ∧ st'.warnings = st.warnings) ∧
    (∀ (ssa' : MemSSA) (MMan' : MemorySSACallsManager) (M' : Module) (fuel : Nat),
      mainLoop cfg ssa (ssa.callsManager M cfg.OnlySingleton) M fuel st0
        = mainLoop cfg ssa' MMan' M' fuel st0) := by
  have hS0 := seedsOnly_seed cfg ssa M st0 hseed
  have hstepS := fun st st' =>
    step_seedsOnly cfg ssa (ssa.callsManager M cfg.OnlySingleton) M h0
      ((seedList cfg ssa M).map (fun e => e.store_inst)) st st'
  refine ⟨?_, fun MMan st w q hq hl => ?_, fun ssa' MMan' M' fuel =>
    mainLoop_hop_zero_indep cfg ssa ssa' _ MMan' M M' h0 fuel st0 hS0.1⟩
  · cases hrun : runOnModule cfg ssa M with
    | outOfFuel => exact absurd hrun (runOnModule_ne_outOfFuel cfg ssa M)
    | aborted e st M' =>
      exfalso
      obtain ⟨_, hcase⟩ := runOnModule_aborted cfg ssa M e st M' hrun
      rcases hcase with herr | ⟨st0', hseed', hloop⟩
      · rw [hseed] at herr
        simp at herr
      · rw [hseed] at hseed'
        simp only [Except.ok.injEq] at hseed'
        subst hseed'
        obtain ⟨st1, hS1, hne1, hstep1⟩ := mainLoop_error_induction cfg ssa
          (ssa.callsManager M cfg.OnlySingleton) M _ hstepS _ st0 st e hS0 hloop
        obtain ⟨w, q, hq⟩ := List.exists_cons_of_ne_nil hne1
        rw [step_hop_zero cfg ssa _ M h0 st1 w q hq
          (hS1.1 w (by rw [hq]; exact List.mem_cons_self _ _))] at hstep1
        simp at hstep1
    | finished r =>
      obtain ⟨st0', hseed', hloop, _, _⟩ := runOnModule_finished cfg ssa M r hrun
      rw [hseed] at hseed'
      simp only [Except.ok.injEq] at hseed'
      subst hseed'
      obtain ⟨hSfin, hqfin⟩ := mainLoop_ok_induction cfg ssa
        (ssa.callsManager M cfg.OnlySingleton) M _ hstepS _ st0 r.st hS0 hloop
      obtain ⟨_, hnd, hkeys, he, hn⟩ := finished_facts cfg ssa M r hrun
      have hkeep : ∀ s ∈ (seedList cfg ssa M).map (fun e => e.store_inst),
          r.st.decision s = some true := by
        intro s hs
        rcases hSfin.2.1 s hs with hk | hmem
        · exact hk
        · rw [hqfin] at hmem
          simp at hmem
      have hnofalse : ∀ i, r.st.decision i ≠ some false := by
        intro i hi
        have hmem := (hkeys i).1 (by rw [hi]; simp)
        rw [hkeep i hmem] at hi
        simp at hi
      have hpred : (fun i => decide ((i, false) ∉ r.st.m_store_map)) = (fun _ => true) := by
        funext i
        simp only [decide_eq_true_eq]
        intro hmem
        exact hnofalse i ((mem_false_iff_decision r.st hnd i).1 hmem)
      refine ⟨r, rfl, hkeep, hnofalse, ?_, ?_, hSfin.2.2, fun hWF => ?_⟩
      · rw [he, eliminate_keepOnly, hpred, keepOnly_true]
      · rw [hn, (eliminate_spec _ M 0).2, Nat.zero_add, List.length_eq_zero,
          List.filter_eq_nil_iff]
        rintro ⟨k, v⟩ hkv
        cases v with
        | true => simp
        | false => exact absurd ((mem_false_iff_decision r.st hnd k).1 hkv) (hnofalse k)
      · have hC0 := counted_seed cfg ssa M hWF st0 hseed
        obtain ⟨⟨_, _, _, hsum⟩, _⟩ := mainLoop_ok_induction cfg ssa
          (ssa.callsManager M cfg.OnlySingleton) M _
          (fun st st' => step_counted cfg ssa _ M h0 (seedList cfg ssa M).length st st')
          _ st0 r.st ⟨hS0.1, hC0⟩ hloop
        rw [hqfin] at hsum
        rw [List.toFinset_card_of_nodup (seedList_stores_nodup cfg ssa M hWF), List.length_map]
        simpa using hsum
  · refine ⟨_, step_hop_zero cfg ssa MMan M h0 st w q hq hl, ?_, rfl, rfl⟩
    exact storeMapGet_set_self _ _ _

/-- Witness of C22: with a hop bound of 0, the run on `exOrderModule` keeps both seeded stores,
11 and 31, deletes nothing and reports two skipped chains. -/
theorem hop_bound_zero_disables_elimination_witness :
    (runOnModule exZeroHopCfg exOrderSsa exOrderModule).report.st.decision 11 = some true ∧
    (runOnModule exZeroHopCfg exOrderSsa exOrderModule).report.st.decision 31 = some true ∧
    (runOnModule exZeroHopCfg exOrderSsa exOrderModule).report.eliminated = exOrderModule ∧
    (runOnModule exZeroHopCfg exOrderSsa exOrderModule).report.num_deleted = 0 ∧
    (runOnModule exZeroHopCfg exOrderSsa exOrderModule).report.st.skipped_chains = 2 := by
  obtain ⟨r, hr, hkeep, _, he, hn, _, hsk⟩ :=
    (hop_bound_zero_disables_elimination exZeroHopCfg exOrderSsa exOrderModule exSeededTwo
      (by rfl) (by rfl)).1
  rw [hr]
  refine ⟨hkeep 11 (by decide), hkeep 31 (by decide), he, hn, ?_⟩
  show r.st.skipped_chains = 2
  rw [hsk (by decide)]
  decide

end IPDSE


namespace IPDSE

/-! ## Chains that reach the hop bound -/

end IPDSE


namespace IPDSE

/-! ## Claim on the hop bound -/

end IPDSE
